import Mathlib

/-!
# Taint abstract domain of mariana-trench: `CalleeFrames`, `CallEffect`

A shallow embedding of `source/CalleeFrames.cpp` and `source/CallEffects.cpp`.

* Pointers to interned objects (`const Method*`, `const Position*`, ...) are
  natural-number handles; a nullable pointer is an `Option`.
* `mt_assert` aborts the process: a function that contains one returns
  `Except Failure _`, and a failed assertion is `.error .assertion`.
* The sparta container `PatriciaTreeMapAbstractPartition` is embedded as a
  duplicate-free association list without bottom values, plus the top element.
* `CallPositionFrames` enters the lattice operations of `CalleeFrames` only
  through the `AbstractDomain` interface, so the lattice theorems hold for
  every lattice of position groups.
* `Frame`, `CallPositionFrames`, the access-path helpers and the declarations
  of CalleeFrames.h are not among the sources. They are modelled from the
  specification, and each such definition says so.
-/

namespace MarianaTrench

/-! ## Handles and failures -/

/-- Interned `const Method*`. -/
abbrev Method := Nat

/-- Interned `const Position*`. -/
abbrev Position := Nat

/-- Interned `const Kind*`. -/
abbrev Kind := Nat

/-- Interned `const Field*`. -/
abbrev Field := Nat

/-- Interned `const Feature*`. -/
abbrev Feature := Nat

/-- How a call stops without returning: a failed `mt_assert`, or a failed
`RUNTIME_CHECK` of sparta (an operation that is undefined on top). -/
inductive Failure where
  | assertion
  | undefined_operation
  deriving DecidableEq, Repr

/-! ## The abstract domain interface (`sparta::AbstractDomain`) -/

/-- The operations `CalleeFrames` calls on the values of its partition, with
the lattice laws every `sparta::AbstractDomain` has to satisfy. `leq` and
`equals` are the boolean member functions; `join x y` is `x.join_with(y)`
returning the new value of `x`, and likewise for the other operations. -/
class AbstractDomain (D : Type) where
  bottom : D
  is_bottom : D → Bool
  leq : D → D → Bool
  equals : D → D → Bool
  join : D → D → D
  widen : D → D → D
  meet : D → D → D
  narrow : D → D → D
  difference : D → D → D
  is_bottom_bottom : is_bottom bottom = true
  bottom_leq : ∀ x y, is_bottom x = true → leq x y = true
  leq_bottom : ∀ x y, leq x y = true → is_bottom y = true → is_bottom x = true
  leq_refl : ∀ x, leq x x = true
  leq_trans : ∀ x y z, leq x y = true → leq y z = true → leq x z = true
  equals_iff : ∀ x y, equals x y = true ↔ (leq x y = true ∧ leq y x = true)
  leq_join_left : ∀ x y, leq x (join x y) = true
  leq_join_right : ∀ x y, leq y (join x y) = true
  join_least : ∀ x y z, leq x z = true → leq y z = true → leq (join x y) z = true
  leq_widen_left : ∀ x y, leq x (widen x y) = true
  leq_widen_right : ∀ x y, leq y (widen x y) = true
  meet_leq_left : ∀ x y, leq (meet x y) x = true
  meet_leq_right : ∀ x y, leq (meet x y) y = true
  meet_greatest : ∀ x y z, leq z x = true → leq z y = true → leq z (meet x y) = true
  narrow_leq_left : ∀ x y, leq (narrow x y) x = true
  difference_leq : ∀ x y, leq (difference x y) x = true
  difference_self : ∀ x, is_bottom (difference x x) = true

/-- An abstract domain that also has a top element, above every value. -/
class AbstractDomainWithTop (D : Type) extends AbstractDomain D where
  top : D
  leq_top : ∀ x, leq x top = true

/-! ## `sparta::PatriciaTreeMap` with bottom as the default value -/

/-- The value bound to `k` in an association list, if any. -/
def lookup {K V : Type} [DecidableEq K] (l : List (K × V)) (k : K) : Option V :=
  match l with
  | [] => none
  | e :: rest => if e.1 = k then some e.2 else lookup rest k

/-- A `sparta::PatriciaTreeMap<K, D>` whose default value is `D::bottom()`:
finitely many bindings, one per key, none of them to the default value. -/
structure PatriciaTreeMap (K D : Type) [DecidableEq K] [AbstractDomain D] where
  entries : List (K × D)
  nodup_keys : (entries.map Prod.fst).Nodup
  no_default : ∀ e ∈ entries, AbstractDomain.is_bottom e.2 = false

namespace PatriciaTreeMap

variable {K D : Type} [DecidableEq K] [AbstractDomain D]

/-- The empty map. -/
def empty : PatriciaTreeMap K D := ⟨[], List.nodup_nil, by simp⟩

/-- Whether the map has no binding: `empty()`. -/
def is_empty (m : PatriciaTreeMap K D) : Bool := m.entries.isEmpty

/-- The bound keys. -/
def keys (m : PatriciaTreeMap K D) : List K := m.entries.map Prod.fst

/-- The value bound to `k`, or the default value: `at(k)`. -/
def get (m : PatriciaTreeMap K D) (k : K) : D :=
  match lookup m.entries k with
  | some v => v
  | none => AbstractDomain.bottom

/-- The map that binds every key `k` of `ks` to `f k`, where a binding to the
default value is not stored. Every operation below is an instance of it. -/
def build (ks : List K) (h : ks.Nodup) (f : K → D) : PatriciaTreeMap K D where
  entries := (ks.filter (fun k => !AbstractDomain.is_bottom (f k))).map (fun k => (k, f k))
  nodup_keys := by
    have hid : (Prod.fst ∘ fun k => (k, f k)) = (id : K → K) := by
      funext k
      rfl
    rw [List.map_map, hid, List.map_id]
    exact h.filter _
  no_default := by
    intro e he
    rcases List.mem_map.1 he with ⟨k, hk, rfl⟩
    have hk2 := (List.mem_filter.1 hk).2
    simpa using hk2

/-- Binds `k` to `v`: `insert_or_assign(k, v)`. -/
def insert_or_assign (m : PatriciaTreeMap K D) (k : K) (v : D) : PatriciaTreeMap K D :=
  build (insert k m.keys) (m.nodup_keys.insert) (fun x => if x = k then v else m.get x)

/-- Replaces the value at `k` by `operation` of it: `update(operation, k)`. -/
def update (m : PatriciaTreeMap K D) (operation : D → D) (k : K) : PatriciaTreeMap K D :=
  build (insert k m.keys) (m.nodup_keys.insert)
    (fun x => if x = k then operation (m.get k) else m.get x)

/-- Applies `f` to every bound value: `map(f)`. -/
def map (m : PatriciaTreeMap K D) (f : D → D) : PatriciaTreeMap K D :=
  build m.keys m.nodup_keys (fun k => f (m.get k))

/-- Keeps every binding of either map; a key bound in both maps is bound to
`combine` of the two values: `union_with(combine, other)`. -/
def union_with (combine : D → D → D) (m other : PatriciaTreeMap K D) : PatriciaTreeMap K D :=
  build (m.keys ∪ other.keys) (List.Nodup.union _ other.nodup_keys)
    (fun k =>
      match lookup m.entries k, lookup other.entries k with
      | some v, some w => combine v w
      | some v, none => v
      | none, some w => w
      | none, none => AbstractDomain.bottom)

/-- Keeps the keys bound in both maps, bound to `combine` of the two values:
`intersection_with(combine, other)`. -/
def intersection_with (combine : D → D → D) (m other : PatriciaTreeMap K D) :
    PatriciaTreeMap K D :=
  build (m.keys ∩ other.keys) (List.Nodup.inter _ m.nodup_keys)
    (fun k => combine (m.get k) (other.get k))

/-- Keeps the bindings of `m`; a key also bound in `other` is bound to
`combine` of the two values: `difference_with(combine, other)`. -/
def difference_with (combine : D → D → D) (m other : PatriciaTreeMap K D) :
    PatriciaTreeMap K D :=
  build m.keys m.nodup_keys
    (fun k =>
      match lookup other.entries k with
      | some w => combine (m.get k) w
      | none => m.get k)

/-- Pointwise order: every bound value is below the value `other` has there. -/
def leq (m other : PatriciaTreeMap K D) : Bool :=
  m.entries.all (fun e => AbstractDomain.leq e.2 (other.get e.1))

/-- Pointwise equality: the two maps bind the same keys to equal values. -/
def equals (m other : PatriciaTreeMap K D) : Bool :=
  m.entries.all (fun e => AbstractDomain.equals e.2 (other.get e.1)) &&
    other.entries.all (fun e => AbstractDomain.equals (m.get e.1) e.2)

end PatriciaTreeMap

/-! ## `sparta::PatriciaTreeMapAbstractPartition` -/

/-- A partition: a map from labels to domain values in which an unbound label
stands for bottom, or the top partition, which has no bindings and whose
labels cannot be re-bound. -/
inductive PatriciaTreeMapAbstractPartition (K D : Type) [DecidableEq K] [AbstractDomain D] where
  | top
  | value (m_map : PatriciaTreeMap K D)

namespace PatriciaTreeMapAbstractPartition

variable {K D : Type} [DecidableEq K] [AbstractDomain D]

/-- The default constructor produces the bottom partition. -/
def bottom : PatriciaTreeMapAbstractPartition K D := value PatriciaTreeMap.empty

/-- Whether this is the top partition: `is_top()`. -/
def is_top : PatriciaTreeMapAbstractPartition K D → Bool
  | top => true
  | value _ => false

/-- Whether this is bottom: `!m_is_top && m_map.empty()`. -/
def is_bottom : PatriciaTreeMapAbstractPartition K D → Bool
  | top => false
  | value m => m.is_empty

/-- The bindings that are not set to bottom; not defined on top. -/
def bindings : PatriciaTreeMapAbstractPartition K D → Except Failure (List (K × D))
  | top => .error .undefined_operation
  | value m => .ok m.entries

/-- The value at `label`: `get(label)`, which is the top of the domain on the
top partition and the bound value or bottom otherwise. -/
def get {T : Type} [AbstractDomainWithTop T] (p : PatriciaTreeMapAbstractPartition K T)
    (label : K) : T :=
  match p with
  | top => AbstractDomainWithTop.top
  | value m => m.get label

/-- Binds `label` to `v`; top stays top: `set(label, value)`. -/
def set (p : PatriciaTreeMapAbstractPartition K D) (label : K) (v : D) :
    PatriciaTreeMapAbstractPartition K D :=
  match p with
  | top => top
  | value m => value (m.insert_or_assign label v)

/-- Replaces the value at `label` by `operation` of it; top stays top. -/
def update (p : PatriciaTreeMapAbstractPartition K D) (label : K) (operation : D → D) :
    PatriciaTreeMapAbstractPartition K D :=
  match p with
  | top => top
  | value m => value (m.update operation label)

/-- Applies `f` to every bound value; top stays top. -/
def map (p : PatriciaTreeMapAbstractPartition K D) (f : D → D) :
    PatriciaTreeMapAbstractPartition K D :=
  match p with
  | top => top
  | value m => value (m.map f)

/-- The partition built from one pair: the constructor taking an initializer
list, which calls `set` on the bottom partition. -/
def singleton (label : K) (v : D) : PatriciaTreeMapAbstractPartition K D :=
  (bottom : PatriciaTreeMapAbstractPartition K D).set label v

/-- The order: top is only below top, everything is below top, and two maps
are compared pointwise. -/
def leq (p other : PatriciaTreeMapAbstractPartition K D) : Bool :=
  match p, other with
  | top, o => o.is_top
  | value _, top => true
  | value m, value o => m.leq o

/-- Equality: the same top flag and equal maps. -/
def equals (p other : PatriciaTreeMapAbstractPartition K D) : Bool :=
  match p, other with
  | top, top => true
  | value m, value o => m.equals o
  | _, _ => false

/-- Top absorbs, otherwise the union of the two maps under `operation`. -/
def join_like_operation (p other : PatriciaTreeMapAbstractPartition K D)
    (operation : D → D → D) : PatriciaTreeMapAbstractPartition K D :=
  match p, other with
  | top, _ => top
  | value _, top => top
  | value m, value o => value (PatriciaTreeMap.union_with operation m o)

/-- Top is neutral, otherwise the intersection of the two maps under
`operation`. -/
def meet_like_operation (p other : PatriciaTreeMapAbstractPartition K D)
    (operation : D → D → D) : PatriciaTreeMapAbstractPartition K D :=
  match p, other with
  | top, o => o
  | value m, top => value m
  | value m, value o => value (PatriciaTreeMap.intersection_with operation m o)

/-- Removing top leaves bottom, top minus anything else stays top, otherwise
the difference of the two maps under `operation`. -/
def difference_like_operation (p other : PatriciaTreeMapAbstractPartition K D)
    (operation : D → D → D) : PatriciaTreeMapAbstractPartition K D :=
  match p, other with
  | _, top => bottom
  | top, value _ => top
  | value m, value o => value (PatriciaTreeMap.difference_with operation m o)

/-- The pointwise join: `join_with(other)`. -/
def join_with (p other : PatriciaTreeMapAbstractPartition K D) :
    PatriciaTreeMapAbstractPartition K D :=
  p.join_like_operation other AbstractDomain.join

/-- The pointwise widening: `widen_with(other)`. -/
def widen_with (p other : PatriciaTreeMapAbstractPartition K D) :
    PatriciaTreeMapAbstractPartition K D :=
  p.join_like_operation other AbstractDomain.widen

/-- The pointwise meet: `meet_with(other)`. -/
def meet_with (p other : PatriciaTreeMapAbstractPartition K D) :
    PatriciaTreeMapAbstractPartition K D :=
  p.meet_like_operation other AbstractDomain.meet

/-- The pointwise narrowing: `narrow_with(other)`. -/
def narrow_with (p other : PatriciaTreeMapAbstractPartition K D) :
    PatriciaTreeMapAbstractPartition K D :=
  p.meet_like_operation other AbstractDomain.narrow

end PatriciaTreeMapAbstractPartition

/-! ## `CalleeFrames` (source/CalleeFrames.cpp) -/

/-- The type `FramesByCallPosition`: the partition keyed by `const Position*`, where the
null position is a key like any other. -/
abbrev FramesByCallPosition (D : Type) [AbstractDomain D] :=
  PatriciaTreeMapAbstractPartition (Option Position) D

/-- A `CalleeFrames`: the member `callee_` (null for leaves) and the member
`frames_`. The parameter `D` is `CallPositionFrames`. -/
structure CalleeFrames (D : Type) [AbstractDomain D] where
  callee : Option Method
  frames : FramesByCallPosition D

namespace CalleeFrames

variable {D : Type} [AbstractDomain D]

/-- Modelled from the spec: `CalleeFrames::bottom()` (the header CalleeFrames.h is
missing), the empty value: a null callee, as the default constructor sets and as
`join_with` asserts of a bottom receiver, and the bottom partition. -/
def bottom : CalleeFrames D := ⟨none, PatriciaTreeMapAbstractPartition.bottom⟩

/-- Modelled from the spec: `CalleeFrames::top()` (the header CalleeFrames.h is
missing), the universal over-approximation: the top partition, which belongs to
no callee, so the callee is null. -/
def top : CalleeFrames D := ⟨none, PatriciaTreeMapAbstractPartition.top⟩

/-- Modelled from the spec: `CalleeFrames::is_bottom()` (the header is missing);
a `CalleeFrames` is bottom when its partition is. -/
def is_bottom (self : CalleeFrames D) : Bool := self.frames.is_bottom

/-- Modelled from the spec: `CalleeFrames::is_top()` (the header is missing);
a `CalleeFrames` is top when its partition is. -/
def is_top (self : CalleeFrames D) : Bool := self.frames.is_top

/-- The condition of the assertion of `leq` and `equals`,
`mt_assert(is_bottom() || other.is_bottom() || callee_ == other.callee())`. -/
def callees_agree (self other : CalleeFrames D) : Bool :=
  self.is_bottom || other.is_bottom || decide (self.callee = other.callee)

/-- The function `CalleeFrames::leq`. -/
def leq (self other : CalleeFrames D) : Except Failure Bool :=
  if callees_agree self other then .ok (self.frames.leq other.frames)
  else .error .assertion

/-- The function `CalleeFrames::equals`. -/
def equals (self other : CalleeFrames D) : Except Failure Bool :=
  if callees_agree self other then .ok (self.frames.equals other.frames)
  else .error .assertion

/-- The statements that open `join_with`, `widen_with`, `meet_with`,
`narrow_with` and `difference_with`, followed by the operation on `frames_`:

    if (is_bottom()) { mt_assert(callee_ == nullptr); callee_ = other.callee(); }
    mt_assert(other.is_bottom() || callee_ == other.callee());
    frames_.operation(other.frames_);
-/
def with_callee_of (self other : CalleeFrames D)
    (operation : FramesByCallPosition D → FramesByCallPosition D → FramesByCallPosition D) :
    Except Failure (CalleeFrames D) :=
  let adopted : Except Failure (Option Method) :=
    if self.is_bottom then
      if self.callee = none then .ok other.callee else .error .assertion
    else .ok self.callee
  match adopted with
  | .error e => .error e
  | .ok callee_ =>
    if other.is_bottom || decide (callee_ = other.callee) then
      .ok ⟨callee_, operation self.frames other.frames⟩
    else .error .assertion

/-- The function `CalleeFrames::join_with`, without the expensive assertion. -/
def join_with (self other : CalleeFrames D) : Except Failure (CalleeFrames D) :=
  with_callee_of self other (fun l r => l.join_with r)

/-- The function `CalleeFrames::widen_with`, without the expensive assertion. -/
def widen_with (self other : CalleeFrames D) : Except Failure (CalleeFrames D) :=
  with_callee_of self other (fun l r => l.widen_with r)

/-- The function `CalleeFrames::meet_with`. -/
def meet_with (self other : CalleeFrames D) : Except Failure (CalleeFrames D) :=
  with_callee_of self other (fun l r => l.meet_with r)

/-- The function `CalleeFrames::narrow_with`. -/
def narrow_with (self other : CalleeFrames D) : Except Failure (CalleeFrames D) :=
  with_callee_of self other (fun l r => l.narrow_with r)

/-- The function `CalleeFrames::difference_with`: the operation on two position groups is
`frames_left.difference_with(frames_right)`. -/
def difference_with (self other : CalleeFrames D) : Except Failure (CalleeFrames D) :=
  with_callee_of self other
    (fun l r => l.difference_like_operation r AbstractDomain.difference)

/-- The condition of `mt_expensive_assert(previous.leq(*this) && other.leq(*this))`
at the end of `join_with` and `widen_with`, evaluated on the value `previous`
of the receiver before the call, the argument and the receiver after it. -/
def expensive_assertion (previous other this : CalleeFrames D) : Except Failure Bool :=
  match previous.leq this with
  | .error e => .error e
  | .ok false => .ok false
  | .ok true => other.leq this

/-- The function `CalleeFrames::join_with` in a build with expensive assertions:
after the join, `mt_expensive_assert(previous.leq(*this) && other.leq(*this))`
aborts unless its condition is true. -/
def join_with_expensive (self other : CalleeFrames D) : Except Failure (CalleeFrames D) :=
  match join_with self other with
  | .error e => .error e
  | .ok this =>
    match expensive_assertion self other this with
    | .ok true => .ok this
    | .ok false => .error .assertion
    | .error e => .error e

/-- The function `CalleeFrames::widen_with` in a build with expensive
assertions. -/
def widen_with_expensive (self other : CalleeFrames D) : Except Failure (CalleeFrames D) :=
  match widen_with self other with
  | .error e => .error e
  | .ok this =>
    match expensive_assertion self other this with
    | .ok true => .ok this
    | .ok false => .error .assertion
    | .error e => .error e

end CalleeFrames

/-! ## Frames and `CallPositionFrames` -/

/-- Modelled from the spec: the root of an access path (`Root` of Access.h is
missing); the glossary lists argument, return, leaf, anchor, producer and
call-effect. -/
inductive Root where
  | Argument (parameter_position : Nat)
  | Return
  | Leaf
  | Anchor
  | Producer
  | CallEffect
  deriving DecidableEq, Repr

/-- Modelled from the spec: `Root::is_leaf()` (missing). -/
def Root.is_leaf : Root → Bool
  | .Leaf => true
  | _ => false

/-- Modelled from the spec: `Root::is_call_effect()` (missing). -/
def Root.is_call_effect : Root → Bool
  | .CallEffect => true
  | _ => false

/-- Modelled from the spec: an access path (`AccessPath` of Access.h is
missing), a root followed by field names. -/
structure AccessPath where
  root : Root
  path : List String
  deriving DecidableEq, Repr

/-- Modelled from the spec: one taint fact (`Frame` is missing), with the
fields of the table in section 3 of the spec. A set-valued field is the list of
its elements. -/
structure Frame where
  kind : Option Kind
  callee_port : AccessPath
  callee : Option Method
  field_callee : Option Field
  call_position : Option Position
  distance : Int
  origins : List Method
  field_origins : List Field
  inferred_features : List Feature
  locally_inferred_features : List Feature
  user_features : List Feature
  via_type_of_ports : List Root
  via_value_of_ports : List Root
  canonical_names : List String
  deriving DecidableEq, Repr

/-- Modelled from the spec: what the position-level propagation does to one
fact (section 4.4, step 2): the distance is incremented, the features inferred
for the call are added, and the fact is attributed to the callee, port and call
position of the call site. `inferred` is the feature-inference collaborator of
section 6, already applied to the context, `source_register_types` and
`source_constant_arguments`. -/
def Frame.propagate (frame : Frame) (callee : Option Method) (callee_port : AccessPath)
    (call_position : Option Position) (inferred : Frame → List Feature) : Frame :=
  { frame with
    callee := callee
    callee_port := callee_port
    call_position := call_position
    distance := frame.distance + 1
    inferred_features := frame.inferred_features ++ inferred frame }

/-- Modelled from the spec: `CallPositionFrames` (missing) is a set of frames
that share one call position; bottom is the empty group. The set is the list
of its facts, and two facts are the same fact when all their fields agree. The
buckets by kind and callee port and the merging of the facts of one bucket
(section 4.3 of the spec) are not modelled: two facts of one kind and callee
port that differ in another field stay two facts here. A statement below that
names one fact of a result is therefore made for a fact that is alone in its
bucket, on which merging has no effect. -/
structure CallPositionFrames where
  frames : List Frame
  deriving Repr

namespace CallPositionFrames

/-- Modelled from the spec: `CallPositionFrames::bottom()` (missing), the empty group. -/
def bottom : CallPositionFrames := ⟨[]⟩

/-- Modelled from the spec: `CallPositionFrames::is_bottom()` (missing); the group is
empty. -/
def is_bottom (self : CallPositionFrames) : Bool := self.frames.isEmpty

/-- Modelled from the spec: `CallPositionFrames::leq` (missing); every fact of this
group is a fact of the other group. -/
def leq (self other : CallPositionFrames) : Bool :=
  self.frames.all (fun f => decide (f ∈ other.frames))

/-- Modelled from the spec: `CallPositionFrames::equals` (missing); the two groups
hold the same facts. -/
def equals (self other : CallPositionFrames) : Bool :=
  self.leq other && other.leq self

/-- Modelled from the spec: `CallPositionFrames::join_with` (missing); the facts of
this group, then the facts only the other group has. Facts of one kind and
callee port that differ in another field are not merged into one fact. -/
def join (self other : CallPositionFrames) : CallPositionFrames :=
  ⟨self.frames ++ other.frames.filter (fun f => decide (f ∉ self.frames))⟩

/-- Modelled from the spec: `CallPositionFrames::meet_with` (missing); the facts both
groups have. -/
def meet (self other : CallPositionFrames) : CallPositionFrames :=
  ⟨self.frames.filter (fun f => decide (f ∈ other.frames))⟩

/-- Modelled from the spec: `CallPositionFrames::difference_with` (missing), which
removes from this group any fact covered by a fact of the other group. -/
def difference (self other : CallPositionFrames) : CallPositionFrames :=
  ⟨self.frames.filter (fun f => decide (f ∉ other.frames))⟩

/-- Modelled from the spec: `CallPositionFrames::position()` (missing), the call
position the facts of the group share, null for the empty group. -/
def position (self : CallPositionFrames) : Option Position :=
  match self.frames with
  | [] => none
  | f :: _ => f.call_position

/-- Modelled from the spec: the position-level propagation (section 4.4, step
2), which propagates every fact and discards any fact whose resulting distance
exceeds `maximum_source_sink_distance`. -/
def propagate (self : CallPositionFrames) (callee : Option Method) (callee_port : AccessPath)
    (call_position : Option Position) (maximum_source_sink_distance : Int)
    (inferred : Frame → List Feature) : CallPositionFrames :=
  ⟨(self.frames.map (fun f => f.propagate callee callee_port call_position inferred)).filter
    (fun g => decide (g.distance ≤ maximum_source_sink_distance))⟩

end CallPositionFrames

/-- The lattice of `CallPositionFrames`; widening is the join and narrowing is
the meet. -/
instance : AbstractDomain CallPositionFrames where
  bottom := CallPositionFrames.bottom
  is_bottom := CallPositionFrames.is_bottom
  leq := CallPositionFrames.leq
  equals := CallPositionFrames.equals
  join := CallPositionFrames.join
  widen := CallPositionFrames.join
  meet := CallPositionFrames.meet
  narrow := CallPositionFrames.meet
  difference := CallPositionFrames.difference
  is_bottom_bottom := rfl
  bottom_leq := by
    intro x y h
    cases x with
    | mk l =>
      cases l with
      | nil => rfl
      | cons a t => simp [CallPositionFrames.is_bottom] at h
  leq_bottom := by
    intro x y h hy
    cases x with
    | mk l =>
      cases y with
      | mk r =>
        cases r with
        | nil =>
          cases l with
          | nil => rfl
          | cons a t => simp [CallPositionFrames.leq] at h
        | cons b t => simp [CallPositionFrames.is_bottom] at hy
  leq_refl := by
    intro x
    simp [CallPositionFrames.leq]
  leq_trans := by
    intro x y z hxy hyz
    simp only [CallPositionFrames.leq, List.all_eq_true, decide_eq_true_eq] at *
    exact fun f hf => hyz f (hxy f hf)
  equals_iff := by
    intro x y
    simp [CallPositionFrames.equals]
  leq_join_left := by
    intro x y
    simp only [CallPositionFrames.leq, CallPositionFrames.join, List.all_eq_true,
      decide_eq_true_eq, List.mem_append]
    exact fun f hf => Or.inl hf
  leq_join_right := by
    intro x y
    simp only [CallPositionFrames.leq, CallPositionFrames.join, List.all_eq_true,
      decide_eq_true_eq, List.mem_append, List.mem_filter]
    intro f hf
    by_cases hx : f ∈ x.frames
    · exact Or.inl hx
    · exact Or.inr ⟨hf, hx⟩
  join_least := by
    intro x y z hx hy
    simp only [CallPositionFrames.leq, CallPositionFrames.join, List.all_eq_true,
      decide_eq_true_eq, List.mem_append, List.mem_filter] at *
    intro f hf
    rcases hf with hf | hf
    · exact hx f hf
    · exact hy f hf.1
  leq_widen_left := by
    intro x y
    simp only [CallPositionFrames.leq, CallPositionFrames.join, List.all_eq_true,
      decide_eq_true_eq, List.mem_append]
    exact fun f hf => Or.inl hf
  leq_widen_right := by
    intro x y
    simp only [CallPositionFrames.leq, CallPositionFrames.join, List.all_eq_true,
      decide_eq_true_eq, List.mem_append, List.mem_filter]
    intro f hf
    by_cases hx : f ∈ x.frames
    · exact Or.inl hx
    · exact Or.inr ⟨hf, hx⟩
  meet_leq_left := by
    intro x y
    simp only [CallPositionFrames.leq, CallPositionFrames.meet, List.all_eq_true,
      decide_eq_true_eq, List.mem_filter]
    exact fun f hf => hf.1
  meet_leq_right := by
    intro x y
    simp only [CallPositionFrames.leq, CallPositionFrames.meet, List.all_eq_true,
      decide_eq_true_eq, List.mem_filter]
    exact fun f hf => hf.2
  meet_greatest := by
    intro x y z hx hy
    simp only [CallPositionFrames.leq, CallPositionFrames.meet, List.all_eq_true,
      decide_eq_true_eq, List.mem_filter] at *
    exact fun f hf => ⟨hx f hf, hy f hf⟩
  narrow_leq_left := by
    intro x y
    simp only [CallPositionFrames.leq, CallPositionFrames.meet, List.all_eq_true,
      decide_eq_true_eq, List.mem_filter]
    exact fun f hf => hf.1
  difference_leq := by
    intro x y
    simp only [CallPositionFrames.leq, CallPositionFrames.difference, List.all_eq_true,
      decide_eq_true_eq, List.mem_filter]
    exact fun f hf => hf.1
  difference_self := by
    intro x
    simp [CallPositionFrames.is_bottom, CallPositionFrames.difference]

namespace CalleeFrames

variable {D : Type} [AbstractDomain D]

/-- The condition of the `mt_assert(callee_ == nullptr)` that `join_with`,
`widen_with`, `meet_with`, `narrow_with` and `difference_with` make on a bottom
receiver: a bottom `CalleeFrames` has a null callee. -/
def callee_invariant (self : CalleeFrames D) : Bool :=
  !self.is_bottom || decide (self.callee = none)

end CalleeFrames

/-! ## `CalleeFrames::propagate` -/

namespace CalleeFrames

/-- The facts of a `CalleeFrames`: the frames of every position group. Top has
no bindings to enumerate. -/
def facts (self : CalleeFrames CallPositionFrames) : List Frame :=
  match self.frames with
  | .top => []
  | .value m => m.entries.foldr (fun e acc => e.2.frames ++ acc) []

/-- The loop of `CalleeFrames::propagate`: `result` starts as the empty
`CallPositionFrames` and every binding's group is propagated and joined in. -/
def propagate_loop (bindings : List (Option Position × CallPositionFrames))
    (callee : Option Method) (callee_port : AccessPath) (call_position : Option Position)
    (maximum_source_sink_distance : Int) (inferred : Frame → List Feature) :
    CallPositionFrames :=
  bindings.foldl
    (fun result b =>
      result.join
        (b.2.propagate callee callee_port call_position maximum_source_sink_distance inferred))
    CallPositionFrames.bottom

/-- The function `CalleeFrames::propagate`. The arguments `context`, `source_register_types`
and `source_constant_arguments` are only handed on to the feature inference,
here `inferred`. -/
def propagate (self : CalleeFrames CallPositionFrames) (callee : Option Method)
    (callee_port : AccessPath) (call_position : Option Position)
    (maximum_source_sink_distance : Int) (inferred : Frame → List Feature) :
    Except Failure (CalleeFrames CallPositionFrames) :=
  if self.is_bottom then .ok bottom
  else
    match self.frames.bindings with
    | .error e => .error e
    | .ok bindings =>
      let result := propagate_loop bindings callee callee_port call_position
        maximum_source_sink_distance inferred
      if result.is_bottom then .ok bottom
      else if call_position = result.position then
        .ok ⟨callee, PatriciaTreeMapAbstractPartition.singleton call_position result⟩
      else .error .assertion

end CalleeFrames

/-! ## Sample values -/

/-- A frame of kind 1 on the leaf port for the given callee, call position and
distance, with every set-valued field empty. -/
def sample_frame (callee : Option Method) (call_position : Option Position)
    (distance : Int) : Frame where
  kind := some 1
  callee_port := ⟨Root.Leaf, []⟩
  callee := callee
  field_callee := none
  call_position := call_position
  distance := distance
  origins := []
  field_origins := []
  inferred_features := []
  locally_inferred_features := []
  user_features := []
  via_type_of_ports := []
  via_value_of_ports := []
  canonical_names := []

/-- The `CalleeFrames` for `callee` holding `sample_frame` under its call
position. -/
def sample_callee_frames (callee : Option Method) (call_position : Option Position)
    (distance : Int) : CalleeFrames CallPositionFrames :=
  ⟨callee,
    PatriciaTreeMapAbstractPartition.singleton call_position
      ⟨[sample_frame callee call_position distance]⟩⟩

/-- The `CalleeFrames` for callee 1 with a frame of kind 1 at distance 0 under
call position 7 and a frame of kind 2 at distance 3 under call position 8. -/
def sample_two_kinds_callee_frames : CalleeFrames CallPositionFrames :=
  ⟨some 1,
    (PatriciaTreeMapAbstractPartition.singleton (some 7)
      (⟨[sample_frame (some 1) (some 7) 0]⟩ : CallPositionFrames)).join_with
    (PatriciaTreeMapAbstractPartition.singleton (some 8)
      ⟨[{ sample_frame (some 1) (some 8) 3 with kind := some 2 }]⟩)⟩

/-! ## `CallEffect` (source/CallEffects.cpp) and its JSON form -/

/-- A `Json::Value`. -/
inductive JsonValue where
  | null
  | bool (b : Bool)
  | int (n : Int)
  | string (s : String)
  | array (elements : List JsonValue)
  | object (members : List (String × JsonValue))

/-- A `JsonValidationError`: the offending value, the optional field and the
expectation message. -/
structure JsonValidationError where
  value : JsonValue
  field : Option String
  expected : String

/-- Modelled from the spec: `JsonValidation::string` (missing) gives the string of a
JSON string and raises a validation error for any other value. -/
def JsonValidation.string (value : JsonValue) : Except JsonValidationError String :=
  match value with
  | .string s => .ok s
  | _ => .error ⟨value, none, "string"⟩

/-- Splits a list of characters at every `separator`; the text after the last
separator is a segment only when it is not empty. -/
def split_chars (separator : Char) (current : List Char) (segment : List Char) :
    List (List Char) :=
  match current with
  | [] => if segment.isEmpty then [] else [segment.reverse]
  | c :: rest =>
    if c = separator then segment.reverse :: split_chars separator rest []
    else split_chars separator rest (c :: segment)

/-- Modelled from the spec: `AccessPath::split_path` (missing) reads a JSON
string and splits it at the dots into its segments; the empty string has zero
segments. -/
def AccessPath.split_path (value : JsonValue) : Except JsonValidationError (List String) :=
  match JsonValidation.string value with
  | .error e => .error e
  | .ok s => .ok ((split_chars '.' s.data []).map String.mk)

/-- Modelled from the spec: the name of a root (`Root::to_string` is missing). -/
def Root.to_string : Root → String
  | .Argument n => "Argument(" ++ toString n ++ ")"
  | .Return => "Return"
  | .Leaf => "Leaf"
  | .Anchor => "Anchor"
  | .Producer => "Producer"
  | .CallEffect => "CallEffect"

/-- Modelled from the spec: `Root::from_json` (missing) reads the name of a
root; a string that names no root is a validation error. -/
def Root.from_json (root_string : String) : Except JsonValidationError Root :=
  if root_string = "Return" then .ok .Return
  else if root_string = "Leaf" then .ok .Leaf
  else if root_string = "Anchor" then .ok .Anchor
  else if root_string = "Producer" then .ok .Producer
  else if root_string = "CallEffect" then .ok .CallEffect
  else
    match root_string.data with
    | 'A' :: 'r' :: 'g' :: 'u' :: 'm' :: 'e' :: 'n' :: 't' :: '(' :: rest =>
      match rest.reverse with
      | ')' :: digits =>
        if digits.all Char.isDigit && !digits.isEmpty then
          .ok (.Argument (digits.reverse.foldl (fun n c => 10 * n + (c.toNat - 48)) 0))
        else .error ⟨.string root_string, none, "valid access path root"⟩
      | _ => .error ⟨.string root_string, none, "valid access path root"⟩
    | _ => .error ⟨.string root_string, none, "valid access path root"⟩

/-- Modelled from the spec: `AccessPath::to_json` (missing) is the JSON string
of the root followed by `.field` for every field of the path. -/
def AccessPath.to_json (access_path : AccessPath) : JsonValue :=
  .string (access_path.path.foldl (fun text field => text ++ "." ++ field)
    access_path.root.to_string)

/-- The enumeration `CallEffect::Kind`. -/
inductive CallEffect.Kind where
  | CALL_CHAIN
  deriving DecidableEq, Repr

/-- A `CallEffect`. -/
structure CallEffect where
  kind : CallEffect.Kind
  deriving DecidableEq, Repr

namespace CallEffect

/-- The function `string_to_call_effect_kind`. -/
def string_to_call_effect_kind (effect : String) : Option CallEffect.Kind :=
  if effect = "call-chain" then some .CALL_CHAIN else none

/-- The function `CallEffect::to_string`. -/
def to_string (effect : CallEffect) : String :=
  match effect.kind with
  | .CALL_CHAIN => "call-chain"

/-- The function `CallEffect::access_path`. -/
def access_path (effect : CallEffect) : AccessPath :=
  match effect.kind with
  | .CALL_CHAIN => ⟨Root.CallEffect, [effect.to_string]⟩

/-- The function `CallEffect::to_json`. -/
def to_json (effect : CallEffect) : JsonValue :=
  effect.access_path.to_json

/-- Modelled from the spec: `CallEffect::encode()` (the header is missing), the
injective integer code under which an effect keys a partition: the number of
its kind. -/
def encode (effect : CallEffect) : Nat :=
  match effect.kind with
  | .CALL_CHAIN => 0

/-- The function `CallEffect::from_json`. -/
def from_json (value : JsonValue) : Except JsonValidationError CallEffect :=
  match AccessPath.split_path value with
  | .error e => .error e
  | .ok elements =>
    if elements.isEmpty || elements.length > 2 then
      .error ⟨value, none, "call effect to be specified as: `CallEffect.<type>` or `<type>`"⟩
    else
      let root_string := if elements.length = 2 then elements.headD "" else "CallEffect"
      match Root.from_json root_string with
      | .error e => .error e
      | .ok root =>
        if !root.is_call_effect then
          .error ⟨value, none, "call effect root to be: `CallEffect`"⟩
        else
          match string_to_call_effect_kind (elements.getLastD "") with
          | none =>
            .error ⟨value, none, "one of existing call effect types: `call-chain`"⟩
          | some effect_kind => .ok ⟨effect_kind⟩

end CallEffect

/-! ## `CallEffectsAbstractDomain` (source/CallEffects.cpp) -/

/-- A `CallEffectsAbstractDomain`: the member `map_`, a partition from encoded
call effects to the nested taint. The parameter `T` is `Taint`. -/
structure CallEffectsAbstractDomain (T : Type) [AbstractDomain T] where
  map_ : PatriciaTreeMapAbstractPartition Nat T

namespace CallEffectsAbstractDomain

variable {T : Type} [AbstractDomain T]

/-- The top value: `set_to_top()` is `map_.set_to_top()`. -/
def top : CallEffectsAbstractDomain T := ⟨PatriciaTreeMapAbstractPartition.top⟩

/-- The function `CallEffectsAbstractDomain::leq`. -/
def leq (self other : CallEffectsAbstractDomain T) : Bool := self.map_.leq other.map_

/-- The function `CallEffectsAbstractDomain::equals`. -/
def equals (self other : CallEffectsAbstractDomain T) : Bool := self.map_.equals other.map_

/-- The function `CallEffectsAbstractDomain::join_with`. -/
def join_with (self other : CallEffectsAbstractDomain T) : CallEffectsAbstractDomain T :=
  ⟨self.map_.join_with other.map_⟩

/-- The function `CallEffectsAbstractDomain::meet_with`. -/
def meet_with (self other : CallEffectsAbstractDomain T) : CallEffectsAbstractDomain T :=
  ⟨self.map_.meet_with other.map_⟩

/-- The bottom value: the default constructor of `map_`. -/
def bottom : CallEffectsAbstractDomain T := ⟨PatriciaTreeMapAbstractPartition.bottom⟩

/-- The function `CallEffectsAbstractDomain::read`. -/
def read {T : Type} [AbstractDomainWithTop T] (self : CallEffectsAbstractDomain T)
    (effect : CallEffect) : T :=
  self.map_.get effect.encode

/-- The function `CallEffectsAbstractDomain::write`: the value at the effect is
replaced by `taint.join(value)`. -/
def write (self : CallEffectsAbstractDomain T) (effect : CallEffect) (value : T) :
    CallEffectsAbstractDomain T :=
  ⟨self.map_.update effect.encode (fun taint => AbstractDomain.join taint value)⟩

end CallEffectsAbstractDomain

end MarianaTrench

/-! ## Sample call effects -/

namespace MarianaTrench

/-- A `CallEffectsAbstractDomain` with one binding, whose nested domain is a
group of frames. -/
def sample_call_effects : CallEffectsAbstractDomain CallPositionFrames :=
  ⟨PatriciaTreeMapAbstractPartition.singleton 0 ⟨[sample_frame none none 0]⟩⟩

end MarianaTrench


/-! ## JSON objects and their validation -/

namespace MarianaTrench

namespace JsonValue

/-- The members of a JSON object; any other value has none. -/
def members : JsonValue → List (String × JsonValue)
  | .object members => members
  | _ => []

/-- The test `isObject()`. -/
def is_object : JsonValue → Bool
  | .object _ => true
  | _ => false

/-- The test `isNull()`. -/
def is_null : JsonValue → Bool
  | .null => true
  | _ => false

/-- The names of the members, `getMemberNames()`. -/
def member_names (value : JsonValue) : List String := value.members.map Prod.fst

/-- The test `isMember(key)`. -/
def is_member (value : JsonValue) (key : String) : Bool := decide (key ∈ value.member_names)

/-- Reading `value[key]` on a constant object: the member, or null when the
object has no such member. -/
def get (value : JsonValue) (key : String) : JsonValue :=
  (lookup value.members key).getD .null

/-- Puts a member into a list of members that is kept in the order of the
keys, as in the `std::map` of a `Json::Value` object, where two keys compare
character by character; a member with the same key is replaced. -/
def insert_member (members : List (String × JsonValue)) (key : String) (member : JsonValue) :
    List (String × JsonValue) :=
  match members with
  | [] => [(key, member)]
  | (k, v) :: rest =>
    if key = k then (key, member) :: rest
    else if key.data < k.data then (key, member) :: (k, v) :: rest
    else (k, v) :: insert_member rest key member

/-- The assignment `value[key] = member` on an object. -/
def set (value : JsonValue) (key : String) (member : JsonValue) : JsonValue :=
  .object (insert_member value.members key member)

end JsonValue

/-- Modelled from the spec: `JsonValidation::validate_object` (missing) raises a
validation error for every value that is not a JSON object. -/
def JsonValidation.validate_object (value : JsonValue) : Except JsonValidationError Unit :=
  if value.is_object then .ok () else .error ⟨value, none, "non-null object"⟩

/-- Modelled from the spec: `JsonValidation::null_or_array` (missing) gives the
elements of the array at `field`; a member that is absent or null stands for
the empty array, and any other member is a validation error. -/
def JsonValidation.null_or_array (value : JsonValue) (field : String) :
    Except JsonValidationError (List JsonValue) :=
  match value.get field with
  | .null => .ok []
  | .array elements => .ok elements
  | _ => .error ⟨value, some field, "null or array"⟩

/-! ## `TaintConfig` and `Taint` -/

/-- Modelled from the spec: `Frame::is_bottom()` (missing); the kind of a valid
fact is never null, and the frame without a kind is the bottom frame. -/
def Frame.is_bottom (frame : Frame) : Bool := frame.kind.isNone

/-- Modelled from the spec: `Frame::set_field_origins_if_empty_with_field_callee`
(missing) records `field` as the field callee and, when the fact has no field
origins yet, as its only field origin. -/
def Frame.set_field_origins_if_empty_with_field_callee (frame : Frame) (field : Field) :
    Frame :=
  { frame with
    field_callee := some field
    field_origins := if frame.field_origins.isEmpty then [field] else frame.field_origins }

/-- Modelled from the spec: the kind `Kinds::artificial_source()` (missing), one
fixed handle. -/
def Kinds.artificial_source : Kind := 0

/-- Modelled from the spec: `TaintConfig` (missing), the builder form of a
frame: the fields of a frame in the order of the constructor call in
tests/Test.cpp, then `input_paths`, `output_paths` and `local_positions`. -/
structure TaintConfig where
  kind : Option Kind
  callee_port : AccessPath
  callee : Option Method
  field_callee : Option Field
  call_position : Option Position
  distance : Int
  origins : List Method
  field_origins : List Field
  inferred_features : List Feature
  locally_inferred_features : List Feature
  user_features : List Feature
  via_type_of_ports : List Root
  via_value_of_ports : List Root
  canonical_names : List String
  input_paths : List AccessPath
  output_paths : List AccessPath
  local_positions : List Position
  deriving DecidableEq, Repr

namespace TaintConfig

/-- Modelled from the spec: `TaintConfig::is_leaf()` (missing); a leaf config has
no callee. -/
def is_leaf (config : TaintConfig) : Bool := config.callee.isNone

/-- Modelled from the spec: `TaintConfig::is_artificial_source()` (missing); the
kind is the artificial source kind. -/
def is_artificial_source (config : TaintConfig) : Bool :=
  decide (config.kind = some Kinds.artificial_source)

/-- Modelled from the spec: the frame a config builds inside a container; the
paths and local positions of the config are not stored on the frame. -/
def to_frame (config : TaintConfig) : Frame where
  kind := config.kind
  callee_port := config.callee_port
  callee := config.callee
  field_callee := config.field_callee
  call_position := config.call_position
  distance := config.distance
  origins := config.origins
  field_origins := config.field_origins
  inferred_features := config.inferred_features
  locally_inferred_features := config.locally_inferred_features
  user_features := config.user_features
  via_type_of_ports := config.via_type_of_ports
  via_value_of_ports := config.via_value_of_ports
  canonical_names := config.canonical_names

/-- The leaf-fact invariant of section 3 of the spec, read as a test on a
config: the config violates it when it has no kind, is an artificial source, or
has a callee port whose root is not leaf, a call position, a distance other than
zero, origins, via-type-of ports or canonical names. -/
def violates_leaf_fact_invariant (config : TaintConfig) : Prop :=
  config.kind = none ∨ config.kind = some Kinds.artificial_source ∨
  config.callee_port.root ≠ Root.Leaf ∨ config.call_position ≠ none ∨
  config.distance ≠ 0 ∨ config.origins ≠ [] ∨ config.via_type_of_ports ≠ [] ∨
  config.canonical_names ≠ []

instance (config : TaintConfig) : Decidable config.violates_leaf_fact_invariant := by
  unfold violates_leaf_fact_invariant
  exact inferInstance

end TaintConfig

/-- Modelled from the spec: `Taint` (missing) as the set of its frames, a list
without repetition in the order of `frames_iterator()`. The grouping of the
frames by callee and call position, the call effects and the top value are not
modelled: a field model is built from configs and joins only, and reads its
taint through `is_bottom`, `==`, `join_with` and `frames_iterator`. The
merging of the facts of one bucket of kind and callee port (section 4.3 of the
spec) is not modelled either: two such facts that differ in another field stay
two facts here, so a sample below that tells two facts of a taint apart uses
facts of two kinds. -/
structure Taint where
  frames : List Frame
  nodup : frames.Nodup

namespace Taint

/-- Modelled from the spec: `Taint::bottom()` (missing), no facts. -/
def bottom : Taint := ⟨[], List.nodup_nil⟩

/-- Modelled from the spec: `Taint::is_bottom()` (missing). -/
def is_bottom (self : Taint) : Bool := self.frames.isEmpty

/-- Modelled from the spec: `Taint::frames_iterator()` (missing), every frame once. -/
def frames_iterator (self : Taint) : List Frame := self.frames

/-- Modelled from the spec: `Taint::leq` (missing); every fact of this taint is a
fact of the other. -/
def leq (self other : Taint) : Bool :=
  self.frames.all (fun f => decide (f ∈ other.frames))

/-- Modelled from the spec: `Taint::operator==` (missing); the two taints hold the
same facts. -/
def equals (self other : Taint) : Bool := self.leq other && other.leq self

/-- Modelled from the spec: `Taint::join_with` (missing); the facts of this taint,
then the facts only the other taint has. Facts of one kind and callee port
that differ in another field are not merged into one fact. -/
def join_with (self other : Taint) : Taint :=
  ⟨self.frames ++ other.frames.filter (fun f => decide (f ∉ self.frames)), by
    refine List.Nodup.append self.nodup (other.nodup.filter _) ?_
    intro f hf hg
    simp only [List.mem_filter, decide_eq_true_eq] at hg
    exact hg.2 hf⟩

/-- Modelled from the spec: the constructor `Taint{config}` (missing), the one
fact the config builds. -/
def of_config (config : TaintConfig) : Taint := ⟨[config.to_frame], List.nodup_singleton _⟩

/-- Modelled from the spec: `Taint::set_field_origins_if_empty_with_field_callee`
(missing) applies the frame operation of the same name to every frame. -/
def set_field_origins_if_empty_with_field_callee (self : Taint) (field : Field) : Taint :=
  ⟨(self.frames.map (fun f => f.set_field_origins_if_empty_with_field_callee field)).dedup,
    List.nodup_dedup _⟩

end Taint

/-! ## `FieldModel` (source/FieldModel.cpp) -/

/-- The texts `FieldModelConsistencyError::raise` is called with. Each is one
fixed format string filled with `show(field_)` and the word `source` or `sink`:
"Model for field ... must have a kind ...", "Model for field ... contains an
artificial ...", "Frame in ...s for field ... contains an unexpected non-empty
or non-bottom value for a field" and "Model for field ... contains a ...
without field origins". -/
inductive ConsistencyMessage where
  | must_have_kind (field : Option Field) (kind : String)
  | contains_artificial (field : Option Field) (kind : String)
  | unexpected_value (kind : String) (field : Option Field)
  | without_field_origins (field : Option Field) (kind : String)
  deriving DecidableEq, Repr

/-- An event given to `EventLogger::log_event`: its name and its description. -/
structure Event where
  name : String
  what : ConsistencyMessage
  deriving DecidableEq, Repr

/-- The function `FieldModelConsistencyError::raise`: nothing is thrown, one
event is logged. -/
def FieldModelConsistencyError.raise (what : ConsistencyMessage) : List Event :=
  [⟨"field_model_consistency_error", what⟩]

/-- The functions of other classes that the JSON functions of `FieldModel`
call and that are not among the sources: `Field::to_json`, `Frame::to_json` at
empty local positions, `TaintConfig::from_json` at the context, and the JSON of
the unknown position of the context. -/
structure JsonFunctions where
  field_to_json : Field → JsonValue
  frame_to_json : Frame → JsonValue
  taint_config_from_json : JsonValue → Except JsonValidationError TaintConfig
  unknown_position_to_json : JsonValue

/-- A `FieldModel`: the members `field_`, `sources_` and `sinks_`. -/
structure FieldModel where
  field_ : Option Field
  sources_ : Taint
  sinks_ : Taint

/-- How `FieldModel::from_json` stops without a model: a validation error is
thrown, or an assertion fails. -/
inductive FromJsonFailure where
  | validation (error : JsonValidationError)
  | aborted (failure : Failure)

namespace FieldModel

/-- Modelled from the spec: the constructor `FieldModel(field)` (the header is
missing), the model of the field without sources and sinks. -/
def for_field (field : Option Field) : FieldModel := ⟨field, Taint.bottom, Taint.bottom⟩

/-- The function `FieldModel::operator==`. -/
def equals (self other : FieldModel) : Bool :=
  self.sources_.equals other.sources_ && self.sinks_.equals other.sinks_

/-- The function `FieldModel::empty`. -/
def empty (self : FieldModel) : Bool := self.sources_.is_bottom && self.sinks_.is_bottom

/-- The function `FieldModel::check_taint_config_consistency`; the events it logs. -/
def check_taint_config_consistency (self : FieldModel) (frame : TaintConfig)
    (kind : String) : List Event :=
  (if frame.kind = none then
    FieldModelConsistencyError.raise (.must_have_kind self.field_ kind) else []) ++
  (if frame.is_artificial_source then
    FieldModelConsistencyError.raise (.contains_artificial self.field_ kind) else []) ++
  (if !frame.callee_port.root.is_leaf || frame.call_position != none ||
      frame.distance != 0 || !frame.origins.isEmpty ||
      frame.via_type_of_ports.length != 0 || frame.canonical_names.length != 0 then
    FieldModelConsistencyError.raise (.unexpected_value kind self.field_) else [])

/-- The function `FieldModel::check_taint_consistency`; the events it logs, one
for every frame without field origins when the field is known. -/
def check_taint_consistency (self : FieldModel) (taint : Taint) (kind : String) :
    List Event :=
  taint.frames_iterator.flatMap (fun frame =>
    if self.field_.isSome && frame.field_origins.isEmpty then
      FieldModelConsistencyError.raise (.without_field_origins self.field_ kind)
    else [])

/-- The opening statement of `add_source(Taint)` and `add_sink(Taint)`: when
the field is known, the taint gets its field origins and field callee. -/
def with_field_origins (self : FieldModel) (taint : Taint) : Taint :=
  match self.field_ with
  | some field => taint.set_field_origins_if_empty_with_field_callee field
  | none => taint

/-- The function `FieldModel::add_source(Taint)`; the new model and the events
logged. -/
def add_source_taint (self : FieldModel) (source : Taint) : FieldModel × List Event :=
  let source := self.with_field_origins source
  let events := self.check_taint_consistency source "source"
  ({ self with sources_ := self.sources_.join_with source }, events)

/-- The function `FieldModel::add_sink(Taint)`; the new model and the events
logged. -/
def add_sink_taint (self : FieldModel) (sink : Taint) : FieldModel × List Event :=
  let sink := self.with_field_origins sink
  let events := self.check_taint_consistency sink "sink"
  ({ self with sinks_ := self.sinks_.join_with sink }, events)

/-- The function `FieldModel::add_source(TaintConfig)`. -/
def add_source (self : FieldModel) (source : TaintConfig) :
    Except Failure (FieldModel × List Event) :=
  if !source.is_leaf then .error .assertion
  else
    let events := self.check_taint_config_consistency source "source"
    let added := self.add_source_taint (Taint.of_config source)
    .ok (added.1, events ++ added.2)

/-- The function `FieldModel::add_sink(TaintConfig)`. -/
def add_sink (self : FieldModel) (sink : TaintConfig) :
    Except Failure (FieldModel × List Event) :=
  if !sink.is_leaf then .error .assertion
  else
    let events := self.check_taint_config_consistency sink "sink"
    let added := self.add_sink_taint (Taint.of_config sink)
    .ok (added.1, events ++ added.2)

/-- One loop of the constructor: every config is added with `add`, which is
`add_source` or `add_sink`. -/
def add_configs (add : FieldModel → TaintConfig → Except Failure (FieldModel × List Event))
    (model : FieldModel) (events : List Event) (configs : List TaintConfig) :
    Except Failure (FieldModel × List Event) :=
  match configs with
  | [] => .ok (model, events)
  | config :: rest =>
    match add model config with
    | .error failure => .error failure
    | .ok (next, logged) => add_configs add next (events ++ logged) rest

/-- The constructor `FieldModel(field, sources, sinks)`. -/
def construct (field : Option Field) (sources sinks : List TaintConfig) :
    Except Failure (FieldModel × List Event) :=
  match add_configs add_source (for_field field) [] sources with
  | .error failure => .error failure
  | .ok (model, events) => add_configs add_sink model events sinks

/-- One loop of `FieldModel::from_json`: every value is read by
`TaintConfig::from_json` and added with `add`. -/
def add_values (json : JsonFunctions)
    (add : FieldModel → TaintConfig → Except Failure (FieldModel × List Event))
    (model : FieldModel) (events : List Event) (values : List JsonValue) :
    Except FromJsonFailure (FieldModel × List Event) :=
  match values with
  | [] => .ok (model, events)
  | value :: rest =>
    match json.taint_config_from_json value with
    | .error error => .error (.validation error)
    | .ok config =>
      match add model config with
      | .error failure => .error (.aborted failure)
      | .ok (next, logged) => add_values json add next (events ++ logged) rest

/-- The function `FieldModel::from_json`; the model and the events logged. -/
def from_json (json : JsonFunctions) (field : Option Field) (value : JsonValue) :
    Except FromJsonFailure (FieldModel × List Event) :=
  match JsonValidation.validate_object value with
  | .error error => .error (.validation error)
  | .ok _ =>
    match JsonValidation.null_or_array value "sources" with
    | .error error => .error (.validation error)
    | .ok source_values =>
      match add_values json add_source (for_field field) [] source_values with
      | .error failure => .error failure
      | .ok (model, events) =>
        match JsonValidation.null_or_array value "sinks" with
        | .error error => .error (.validation error)
        | .ok sink_values => add_values json add_sink model events sink_values

/-- The loop of `FieldModel::to_json` over the frames of one taint: the array of
their JSON values, after the assertion that no frame is bottom. -/
def frames_to_json (json : JsonFunctions) (frames : List Frame) :
    Except Failure (List JsonValue) :=
  match frames with
  | [] => .ok []
  | frame :: rest =>
    if frame.is_bottom then .error .assertion
    else
      match frames_to_json json rest with
      | .error failure => .error failure
      | .ok values => .ok (json.frame_to_json frame :: values)

/-- The function `FieldModel::to_json()`. -/
def to_json (self : FieldModel) (json : JsonFunctions) : Except Failure JsonValue :=
  let value := JsonValue.object []
  let value :=
    match self.field_ with
    | some field => value.set "field" (json.field_to_json field)
    | none => value
  let with_sources : Except Failure JsonValue :=
    if !self.sources_.is_bottom then
      match frames_to_json json self.sources_.frames_iterator with
      | .error failure => .error failure
      | .ok sources_value => .ok (value.set "sources" (.array sources_value))
    else .ok value
  match with_sources with
  | .error failure => .error failure
  | .ok value =>
    if !self.sinks_.is_bottom then
      match frames_to_json json self.sinks_.frames_iterator with
      | .error failure => .error failure
      | .ok sinks_value => .ok (value.set "sinks" (.array sinks_value))
    else .ok value

/-- The function `FieldModel::to_json(context)`. -/
def to_json_with_context (self : FieldModel) (json : JsonFunctions) :
    Except Failure JsonValue :=
  match self.to_json json with
  | .error failure => .error failure
  | .ok value => .ok (value.set "position" json.unknown_position_to_json)

end FieldModel

/-- The test helper `make_leaf_taint_config` of tests/Test.cpp with features
and origins. -/
def make_leaf_taint_config_with (kind : Option Kind) (inferred_features : List Feature)
    (locally_inferred_features : List Feature) (user_features : List Feature)
    (origins : List Method) : TaintConfig where
  kind := kind
  callee_port := ⟨Root.Leaf, []⟩
  callee := none
  field_callee := none
  call_position := none
  distance := 0
  origins := origins
  field_origins := []
  inferred_features := inferred_features
  locally_inferred_features := locally_inferred_features
  user_features := user_features
  via_type_of_ports := []
  via_value_of_ports := []
  canonical_names := []
  input_paths := []
  output_paths := []
  local_positions := []

/-- The test helper `make_leaf_taint_config(kind)` of tests/Test.cpp. -/
def make_leaf_taint_config (kind : Option Kind) : TaintConfig :=
  make_leaf_taint_config_with kind [] [] [] []

/-! ## Sample field models -/

/-- JSON functions for the sample values: a field is written as its number, a
frame as the number of its kind, read back as the leaf config of that kind, and
the unknown position as the empty object. -/
def sample_json_functions : JsonFunctions where
  field_to_json := fun field => .int field
  frame_to_json := fun frame => .int (frame.kind.getD 0)
  taint_config_from_json := fun value =>
    match value with
    | .int n => .ok (make_leaf_taint_config (some n.toNat))
    | _ => .error ⟨value, none, "taint config"⟩
  unknown_position_to_json := .object []

/-- The model for field 7 after `add_source` of the leaf config of kind 1: one
leaf source and no sinks. -/
def sample_field_model : FieldModel :=
  ((FieldModel.for_field (some 7)).add_source_taint
    (Taint.of_config (make_leaf_taint_config (some 1)))).1

/-- The leaf config of kind 1 on the port `Return`, a port whose root is not
leaf. -/
def sample_non_leaf_port_config : TaintConfig :=
  { make_leaf_taint_config (some 1) with callee_port := ⟨Root.Return, []⟩ }

end MarianaTrench

/-! ## `FieldModel`: join, instantiation and the invariant on field origins -/

namespace MarianaTrench

namespace FieldModel

/-- The function `FieldModel::operator!=`. -/
def not_equals (self other : FieldModel) : Bool := !(self.equals other)

/-- Modelled from the spec: `FieldModel::leq` (the header is missing) compares the
sources and the sinks, each side on its own. -/
def leq (self other : FieldModel) : Bool :=
  self.sources_.leq other.sources_ && self.sinks_.leq other.sinks_

/-- The function `FieldModel::join_with`, without the expensive assertion.
`same_object` is the test `this == &other` on the addresses, which can hold only
when `other` is this very model. -/
def join_with (self other : FieldModel) (same_object : Bool) : FieldModel :=
  if same_object then self
  else
    { self with
      sources_ := self.sources_.join_with other.sources_
      sinks_ := self.sinks_.join_with other.sinks_ }

/-- The function `FieldModel::join_with` in a build with expensive assertions:
after the joins, `mt_expensive_assert(previous.leq(*this) && other.leq(*this))`
aborts unless its condition is true. -/
def join_with_expensive (self other : FieldModel) (same_object : Bool) :
    Except Failure FieldModel :=
  if same_object then .ok self
  else
    let previous := self
    let this := self.join_with other false
    if previous.leq this && other.leq this then .ok this else .error .assertion

/-- The function `FieldModel::instantiate`; the new model and the events
logged. -/
def instantiate (self : FieldModel) (field : Option Field) : FieldModel × List Event :=
  let field_model := for_field field
  let with_sources := field_model.add_source_taint self.sources_
  let with_sinks := with_sources.1.add_sink_taint self.sinks_
  (with_sinks.1, with_sources.2 ++ with_sinks.2)

/-- The invariant on field origins of section 3 of the spec, read as a test:
once the field is known, every frame of the sources and of the sinks has field
origins. -/
def field_origins_invariant (self : FieldModel) : Bool :=
  self.field_.isNone ||
    (self.sources_.frames ++ self.sinks_.frames).all
      (fun frame => !frame.field_origins.isEmpty)

end FieldModel

/-- The model for the null field after `add_source` of the leaf config of kind
2: its source has no field origins. -/
def sample_null_field_model : FieldModel :=
  ((FieldModel.for_field none).add_source_taint
    (Taint.of_config (make_leaf_taint_config (some 2)))).1

/-! ## `CalleeFrames::add` and `CalleeFrames::update_non_leaf_positions` -/

/-- Modelled from the spec: `CallPositionFrames::add` (missing) puts the frame of
the config into the group. -/
def CallPositionFrames.add (self : CallPositionFrames) (config : TaintConfig) :
    CallPositionFrames :=
  self.join ⟨[config.to_frame]⟩

namespace CalleeFrames

/-- The function `CalleeFrames::add`. -/
def add (self : CalleeFrames CallPositionFrames) (config : TaintConfig) :
    Except Failure (CalleeFrames CallPositionFrames) :=
  let adopted : Except Failure (Option Method) :=
    match self.callee with
    | none => .ok config.callee
    | some callee => if some callee = config.callee then .ok (some callee) else .error .assertion
  match adopted with
  | .error e => .error e
  | .ok callee_ =>
    .ok ⟨callee_,
      self.frames.update config.call_position (fun old_frames => old_frames.add config)⟩

variable {D : Type} [AbstractDomain D]

/-- The inner loop of `update_non_leaf_positions`: every new group is joined
into `result` under its position. -/
def update_positions (result : FramesByCallPosition D)
    (new_positions : List (Option Position × D)) : FramesByCallPosition D :=
  new_positions.foldl
    (fun result entry =>
      result.update entry.1 (fun call_position_frames =>
        AbstractDomain.join call_position_frames entry.2))
    result

/-- The outer loop of `update_non_leaf_positions` over the bindings of
`frames_`. The function `map_positions` is `CallPositionFrames::map_positions`,
which is not among the sources; it is the only caller of `new_call_position`
and `new_local_positions`. A function that does not return stops the loop. -/
def update_non_leaf_positions_loop
    (map_positions : D → (AccessPath → Option Position → Except Failure (Option Position)) →
      (List Position → Except Failure (List Position)) →
      Except Failure (List (Option Position × D)))
    (new_call_position : AccessPath → Option Position → Except Failure (Option Position))
    (new_local_positions : List Position → Except Failure (List Position))
    (bindings : List (Option Position × D)) (result : FramesByCallPosition D) :
    Except Failure (FramesByCallPosition D) :=
  match bindings with
  | [] => .ok result
  | binding :: rest =>
    match map_positions binding.2 new_call_position new_local_positions with
    | .error e => .error e
    | .ok new_positions =>
      update_non_leaf_positions_loop map_positions new_call_position new_local_positions rest
        (update_positions result new_positions)

/-- The function `CalleeFrames::update_non_leaf_positions`. The two functions
given by the caller may fail to return, which is how a call of them shows. -/
def update_non_leaf_positions (self : CalleeFrames D)
    (map_positions : D → (AccessPath → Option Position → Except Failure (Option Position)) →
      (List Position → Except Failure (List Position)) →
      Except Failure (List (Option Position × D)))
    (new_call_position :
      Method → AccessPath → Option Position → Except Failure (Option Position))
    (new_local_positions : List Position → Except Failure (List Position)) :
    Except Failure (CalleeFrames D) :=
  match self.callee with
  | none => .ok self
  | some callee =>
    match self.frames.bindings with
    | .error e => .error e
    | .ok bindings =>
      match update_non_leaf_positions_loop map_positions (new_call_position callee)
          new_local_positions bindings PatriciaTreeMapAbstractPartition.bottom with
      | .error e => .error e
      | .ok result => .ok ⟨some callee, result⟩

end CalleeFrames

/-- A sample of `map_positions`: the group moves as a whole to the new position
of the leaf port, and its local positions, of which there are none, are mapped
too. -/
def sample_map_positions (frames : CallPositionFrames)
    (new_call_position : AccessPath → Option Position → Except Failure (Option Position))
    (new_local_positions : List Position → Except Failure (List Position)) :
    Except Failure (List (Option Position × CallPositionFrames)) :=
  match new_call_position ⟨Root.Leaf, []⟩ frames.position with
  | .error e => .error e
  | .ok position =>
    match new_local_positions [] with
    | .error e => .error e
    | .ok _ => .ok [(position, frames)]

/-- The config of kind 1 for callee 1 at call position 7 and distance 1. -/
def sample_callee_config : TaintConfig :=
  { make_leaf_taint_config (some 1) with
    callee := some 1
    call_position := some 7
    distance := 1
    callee_port := ⟨Root.Argument 0, []⟩ }

end MarianaTrench

/-! ## The order of JSON values and the test helper `sorted_json` (source/tests/Test.cpp) -/

namespace MarianaTrench

namespace JsonValue

/-- The number of the type of a value in the enumeration `Json::ValueType`:
null, integer, string, boolean, array, object in this order; the numbers 2 and
3 belong to the unsigned and the real numbers, which `JsonValue` does not
have. -/
def rank : JsonValue → Nat
  | .null => 0
  | .int _ => 1
  | .string _ => 4
  | .bool _ => 5
  | .array _ => 6
  | .object _ => 7

mutual
/-- The three-way comparison behind `Json::Value::operator<`: values of
different types compare by the number of their type; integers, strings and
booleans by their value; arrays and objects by their size first and then
entry by entry, the first difference deciding, as `std::map::operator<` does
for the entries of the two values. -/
def compare : JsonValue → JsonValue → Ordering
  | .null, other => Ord.compare 0 other.rank
  | .int x, .int y => Ord.compare x y
  | .int _, other => Ord.compare 1 other.rank
  | .string s, .string t => Ord.compare s.data t.data
  | .string _, other => Ord.compare 4 other.rank
  | .bool x, .bool y => Ord.compare x y
  | .bool _, other => Ord.compare 5 other.rank
  | .array xs, .array ys =>
    (Ord.compare xs.length ys.length).then (compare_elements xs ys)
  | .array _, other => Ord.compare 6 other.rank
  | .object ms, .object ns =>
    (Ord.compare ms.length ns.length).then (compare_members ms ns)
  | .object _, other => Ord.compare 7 other.rank
/-- The comparison of the elements of two arrays, one index after the other. -/
def compare_elements : List JsonValue → List JsonValue → Ordering
  | [], [] => .eq
  | [], _ :: _ => .lt
  | _ :: _, [] => .gt
  | x :: xs, y :: ys => (compare x y).then (compare_elements xs ys)
/-- The comparison of the members of two objects, one member after the other:
the keys first, then the values. -/
def compare_members : List (String × JsonValue) → List (String × JsonValue) → Ordering
  | [], [] => .eq
  | [], _ :: _ => .lt
  | _ :: _, [] => .gt
  | (k, x) :: xs, (l, y) :: ys =>
    (Ord.compare k.data l.data).then ((compare x y).then (compare_members xs ys))
end

/-- The order `Json::Value::operator<`. -/
def lt (left right : JsonValue) : Bool := compare left right == .lt

/-- The order in which `std::sort` with the comparison `left < right` leaves two
elements: the later one is not less than the earlier one. -/
def not_after (left right : JsonValue) : Prop := lt right left = false

instance : DecidableRel not_after := fun left right =>
  inferInstanceAs (Decidable (lt right left = false))

/-- The call `std::sort(elements.begin(), elements.end(), left < right)`: the
elements in non-decreasing order. The order is total, so every sorting
algorithm returns this list. -/
def sort (elements : List JsonValue) : List JsonValue := elements.insertionSort not_after

end JsonValue

mutual
/-- The test helper `sorted_json`. -/
def sorted_json : JsonValue → JsonValue
  | .array elements =>
    if elements.isEmpty then .array elements
    else .array (JsonValue.sort (sorted_json_elements elements))
  | .object members => sorted_json_members members (.object [])
  | value => value
/-- The first loop of `sorted_json` over the elements of an array. -/
def sorted_json_elements : List JsonValue → List JsonValue
  | [] => []
  | element :: rest => sorted_json element :: sorted_json_elements rest
/-- The loop of `sorted_json` over the members of an object, in the order of
`getMemberNames()`; `sorted` is the object built so far. A name is taken
together with its value, which is `value[member]` because the names of an
object are distinct. -/
def sorted_json_members : List (String × JsonValue) → JsonValue → JsonValue
  | [], sorted => sorted
  | (member, value) :: rest, sorted =>
    sorted_json_members rest (sorted.set member (sorted_json value))
end

mutual
/-- Two JSON values differ only by the order of the elements of arrays, at any
depth: two arrays when the elements of one are, in some order, the elements of
the other up to this relation; two objects when they have the same keys and
the values at each key are related; any other two values when they are equal. -/
def same_up_to_array_order : JsonValue → JsonValue → Prop
  | .array elements, .array others =>
    ∃ permuted, List.Perm permuted others ∧ same_elements elements permuted
  | .object members, .object others => same_members members others
  | value, other => value = other
/-- Two lists of values of one length that are related index by index. -/
def same_elements : List JsonValue → List JsonValue → Prop
  | [], [] => True
  | element :: rest, other :: others =>
    same_up_to_array_order element other ∧ same_elements rest others
  | _, _ => False
/-- Two lists of members with the same keys whose values are related. -/
def same_members : List (String × JsonValue) → List (String × JsonValue) → Prop
  | [], [] => True
  | (key, value) :: rest, (other_key, other) :: others =>
    key = other_key ∧ same_up_to_array_order value other ∧ same_members rest others
  | _, _ => False
end

mutual
/-- Every array of the value, at any depth, is in non-decreasing order. -/
def arrays_sorted : JsonValue → Prop
  | .array elements => List.Sorted JsonValue.not_after elements ∧ arrays_sorted_elements elements
  | .object members => arrays_sorted_members members
  | _ => True
/-- Every array inside the elements is in non-decreasing order. -/
def arrays_sorted_elements : List JsonValue → Prop
  | [] => True
  | element :: rest => arrays_sorted element ∧ arrays_sorted_elements rest
/-- Every array inside the members is in non-decreasing order. -/
def arrays_sorted_members : List (String × JsonValue) → Prop
  | [] => True
  | (_, value) :: rest => arrays_sorted value ∧ arrays_sorted_members rest
end

mutual
/-- The members of every object of the value, at any depth, are in the strict
order of their keys, as the `std::map` of a `Json::Value` keeps them. -/
def keys_ordered : JsonValue → Prop
  | .array elements => keys_ordered_elements elements
  | .object members =>
    List.Sorted (fun left right => left.1.data < right.1.data) members ∧
      keys_ordered_members members
  | _ => True
/-- The objects inside the elements keep their members in the order of their
keys. -/
def keys_ordered_elements : List JsonValue → Prop
  | [] => True
  | element :: rest => keys_ordered element ∧ keys_ordered_elements rest
/-- The objects inside the members keep their members in the order of their
keys. -/
def keys_ordered_members : List (String × JsonValue) → Prop
  | [] => True
  | (_, value) :: rest => keys_ordered value ∧ keys_ordered_members rest
end

end MarianaTrench
/-! ## Lemmas on association lists and `PatriciaTreeMap` -/

namespace MarianaTrench

theorem lookup_eq_none_iff {K V : Type} [DecidableEq K] (l : List (K × V)) (k : K) :
    lookup l k = none ↔ k ∉ l.map Prod.fst := by
  induction l with
  | nil => simp [lookup]
  | cons e rest ih =>
    by_cases h : e.1 = k
    · simp [lookup, h]
    · have h2 : ¬ k = e.1 := fun hk => h hk.symm
      simp [lookup, h, h2, ih]

theorem lookup_mem {K V : Type} [DecidableEq K] (l : List (K × V)) (k : K) (v : V)
    (h : lookup l k = some v) : (k, v) ∈ l := by
  induction l with
  | nil => simp [lookup] at h
  | cons e rest ih =>
    by_cases hk : e.1 = k
    · simp only [lookup, hk, if_true, Option.some.injEq] at h
      have he : e = (k, v) := Prod.ext hk h
      simp [he]
    · simp only [lookup, hk, if_false] at h
      exact List.mem_cons_of_mem _ (ih h)

theorem lookup_of_mem {K V : Type} [DecidableEq K] (l : List (K × V))
    (hl : (l.map Prod.fst).Nodup) (e : K × V) (he : e ∈ l) : lookup l e.1 = some e.2 := by
  induction l with
  | nil => simp at he
  | cons a rest ih =>
    rw [List.map_cons, List.nodup_cons] at hl
    rcases List.mem_cons.1 he with rfl | hmem
    · simp [lookup]
    · have hne : ¬ a.1 = e.1 := by
        intro heq
        apply hl.1
        rw [heq]
        exact List.mem_map_of_mem Prod.fst hmem
      simp only [lookup, hne, if_false]
      exact ih hl.2 hmem

namespace PatriciaTreeMap

variable {K D : Type} [DecidableEq K] [AbstractDomain D]

theorem get_of_mem (m : PatriciaTreeMap K D) (e : K × D) (he : e ∈ m.entries) :
    m.get e.1 = e.2 := by
  simp [get, lookup_of_mem m.entries m.nodup_keys e he]

theorem get_of_not_mem (m : PatriciaTreeMap K D) (k : K) (hk : k ∉ m.keys) :
    m.get k = AbstractDomain.bottom := by
  have h := (lookup_eq_none_iff m.entries k).2 hk
  simp [get, h]

theorem mem_of_mem_keys (m : PatriciaTreeMap K D) (k : K) (hk : k ∈ m.keys) :
    (k, m.get k) ∈ m.entries := by
  rcases List.mem_map.1 hk with ⟨e, he, rfl⟩
  rw [get_of_mem m e he]
  exact he

theorem is_bottom_get_iff (m : PatriciaTreeMap K D) (k : K) :
    AbstractDomain.is_bottom (m.get k) = true ↔ k ∉ m.keys := by
  constructor
  · intro h hk
    have hmem := mem_of_mem_keys m k hk
    have hnb := m.no_default _ hmem
    simp [h] at hnb
  · intro hk
    rw [get_of_not_mem m k hk]
    exact AbstractDomain.is_bottom_bottom

theorem lookup_eq_some_get (m : PatriciaTreeMap K D) (k : K) (v : D)
    (h : lookup m.entries k = some v) : m.get k = v := by
  simp [get, h]

theorem lookup_eq_none_get (m : PatriciaTreeMap K D) (k : K)
    (h : lookup m.entries k = none) : m.get k = AbstractDomain.bottom := by
  simp [get, h]

theorem keys_build (ks : List K) (h : ks.Nodup) (f : K → D) :
    (build ks h f).keys = ks.filter (fun k => !AbstractDomain.is_bottom (f k)) := by
  have hid : (Prod.fst ∘ fun k => (k, f k)) = (id : K → K) := by
    funext k
    rfl
  simp only [keys, build, List.map_map, hid, List.map_id]

theorem get_build (ks : List K) (h : ks.Nodup) (f : K → D) (k : K) :
    (build ks h f).get k =
      if k ∈ ks ∧ AbstractDomain.is_bottom (f k) = false then f k
      else AbstractDomain.bottom := by
  by_cases hk : k ∈ ks ∧ AbstractDomain.is_bottom (f k) = false
  · rw [if_pos hk]
    have hmem : (k, f k) ∈ (build ks h f).entries := by
      simp only [build, List.mem_map, List.mem_filter]
      exact ⟨k, ⟨hk.1, by simp [hk.2]⟩, rfl⟩
    exact get_of_mem _ _ hmem
  · rw [if_neg hk]
    apply get_of_not_mem
    rw [keys_build, List.mem_filter]
    intro hc
    apply hk
    refine ⟨hc.1, ?_⟩
    simpa using hc.2

theorem get_build_leq (ks : List K) (h : ks.Nodup) (f : K → D) (k : K) :
    AbstractDomain.leq ((build ks h f).get k) (f k) = true := by
  rw [get_build]
  split
  · exact AbstractDomain.leq_refl _
  · exact AbstractDomain.bottom_leq _ _ AbstractDomain.is_bottom_bottom

theorem leq_get_build (ks : List K) (h : ks.Nodup) (f : K → D) (k : K)
    (hk : k ∉ ks → AbstractDomain.is_bottom (f k) = true) :
    AbstractDomain.leq (f k) ((build ks h f).get k) = true := by
  rw [get_build]
  split
  · exact AbstractDomain.leq_refl _
  · rename_i hn
    apply AbstractDomain.bottom_leq
    by_cases hmem : k ∈ ks
    · cases hb : AbstractDomain.is_bottom (f k)
      · exact absurd ⟨hmem, hb⟩ hn
      · rfl
    · exact hk hmem

theorem get_empty (k : K) : (empty : PatriciaTreeMap K D).get k = AbstractDomain.bottom := rfl

theorem map_leq_iff (m o : PatriciaTreeMap K D) :
    m.leq o = true ↔ ∀ k, AbstractDomain.leq (m.get k) (o.get k) = true := by
  simp only [PatriciaTreeMap.leq, List.all_eq_true]
  constructor
  · intro h k
    by_cases hk : k ∈ m.keys
    · exact h _ (mem_of_mem_keys m k hk)
    · exact AbstractDomain.bottom_leq _ _ ((is_bottom_get_iff m k).2 hk)
  · intro h e he
    have := h e.1
    rwa [get_of_mem m e he] at this

theorem map_equals_eq (m o : PatriciaTreeMap K D) :
    m.equals o = (m.leq o && o.leq m) := by
  rw [Bool.eq_iff_iff]
  simp only [PatriciaTreeMap.equals, Bool.and_eq_true, List.all_eq_true, AbstractDomain.equals_iff]
  constructor
  · rintro ⟨h1, h2⟩
    refine ⟨?_, ?_⟩
    · rw [PatriciaTreeMap.leq, List.all_eq_true]
      exact fun e he => (h1 e he).1
    · rw [PatriciaTreeMap.leq, List.all_eq_true]
      exact fun e he => (h2 e he).2
  · rintro ⟨h1, h2⟩
    rw [map_leq_iff] at h1 h2
    refine ⟨fun e he => ?_, fun e he => ?_⟩
    · have a := h1 e.1
      have b := h2 e.1
      rw [get_of_mem m e he] at a b
      exact ⟨a, b⟩
    · have a := h1 e.1
      have b := h2 e.1
      rw [get_of_mem o e he] at a b
      exact ⟨a, b⟩

theorem map_is_empty_iff (m : PatriciaTreeMap K D) :
    m.is_empty = true ↔ ∀ k, AbstractDomain.is_bottom (m.get k) = true := by
  constructor
  · intro h k
    apply (is_bottom_get_iff m k).2
    have : m.entries = [] := by simpa [is_empty] using h
    simp [keys, this]
  · intro h
    cases hm : m.entries with
    | nil => simp [is_empty, hm]
    | cons e rest =>
      have he : e ∈ m.entries := by simp [hm]
      have h1 := h e.1
      rw [get_of_mem m e he] at h1
      have h2 := m.no_default e he
      simp [h1] at h2

theorem map_leq_refl (m : PatriciaTreeMap K D) : m.leq m = true :=
  (map_leq_iff m m).2 (fun _ => AbstractDomain.leq_refl _)

theorem map_leq_trans (a b c : PatriciaTreeMap K D) (hab : a.leq b = true) (hbc : b.leq c = true) :
    a.leq c = true := by
  rw [map_leq_iff] at *
  exact fun k => AbstractDomain.leq_trans _ _ _ (hab k) (hbc k)

end PatriciaTreeMap

end MarianaTrench

namespace MarianaTrench

namespace PatriciaTreeMap

variable {K D : Type} [DecidableEq K] [AbstractDomain D]

theorem leq_union_left (c : D → D → D) (hc : ∀ x y, AbstractDomain.leq x (c x y) = true)
    (m o : PatriciaTreeMap K D) : m.leq (union_with c m o) = true := by
  rw [map_leq_iff]
  intro k
  unfold union_with
  refine AbstractDomain.leq_trans _ _ _ ?_ (leq_get_build _ _ _ k ?_)
  · cases hm : lookup m.entries k with
    | none =>
      rw [lookup_eq_none_get m k hm]
      exact AbstractDomain.bottom_leq _ _ AbstractDomain.is_bottom_bottom
    | some v =>
      rw [lookup_eq_some_get m k v hm]
      cases ho : lookup o.entries k with
      | none => exact AbstractDomain.leq_refl _
      | some w => exact hc v w
  · intro hk
    have hk1 : k ∉ m.keys := fun h => hk (List.mem_union_left h _)
    have hk2 : k ∉ o.keys := fun h => hk (List.mem_union_right _ h)
    rw [(lookup_eq_none_iff m.entries k).2 hk1, (lookup_eq_none_iff o.entries k).2 hk2]
    exact AbstractDomain.is_bottom_bottom

theorem leq_union_right (c : D → D → D) (hc : ∀ x y, AbstractDomain.leq y (c x y) = true)
    (m o : PatriciaTreeMap K D) : o.leq (union_with c m o) = true := by
  rw [map_leq_iff]
  intro k
  unfold union_with
  refine AbstractDomain.leq_trans _ _ _ ?_ (leq_get_build _ _ _ k ?_)
  · cases ho : lookup o.entries k with
    | none =>
      rw [lookup_eq_none_get o k ho]
      exact AbstractDomain.bottom_leq _ _ AbstractDomain.is_bottom_bottom
    | some w =>
      rw [lookup_eq_some_get o k w ho]
      cases hm : lookup m.entries k with
      | none => exact AbstractDomain.leq_refl _
      | some v => exact hc v w
  · intro hk
    have hk1 : k ∉ m.keys := fun h => hk (List.mem_union_left h _)
    have hk2 : k ∉ o.keys := fun h => hk (List.mem_union_right _ h)
    rw [(lookup_eq_none_iff m.entries k).2 hk1, (lookup_eq_none_iff o.entries k).2 hk2]
    exact AbstractDomain.is_bottom_bottom

theorem union_least (c : D → D → D)
    (hc : ∀ x y z, AbstractDomain.leq x z = true → AbstractDomain.leq y z = true →
      AbstractDomain.leq (c x y) z = true)
    (m o z : PatriciaTreeMap K D) (hm : m.leq z = true) (ho : o.leq z = true) :
    (union_with c m o).leq z = true := by
  rw [map_leq_iff] at *
  intro k
  unfold union_with
  refine AbstractDomain.leq_trans _ _ _ (get_build_leq _ _ _ k) ?_
  have h1 := hm k
  have h2 := ho k
  cases hlm : lookup m.entries k with
  | none =>
    cases hlo : lookup o.entries k with
    | none => exact AbstractDomain.bottom_leq _ _ AbstractDomain.is_bottom_bottom
    | some w =>
      rw [lookup_eq_some_get o k w hlo] at h2
      exact h2
  | some v =>
    rw [lookup_eq_some_get m k v hlm] at h1
    cases hlo : lookup o.entries k with
    | none => exact h1
    | some w =>
      rw [lookup_eq_some_get o k w hlo] at h2
      exact hc v w _ h1 h2

theorem intersection_leq_left (c : D → D → D)
    (hc : ∀ x y, AbstractDomain.leq (c x y) x = true) (m o : PatriciaTreeMap K D) :
    (intersection_with c m o).leq m = true := by
  rw [map_leq_iff]
  intro k
  unfold intersection_with
  exact AbstractDomain.leq_trans _ _ _ (get_build_leq _ _ _ k) (hc _ _)

theorem intersection_leq_right (c : D → D → D)
    (hc : ∀ x y, AbstractDomain.leq (c x y) y = true) (m o : PatriciaTreeMap K D) :
    (intersection_with c m o).leq o = true := by
  rw [map_leq_iff]
  intro k
  unfold intersection_with
  exact AbstractDomain.leq_trans _ _ _ (get_build_leq _ _ _ k) (hc _ _)

theorem intersection_greatest (c : D → D → D)
    (hl : ∀ x y, AbstractDomain.leq (c x y) x = true)
    (hr : ∀ x y, AbstractDomain.leq (c x y) y = true)
    (hc : ∀ x y z, AbstractDomain.leq z x = true → AbstractDomain.leq z y = true →
      AbstractDomain.leq z (c x y) = true)
    (m o z : PatriciaTreeMap K D) (hm : z.leq m = true) (ho : z.leq o = true) :
    z.leq (intersection_with c m o) = true := by
  rw [map_leq_iff] at *
  intro k
  unfold intersection_with
  refine AbstractDomain.leq_trans _ _ _ (hc _ _ _ (hm k) (ho k))
    (leq_get_build _ _ (fun k => c (m.get k) (o.get k)) k ?_)
  intro hk
  by_cases h1 : k ∈ m.keys
  · have h2 : k ∉ o.keys := fun h => hk (List.mem_inter_iff.2 ⟨h1, h⟩)
    exact AbstractDomain.leq_bottom _ _ (hr _ _) ((is_bottom_get_iff o k).2 h2)
  · exact AbstractDomain.leq_bottom _ _ (hl _ _) ((is_bottom_get_iff m k).2 h1)

theorem difference_leq_left (c : D → D → D)
    (hc : ∀ x y, AbstractDomain.leq (c x y) x = true) (m o : PatriciaTreeMap K D) :
    (difference_with c m o).leq m = true := by
  rw [map_leq_iff]
  intro k
  unfold difference_with
  refine AbstractDomain.leq_trans _ _ _ (get_build_leq _ _ _ k) ?_
  cases lookup o.entries k with
  | none => exact AbstractDomain.leq_refl _
  | some w => exact hc _ _

theorem difference_self_is_empty (c : D → D → D)
    (hc : ∀ x, AbstractDomain.is_bottom (c x x) = true) (m : PatriciaTreeMap K D) :
    (difference_with c m m).is_empty = true := by
  rw [map_is_empty_iff]
  intro k
  unfold difference_with
  rw [get_build]
  split
  · rename_i h
    cases hl : lookup m.entries k with
    | none =>
      exact absurd h.1 ((lookup_eq_none_iff m.entries k).1 hl)
    | some w =>
      have h2 := h.2
      rw [hl, lookup_eq_some_get m k w hl] at h2
      simp [hc w] at h2
  · exact AbstractDomain.is_bottom_bottom

theorem leq_difference_of_is_empty (c : D → D → D) (m o : PatriciaTreeMap K D)
    (ho : o.is_empty = true) : m.leq (difference_with c m o) = true := by
  have hmo : o.entries = [] := by simpa [is_empty] using ho
  have key : ∀ k, (match lookup o.entries k with
      | some w => c (m.get k) w
      | none => m.get k) = m.get k := by
    intro k
    simp [hmo, lookup]
  rw [map_leq_iff]
  intro k
  unfold difference_with
  refine AbstractDomain.leq_trans _ _ _ ?_
    (leq_get_build _ _ (fun k => match lookup o.entries k with
      | some w => c (m.get k) w
      | none => m.get k) k ?_)
  · rw [key]
    exact AbstractDomain.leq_refl _
  · intro hk
    show AbstractDomain.is_bottom (match lookup o.entries k with
      | some w => c (m.get k) w
      | none => m.get k) = true
    rw [key]
    exact (is_bottom_get_iff m k).2 hk

theorem empty_leq (m : PatriciaTreeMap K D) : (empty : PatriciaTreeMap K D).leq m = true := by
  rw [map_leq_iff]
  intro k
  exact AbstractDomain.bottom_leq _ _ AbstractDomain.is_bottom_bottom

theorem is_empty_of_leq (m o : PatriciaTreeMap K D) (h : m.leq o = true)
    (ho : o.is_empty = true) : m.is_empty = true := by
  rw [map_is_empty_iff] at *
  rw [map_leq_iff] at h
  exact fun k => AbstractDomain.leq_bottom _ _ (h k) (ho k)

theorem leq_of_is_empty (m o : PatriciaTreeMap K D) (h : m.is_empty = true) :
    m.leq o = true := by
  rw [map_is_empty_iff] at h
  rw [map_leq_iff]
  exact fun k => AbstractDomain.bottom_leq _ _ (h k)

end PatriciaTreeMap

end MarianaTrench

/-! ## Lemmas on `PatriciaTreeMapAbstractPartition` -/

namespace MarianaTrench

namespace PatriciaTreeMapAbstractPartition

variable {K D : Type} [DecidableEq K] [AbstractDomain D]

theorem partition_leq_refl (p : PatriciaTreeMapAbstractPartition K D) : p.leq p = true := by
  cases p with
  | top => rfl
  | value m => exact PatriciaTreeMap.map_leq_refl m

theorem partition_leq_trans (a b c : PatriciaTreeMapAbstractPartition K D)
    (hab : a.leq b = true) (hbc : b.leq c = true) : a.leq c = true := by
  cases a with
  | top =>
    cases b with
    | top => exact hbc
    | value mb => simp [leq, is_top] at hab
  | value ma =>
    cases c with
    | top => rfl
    | value mc =>
      cases b with
      | top => simp [leq, is_top] at hbc
      | value mb => exact PatriciaTreeMap.map_leq_trans ma mb mc hab hbc

theorem partition_equals_eq (p o : PatriciaTreeMapAbstractPartition K D) :
    p.equals o = (p.leq o && o.leq p) := by
  cases p with
  | top =>
    cases o with
    | top => rfl
    | value mo => rfl
  | value mp =>
    cases o with
    | top => rfl
    | value mo => exact PatriciaTreeMap.map_equals_eq mp mo

theorem partition_leq_top (p : PatriciaTreeMapAbstractPartition K D) : p.leq top = true := by
  cases p with
  | top => rfl
  | value m => rfl

theorem partition_leq_of_is_bottom (p o : PatriciaTreeMapAbstractPartition K D)
    (h : p.is_bottom = true) : p.leq o = true := by
  cases p with
  | top => simp [is_bottom] at h
  | value m =>
    cases o with
    | top => rfl
    | value mo => exact PatriciaTreeMap.leq_of_is_empty m mo h

theorem partition_is_bottom_of_leq (p o : PatriciaTreeMapAbstractPartition K D)
    (h : p.leq o = true) (ho : o.is_bottom = true) : p.is_bottom = true := by
  cases o with
  | top => simp [is_bottom] at ho
  | value mo =>
    cases p with
    | top => simp [leq, is_top] at h
    | value m => exact PatriciaTreeMap.is_empty_of_leq m mo h ho

theorem partition_is_bottom_bottom :
    (bottom : PatriciaTreeMapAbstractPartition K D).is_bottom = true := rfl

theorem partition_leq_join_like_left (c : D → D → D)
    (hc : ∀ x y, AbstractDomain.leq x (c x y) = true)
    (p o : PatriciaTreeMapAbstractPartition K D) :
    p.leq (p.join_like_operation o c) = true := by
  cases p with
  | top => rfl
  | value m =>
    cases o with
    | top => rfl
    | value mo => exact PatriciaTreeMap.leq_union_left c hc m mo

theorem partition_leq_join_like_right (c : D → D → D)
    (hc : ∀ x y, AbstractDomain.leq y (c x y) = true)
    (p o : PatriciaTreeMapAbstractPartition K D) :
    o.leq (p.join_like_operation o c) = true := by
  cases p with
  | top => exact partition_leq_top o
  | value m =>
    cases o with
    | top => rfl
    | value mo => exact PatriciaTreeMap.leq_union_right c hc m mo

theorem partition_join_least (p o z : PatriciaTreeMapAbstractPartition K D)
    (hp : p.leq z = true) (ho : o.leq z = true) : (p.join_with o).leq z = true := by
  cases p with
  | top => exact hp
  | value m =>
    cases o with
    | top => exact ho
    | value mo =>
      cases z with
      | top => rfl
      | value mz =>
        exact PatriciaTreeMap.union_least _ AbstractDomain.join_least m mo mz hp ho

theorem partition_leq_join_left (p o : PatriciaTreeMapAbstractPartition K D) :
    p.leq (p.join_with o) = true :=
  partition_leq_join_like_left _ AbstractDomain.leq_join_left p o

theorem partition_leq_join_right (p o : PatriciaTreeMapAbstractPartition K D) :
    o.leq (p.join_with o) = true :=
  partition_leq_join_like_right _ AbstractDomain.leq_join_right p o

theorem partition_leq_widen_left (p o : PatriciaTreeMapAbstractPartition K D) :
    p.leq (p.widen_with o) = true :=
  partition_leq_join_like_left _ AbstractDomain.leq_widen_left p o

theorem partition_leq_widen_right (p o : PatriciaTreeMapAbstractPartition K D) :
    o.leq (p.widen_with o) = true :=
  partition_leq_join_like_right _ AbstractDomain.leq_widen_right p o

theorem partition_join_is_bottom (p o : PatriciaTreeMapAbstractPartition K D) :
    (p.join_with o).is_bottom = (p.is_bottom && o.is_bottom) := by
  rw [Bool.eq_iff_iff, Bool.and_eq_true]
  constructor
  · intro h
    exact ⟨partition_is_bottom_of_leq _ _ (partition_leq_join_left p o) h,
      partition_is_bottom_of_leq _ _ (partition_leq_join_right p o) h⟩
  · rintro ⟨hp, ho⟩
    have hle : (p.join_with o).leq bottom = true :=
      partition_join_least p o bottom (partition_leq_of_is_bottom _ _ hp)
        (partition_leq_of_is_bottom _ _ ho)
    exact partition_is_bottom_of_leq _ _ hle partition_is_bottom_bottom

theorem partition_meet_top (p : PatriciaTreeMapAbstractPartition K D) :
    p.meet_with top = p := by
  cases p with
  | top => rfl
  | value m => rfl

theorem partition_difference_leq (p o : PatriciaTreeMapAbstractPartition K D) :
    (p.difference_like_operation o AbstractDomain.difference).leq p = true := by
  cases o with
  | top =>
    cases p with
    | top => rfl
    | value m => exact PatriciaTreeMap.empty_leq m
  | value mo =>
    cases p with
    | top => rfl
    | value m =>
      exact PatriciaTreeMap.difference_leq_left _ AbstractDomain.difference_leq m mo

theorem partition_difference_self (p : PatriciaTreeMapAbstractPartition K D) :
    (p.difference_like_operation p AbstractDomain.difference).is_bottom = true := by
  cases p with
  | top => rfl
  | value m =>
    exact PatriciaTreeMap.difference_self_is_empty _ AbstractDomain.difference_self m

theorem partition_leq_difference_of_is_bottom (p o : PatriciaTreeMapAbstractPartition K D)
    (ho : o.is_bottom = true) :
    p.leq (p.difference_like_operation o AbstractDomain.difference) = true := by
  cases o with
  | top => simp [is_bottom] at ho
  | value mo =>
    cases p with
    | top => rfl
    | value m => exact PatriciaTreeMap.leq_difference_of_is_empty _ m mo ho

end PatriciaTreeMapAbstractPartition

end MarianaTrench

/-! ## Lemmas on `CalleeFrames` -/

namespace MarianaTrench

namespace CalleeFrames

variable {D : Type} [AbstractDomain D]

theorem callees_agree_symm (a b : CalleeFrames D) (h : a.callees_agree b = true) :
    b.callees_agree a = true := by
  simp only [callees_agree, Bool.or_eq_true, decide_eq_true_eq] at *
  rcases h with (h | h) | h
  · exact Or.inl (Or.inr h)
  · exact Or.inl (Or.inl h)
  · exact Or.inr h.symm

theorem callees_agree_self (a : CalleeFrames D) : a.callees_agree a = true := by
  simp [callees_agree]

theorem with_callee_of_eq (a b : CalleeFrames D)
    (operation : FramesByCallPosition D → FramesByCallPosition D → FramesByCallPosition D)
    (ha : a.callee_invariant = true) (hab : a.callees_agree b = true) :
    with_callee_of a b operation =
      .ok ⟨if a.is_bottom = true then b.callee else a.callee, operation a.frames b.frames⟩ := by
  simp only [callee_invariant, callees_agree, Bool.or_eq_true, decide_eq_true_eq,
    Bool.not_eq_true'] at ha hab
  unfold with_callee_of
  cases hbot : a.is_bottom
  · simp only [hbot, Bool.false_eq_true, or_self, false_or] at hab
    rcases hab with hb | hc
    · simp [hb]
    · simp [hc]
  · simp only [hbot, Bool.true_eq_false, false_or] at ha
    simp [ha]

theorem leq_eq_ok (a b : CalleeFrames D) (h : a.callees_agree b = true) :
    a.leq b = .ok (a.frames.leq b.frames) := by
  simp [leq, h]

theorem equals_eq_ok (a b : CalleeFrames D) (h : a.callees_agree b = true) :
    a.equals b = .ok (a.frames.equals b.frames) := by
  simp [equals, h]

theorem callees_agree_of_leq_ok (a b : CalleeFrames D) (r : Bool) (h : a.leq b = .ok r) :
    a.callees_agree b = true := by
  unfold leq at h
  split at h
  · assumption
  · cases h

theorem leq_ok_true_iff (a b : CalleeFrames D) :
    a.leq b = .ok true ↔ (a.callees_agree b = true ∧ a.frames.leq b.frames = true) := by
  constructor
  · intro h
    have hag := callees_agree_of_leq_ok a b true h
    rw [leq_eq_ok a b hag] at h
    exact ⟨hag, by simpa using h⟩
  · rintro ⟨hag, hle⟩
    rw [leq_eq_ok a b hag, hle]

theorem equals_ok_true_iff (a b : CalleeFrames D) :
    a.equals b = .ok true ↔ (a.callees_agree b = true ∧ a.frames.equals b.frames = true) := by
  constructor
  · intro h
    have hag : a.callees_agree b = true := by
      unfold equals at h
      split at h
      · assumption
      · cases h
    rw [equals_eq_ok a b hag] at h
    exact ⟨hag, by simpa using h⟩
  · rintro ⟨hag, hle⟩
    rw [equals_eq_ok a b hag, hle]

end CalleeFrames

end MarianaTrench

namespace MarianaTrench

namespace CalleeFrames

variable {D : Type} [AbstractDomain D]

theorem callees_agree_result_left (a b : CalleeFrames D) (frames : FramesByCallPosition D) :
    a.callees_agree ⟨if a.is_bottom = true then b.callee else a.callee, frames⟩ = true := by
  cases hbot : a.is_bottom <;> simp [callees_agree, hbot]

theorem callees_agree_result_right (a b : CalleeFrames D) (frames : FramesByCallPosition D)
    (hab : a.callees_agree b = true) :
    b.callees_agree ⟨if a.is_bottom = true then b.callee else a.callee, frames⟩ = true := by
  simp only [callees_agree, Bool.or_eq_true, decide_eq_true_eq] at hab
  cases hbot : a.is_bottom
  · simp only [hbot, Bool.false_eq_true, false_or] at hab
    rcases hab with hb | hc
    · simp [callees_agree, hb]
    · simp [callees_agree, hc]
  · simp [callees_agree]

theorem upper_bound_of_with_callee_of (a b : CalleeFrames D)
    (operation : FramesByCallPosition D → FramesByCallPosition D → FramesByCallPosition D)
    (hl : ∀ p o, PatriciaTreeMapAbstractPartition.leq p (operation p o) = true)
    (hr : ∀ p o, PatriciaTreeMapAbstractPartition.leq o (operation p o) = true)
    (ha : a.callee_invariant = true) (hab : a.callees_agree b = true) :
    ∃ r, with_callee_of a b operation = .ok r ∧ a.leq r = .ok true ∧ b.leq r = .ok true ∧
      expensive_assertion a b r = .ok true := by
  refine ⟨_, with_callee_of_eq a b operation ha hab, ?_, ?_, ?_⟩
  · exact (leq_ok_true_iff _ _).2 ⟨callees_agree_result_left a b _, hl _ _⟩
  · exact (leq_ok_true_iff _ _).2 ⟨callees_agree_result_right a b _ hab, hr _ _⟩
  · have h1 : a.leq ⟨if a.is_bottom = true then b.callee else a.callee,
        operation a.frames b.frames⟩ = .ok true :=
      (leq_ok_true_iff _ _).2 ⟨callees_agree_result_left a b _, hl _ _⟩
    have h2 : b.leq ⟨if a.is_bottom = true then b.callee else a.callee,
        operation a.frames b.frames⟩ = .ok true :=
      (leq_ok_true_iff _ _).2 ⟨callees_agree_result_right a b _ hab, hr _ _⟩
    simp only [expensive_assertion, h1, h2]

theorem with_callee_of_ok (a b r : CalleeFrames D)
    (operation : FramesByCallPosition D → FramesByCallPosition D → FramesByCallPosition D)
    (h : with_callee_of a b operation = .ok r) :
    a.callee_invariant = true ∧ a.callees_agree b = true := by
  unfold with_callee_of at h
  simp only [callee_invariant, callees_agree, Bool.or_eq_true, decide_eq_true_eq,
    Bool.not_eq_true']
  rcases Bool.eq_false_or_eq_true a.is_bottom with h1 | h1
  · by_cases hc : a.callee = none
    · exact ⟨Or.inr hc, Or.inl (Or.inl h1)⟩
    · simp [h1, hc] at h
  · refine ⟨Or.inl h1, ?_⟩
    by_cases h2 : b.is_bottom = true ∨ a.callee = b.callee
    · rcases h2 with h2 | h2
      · exact Or.inl (Or.inr h2)
      · exact Or.inr h2
    · have h3 : ¬ (b.is_bottom = true) := fun hb => h2 (Or.inl hb)
      have h4 : ¬ (a.callee = b.callee) := fun hb => h2 (Or.inr hb)
      simp [h1, h3, h4] at h

theorem upper_bound_of_with_callee_of_ok (a b r : CalleeFrames D)
    (operation : FramesByCallPosition D → FramesByCallPosition D → FramesByCallPosition D)
    (hl : ∀ p o, PatriciaTreeMapAbstractPartition.leq p (operation p o) = true)
    (hr : ∀ p o, PatriciaTreeMapAbstractPartition.leq o (operation p o) = true)
    (h : with_callee_of a b operation = .ok r) :
    a.leq r = .ok true ∧ b.leq r = .ok true ∧ expensive_assertion a b r = .ok true := by
  rcases with_callee_of_ok a b r operation h with ⟨ha, hab⟩
  rcases upper_bound_of_with_callee_of a b operation hl hr ha hab with ⟨r2, h2, h3⟩
  rw [h] at h2
  cases h2
  exact h3

theorem with_callee_of_ok_eq (a b r : CalleeFrames D)
    (operation : FramesByCallPosition D → FramesByCallPosition D → FramesByCallPosition D)
    (h : with_callee_of a b operation = .ok r) :
    r = ⟨if a.is_bottom = true then b.callee else a.callee, operation a.frames b.frames⟩ := by
  rcases with_callee_of_ok a b r operation h with ⟨ha, hab⟩
  rw [with_callee_of_eq a b operation ha hab] at h
  cases h
  rfl

/-- C4: whenever `a.join_with(b)` or `a.widen_with(b)` returns, the value `r`
it leaves in `a` is an upper bound of both operands: `a_before.leq(r)` and
`b.leq(r)` hold, so the expensive assertion at the end of either function
holds and a build with expensive assertions behaves like one without. Both
functions return for all `a` and `b` that share one callee or of which one is
bottom, where `a` satisfies the invariant that its own opening assertion
checks. -/
theorem join_with_widen_with_upper_bound (a b : CalleeFrames D) :
    (∀ r, a.join_with b = .ok r →
      a.leq r = .ok true ∧ b.leq r = .ok true ∧ expensive_assertion a b r = .ok true) ∧
    (∀ r, a.widen_with b = .ok r →
      a.leq r = .ok true ∧ b.leq r = .ok true ∧ expensive_assertion a b r = .ok true) ∧
    a.join_with_expensive b = a.join_with b ∧
    a.widen_with_expensive b = a.widen_with b ∧
    (a.callee_invariant = true → a.callees_agree b = true →
      (∃ r, a.join_with b = .ok r) ∧ (∃ r, a.widen_with b = .ok r)) := by
  have hj : ∀ r, a.join_with b = .ok r →
      a.leq r = .ok true ∧ b.leq r = .ok true ∧ expensive_assertion a b r = .ok true :=
    fun r h => upper_bound_of_with_callee_of_ok a b r _
      PatriciaTreeMapAbstractPartition.partition_leq_join_left
      PatriciaTreeMapAbstractPartition.partition_leq_join_right h
  have hw : ∀ r, a.widen_with b = .ok r →
      a.leq r = .ok true ∧ b.leq r = .ok true ∧ expensive_assertion a b r = .ok true :=
    fun r h => upper_bound_of_with_callee_of_ok a b r _
      PatriciaTreeMapAbstractPartition.partition_leq_widen_left
      PatriciaTreeMapAbstractPartition.partition_leq_widen_right h
  refine ⟨hj, hw, ?_, ?_, ?_⟩
  · unfold join_with_expensive
    cases h : a.join_with b with
    | error e => rfl
    | ok r => simp only [(hj r h).2.2]
  · unfold widen_with_expensive
    cases h : a.widen_with b with
    | error e => rfl
    | ok r => simp only [(hw r h).2.2]
  · exact fun ha hab =>
      ⟨⟨_, with_callee_of_eq a b _ ha hab⟩, ⟨_, with_callee_of_eq a b _ ha hab⟩⟩

end CalleeFrames

end MarianaTrench

namespace MarianaTrench

namespace CalleeFrames

variable {D : Type} [AbstractDomain D]

theorem join_with_eq (a b : CalleeFrames D)
    (ha : a.callee_invariant = true) (hab : a.callees_agree b = true) :
    a.join_with b =
      .ok ⟨if a.is_bottom = true then b.callee else a.callee, a.frames.join_with b.frames⟩ :=
  with_callee_of_eq a b _ ha hab

theorem equals_ok_of_leq_leq (x y : CalleeFrames D) (hc : x.callee = y.callee)
    (h1 : x.frames.leq y.frames = true) (h2 : y.frames.leq x.frames = true) :
    x.equals y = .ok true := by
  rw [equals_ok_true_iff, PatriciaTreeMapAbstractPartition.partition_equals_eq, h1, h2]
  refine ⟨?_, rfl⟩
  simp [callees_agree, hc]

theorem partition_join_comm_leq {K : Type} [DecidableEq K]
    (p o : PatriciaTreeMapAbstractPartition K D) :
    (p.join_with o).leq (o.join_with p) = true :=
  PatriciaTreeMapAbstractPartition.partition_join_least p o _
    (PatriciaTreeMapAbstractPartition.partition_leq_join_right o p)
    (PatriciaTreeMapAbstractPartition.partition_leq_join_left o p)

theorem partition_join_assoc_leq {K : Type} [DecidableEq K]
    (p o q : PatriciaTreeMapAbstractPartition K D) :
    ((p.join_with o).join_with q).leq (p.join_with (o.join_with q)) = true := by
  have hp : p.leq (p.join_with (o.join_with q)) = true :=
    PatriciaTreeMapAbstractPartition.partition_leq_join_left _ _
  have hoq : (o.join_with q).leq (p.join_with (o.join_with q)) = true :=
    PatriciaTreeMapAbstractPartition.partition_leq_join_right _ _
  have ho : o.leq (p.join_with (o.join_with q)) = true :=
    PatriciaTreeMapAbstractPartition.partition_leq_trans _ _ _
      (PatriciaTreeMapAbstractPartition.partition_leq_join_left o q) hoq
  have hq : q.leq (p.join_with (o.join_with q)) = true :=
    PatriciaTreeMapAbstractPartition.partition_leq_trans _ _ _
      (PatriciaTreeMapAbstractPartition.partition_leq_join_right o q) hoq
  exact PatriciaTreeMapAbstractPartition.partition_join_least _ _ _
    (PatriciaTreeMapAbstractPartition.partition_join_least _ _ _ hp ho) hq

theorem partition_join_assoc_geq {K : Type} [DecidableEq K]
    (p o q : PatriciaTreeMapAbstractPartition K D) :
    (p.join_with (o.join_with q)).leq ((p.join_with o).join_with q) = true := by
  have hpo : (p.join_with o).leq ((p.join_with o).join_with q) = true :=
    PatriciaTreeMapAbstractPartition.partition_leq_join_left _ _
  have hq : q.leq ((p.join_with o).join_with q) = true :=
    PatriciaTreeMapAbstractPartition.partition_leq_join_right _ _
  have hp : p.leq ((p.join_with o).join_with q) = true :=
    PatriciaTreeMapAbstractPartition.partition_leq_trans _ _ _
      (PatriciaTreeMapAbstractPartition.partition_leq_join_left p o) hpo
  have ho : o.leq ((p.join_with o).join_with q) = true :=
    PatriciaTreeMapAbstractPartition.partition_leq_trans _ _ _
      (PatriciaTreeMapAbstractPartition.partition_leq_join_right p o) hpo
  exact PatriciaTreeMapAbstractPartition.partition_join_least _ _ _ hp
    (PatriciaTreeMapAbstractPartition.partition_join_least _ _ _ ho hq)

theorem join_with_comm (a b : CalleeFrames D)
    (ha : a.callee_invariant = true) (hb : b.callee_invariant = true)
    (hab : a.callees_agree b = true) :
    ∃ ab ba, a.join_with b = .ok ab ∧ b.join_with a = .ok ba ∧
      ab.equals ba = .ok true ∧ ab.callee = ba.callee := by
  have hba := callees_agree_symm a b hab
  have eab := join_with_eq a b ha hab
  have eba := join_with_eq b a hb hba
  have hcallee : (if a.is_bottom = true then b.callee else a.callee) =
      (if b.is_bottom = true then a.callee else b.callee) := by
    simp only [callee_invariant, callees_agree, Bool.or_eq_true, decide_eq_true_eq,
      Bool.not_eq_true'] at ha hb hab
    cases h1 : a.is_bottom <;> cases h2 : b.is_bottom <;> simp_all
  exact ⟨_, _, eab, eba,
    equals_ok_of_leq_leq _ _ hcallee (partition_join_comm_leq _ _) (partition_join_comm_leq _ _),
    hcallee⟩

theorem join_with_assoc (a b c : CalleeFrames D)
    (ha : a.callee_invariant = true) (hb : b.callee_invariant = true)
    (hab : a.callees_agree b = true)
    (hbc : b.callees_agree c = true) (hac : a.callees_agree c = true) :
    ∃ ab l bc r, a.join_with b = .ok ab ∧ ab.join_with c = .ok l ∧
      b.join_with c = .ok bc ∧ a.join_with bc = .ok r ∧
      l.equals r = .ok true ∧ l.callee = r.callee := by
  have eab := join_with_eq a b ha hab
  have ebc := join_with_eq b c hb hbc
  have hA := ha
  have hB := hb
  have hAB := hab
  have hBC := hbc
  have hAC := hac
  simp only [callee_invariant, callees_agree, is_bottom, Bool.or_eq_true, decide_eq_true_eq,
    Bool.not_eq_true'] at hA hB hAB hBC hAC
  have h1 := Bool.eq_false_or_eq_true (PatriciaTreeMapAbstractPartition.is_bottom a.frames)
  have h2 := Bool.eq_false_or_eq_true (PatriciaTreeMapAbstractPartition.is_bottom b.frames)
  have h3 := Bool.eq_false_or_eq_true (PatriciaTreeMapAbstractPartition.is_bottom c.frames)
  have hab_inv : callee_invariant (D := D)
      ⟨if a.is_bottom = true then b.callee else a.callee, a.frames.join_with b.frames⟩
      = true := by
    simp only [callee_invariant, is_bottom,
      PatriciaTreeMapAbstractPartition.partition_join_is_bottom]
    rcases h1 with h1 | h1 <;> rcases h2 with h2 | h2 <;> simp_all
  have hab_c : callees_agree (D := D)
      ⟨if a.is_bottom = true then b.callee else a.callee, a.frames.join_with b.frames⟩ c
      = true := by
    simp only [callees_agree, is_bottom,
      PatriciaTreeMapAbstractPartition.partition_join_is_bottom]
    rcases h1 with h1 | h1 <;> rcases h2 with h2 | h2 <;> rcases h3 with h3 | h3 <;>
      simp_all
  have ha_bc : callees_agree (D := D) a
      ⟨if b.is_bottom = true then c.callee else b.callee, b.frames.join_with c.frames⟩
      = true := by
    simp only [callees_agree, is_bottom,
      PatriciaTreeMapAbstractPartition.partition_join_is_bottom]
    rcases h1 with h1 | h1 <;> rcases h2 with h2 | h2 <;> rcases h3 with h3 | h3 <;>
      simp_all
  have el := join_with_eq _ c hab_inv hab_c
  have er := join_with_eq a _ ha ha_bc
  have hcallee : (if is_bottom (D := D)
        ⟨if a.is_bottom = true then b.callee else a.callee, a.frames.join_with b.frames⟩ = true
      then c.callee else (if a.is_bottom = true then b.callee else a.callee)) =
      (if a.is_bottom = true then (if b.is_bottom = true then c.callee else b.callee)
        else a.callee) := by
    simp only [is_bottom, PatriciaTreeMapAbstractPartition.partition_join_is_bottom]
    rcases h1 with h1 | h1 <;> rcases h2 with h2 | h2 <;> rcases h3 with h3 | h3 <;>
      simp_all
  exact ⟨_, _, _, _, eab, el, ebc, er,
    equals_ok_of_leq_leq _ _ hcallee (partition_join_assoc_leq _ _ _)
      (partition_join_assoc_geq _ _ _),
    hcallee⟩

theorem join_with_idem (a : CalleeFrames D) (ha : a.callee_invariant = true) :
    ∃ aa, a.join_with a = .ok aa ∧ aa.equals a = .ok true ∧ aa.callee = a.callee := by
  have hcallee : (if a.is_bottom = true then a.callee else a.callee) = a.callee := by simp
  exact ⟨_, join_with_eq a a ha (callees_agree_self a),
    equals_ok_of_leq_leq _ _ hcallee
      (PatriciaTreeMapAbstractPartition.partition_join_least _ _ _
        (PatriciaTreeMapAbstractPartition.partition_leq_refl _)
        (PatriciaTreeMapAbstractPartition.partition_leq_refl _))
      (PatriciaTreeMapAbstractPartition.partition_leq_join_left _ _),
    hcallee⟩

theorem callees_agree_of_joins (a b c ab l : CalleeFrames D)
    (hab : a.join_with b = .ok ab) (hl : ab.join_with c = .ok l) :
    a.callees_agree c = true := by
  have e1 := with_callee_of_ok_eq a b ab _ hab
  have h2 := (with_callee_of_ok ab c l _ hl).2
  subst e1
  simp only [callees_agree, is_bottom, Bool.or_eq_true, decide_eq_true_eq,
    PatriciaTreeMapAbstractPartition.partition_join_is_bottom, Bool.and_eq_true] at h2 ⊢
  rcases Bool.eq_false_or_eq_true (PatriciaTreeMapAbstractPartition.is_bottom a.frames)
    with h1 | h1
  · exact Or.inl (Or.inl h1)
  · simp only [h1, Bool.false_eq_true, false_and, if_false, false_or] at h2
    rcases h2 with h2 | h2
    · exact Or.inl (Or.inr h2)
    · exact Or.inr h2

end CalleeFrames

end MarianaTrench

namespace MarianaTrench

namespace CalleeFrames

variable {D : Type} [AbstractDomain D]

theorem callees_agree_trans_of_leq (a b c : CalleeFrames D)
    (hab : a.leq b = .ok true) (hbc : b.leq c = .ok true) : a.callees_agree c = true := by
  rw [leq_ok_true_iff] at hab hbc
  rcases hab with ⟨gab, lab⟩
  rcases hbc with ⟨gbc, lbc⟩
  simp only [callees_agree, Bool.or_eq_true, decide_eq_true_eq] at *
  rcases Bool.eq_false_or_eq_true a.is_bottom with h1 | h1
  · exact Or.inl (Or.inl h1)
  · rcases Bool.eq_false_or_eq_true c.is_bottom with h3 | h3
    · exact Or.inl (Or.inr h3)
    · rcases Bool.eq_false_or_eq_true b.is_bottom with h2 | h2
      · have := PatriciaTreeMapAbstractPartition.partition_is_bottom_of_leq _ _ lab h2
        simp only [is_bottom] at h1
        rw [h1] at this
        cases this
      · simp only [h1, h2, h3, Bool.false_eq_true, or_self, false_or] at gab gbc
        exact Or.inr (gab.trans gbc)

/-- C6: `CalleeFrames::leq` is a preorder. `a.leq(a)` holds for every `a`; if
`a.leq(b)` and `b.leq(c)` hold then `a.leq(c)` holds, in particular its
assertion passes; `a.leq(b)` and `b.leq(a)` both hold exactly when
`a.equals(b)` holds; and `leq` returns whenever the two operands share one
callee or one of them is bottom. -/
theorem leq_is_preorder (a b c : CalleeFrames D) :
    a.leq a = .ok true ∧
    (a.leq b = .ok true → b.leq c = .ok true → a.leq c = .ok true) ∧
    ((a.leq b = .ok true ∧ b.leq a = .ok true) ↔ a.equals b = .ok true) ∧
    (a.callees_agree b = true → ∃ r, a.leq b = .ok r) := by
  refine ⟨?_, ?_, ?_, ?_⟩
  · exact (leq_ok_true_iff a a).2
      ⟨callees_agree_self a, PatriciaTreeMapAbstractPartition.partition_leq_refl _⟩
  · intro hab hbc
    have hag := callees_agree_trans_of_leq a b c hab hbc
    rw [leq_ok_true_iff] at hab hbc
    exact (leq_ok_true_iff a c).2
      ⟨hag, PatriciaTreeMapAbstractPartition.partition_leq_trans _ _ _ hab.2 hbc.2⟩
  · rw [leq_ok_true_iff, leq_ok_true_iff, equals_ok_true_iff,
      PatriciaTreeMapAbstractPartition.partition_equals_eq, Bool.and_eq_true]
    constructor
    · rintro ⟨⟨hag, h1⟩, ⟨_, h2⟩⟩
      exact ⟨hag, h1, h2⟩
    · rintro ⟨hag, h1, h2⟩
      exact ⟨⟨hag, h1⟩, ⟨callees_agree_symm a b hag, h2⟩⟩
  · intro hag
    exact ⟨_, leq_eq_ok a b hag⟩

theorem is_bottom_bottom_eq : (bottom : CalleeFrames D).is_bottom = true := rfl

/-- C8, amended: top is the greatest element and the identity of meet for
every `CalleeFrames` whose callee is null, which includes bottom, and for every
`CallEffectsAbstractDomain`: `a.leq(top)` holds and `a.meet_with(top)` leaves
`a` unchanged, and no assertion fails. -/
theorem top_is_greatest_and_meet_identity {T : Type} [AbstractDomain T]
    (a : CalleeFrames D) (e : CallEffectsAbstractDomain T) (ha : a.callee = none) :
    a.leq top = .ok true ∧ a.meet_with top = .ok a ∧ a.equals a = .ok true ∧
    e.leq CallEffectsAbstractDomain.top = true ∧
    e.meet_with CallEffectsAbstractDomain.top = e ∧ e.equals e = true := by
  have hagree : a.callees_agree top = true := by
    simp [callees_agree, ha, top]
  have hinv : a.callee_invariant = true := by
    simp [callee_invariant, ha]
  refine ⟨?_, ?_, ?_, ?_, ?_, ?_⟩
  · exact (leq_ok_true_iff _ _).2
      ⟨hagree, PatriciaTreeMapAbstractPartition.partition_leq_top _⟩
  · unfold meet_with
    rw [with_callee_of_eq a top _ hinv hagree]
    have hframes : a.frames.meet_with (top : CalleeFrames D).frames = a.frames :=
      PatriciaTreeMapAbstractPartition.partition_meet_top _
    have hcallee : (if a.is_bottom = true then (top : CalleeFrames D).callee else a.callee)
        = a.callee := by
      simp [top, ha]
    rw [hcallee, hframes]
  · exact equals_ok_of_leq_leq a a rfl
      (PatriciaTreeMapAbstractPartition.partition_leq_refl _)
      (PatriciaTreeMapAbstractPartition.partition_leq_refl _)
  · exact PatriciaTreeMapAbstractPartition.partition_leq_top _
  · cases e with
    | mk m =>
      simp only [CallEffectsAbstractDomain.meet_with, CallEffectsAbstractDomain.top,
        PatriciaTreeMapAbstractPartition.partition_meet_top]
  · simp only [CallEffectsAbstractDomain.equals,
      PatriciaTreeMapAbstractPartition.partition_equals_eq,
      PatriciaTreeMapAbstractPartition.partition_leq_refl, Bool.and_self]

end CalleeFrames

end MarianaTrench

/-! ## The partition is an abstract domain with top -/

namespace MarianaTrench

namespace PatriciaTreeMapAbstractPartition

variable {K D : Type} [DecidableEq K] [AbstractDomain D]

theorem partition_meet_like_leq_left (c : D → D → D)
    (hc : ∀ x y, AbstractDomain.leq (c x y) x = true)
    (p o : PatriciaTreeMapAbstractPartition K D) :
    (p.meet_like_operation o c).leq p = true := by
  cases p with
  | top => exact partition_leq_top _
  | value m =>
    cases o with
    | top => exact partition_leq_refl _
    | value mo => exact PatriciaTreeMap.intersection_leq_left c hc m mo

theorem partition_meet_leq_right (p o : PatriciaTreeMapAbstractPartition K D) :
    (p.meet_with o).leq o = true := by
  cases p with
  | top => exact partition_leq_refl _
  | value m =>
    cases o with
    | top => rfl
    | value mo =>
      exact PatriciaTreeMap.intersection_leq_right _ AbstractDomain.meet_leq_right m mo

theorem partition_meet_greatest (p o z : PatriciaTreeMapAbstractPartition K D)
    (hp : z.leq p = true) (ho : z.leq o = true) : z.leq (p.meet_with o) = true := by
  cases p with
  | top => exact ho
  | value m =>
    cases o with
    | top => exact hp
    | value mo =>
      cases z with
      | top => simp [leq, is_top] at hp
      | value mz =>
        exact PatriciaTreeMap.intersection_greatest _ AbstractDomain.meet_leq_left
          AbstractDomain.meet_leq_right AbstractDomain.meet_greatest m mo mz hp ho

/-- The lattice of partitions: the operations of
`sparta::PatriciaTreeMapAbstractPartition`, whose top is the top partition. -/
instance : AbstractDomainWithTop (PatriciaTreeMapAbstractPartition K D) where
  bottom := bottom
  is_bottom := is_bottom
  leq := leq
  equals := equals
  join := join_with
  widen := widen_with
  meet := meet_with
  narrow := narrow_with
  difference := fun p o => p.difference_like_operation o AbstractDomain.difference
  top := top
  is_bottom_bottom := rfl
  bottom_leq := fun x y h => partition_leq_of_is_bottom x y h
  leq_bottom := fun x y h hy => partition_is_bottom_of_leq x y h hy
  leq_refl := partition_leq_refl
  leq_trans := partition_leq_trans
  equals_iff := by
    intro x y
    rw [partition_equals_eq, Bool.and_eq_true]
  leq_join_left := partition_leq_join_left
  leq_join_right := partition_leq_join_right
  join_least := fun x y z hx hy => partition_join_least x y z hx hy
  leq_widen_left := partition_leq_widen_left
  leq_widen_right := partition_leq_widen_right
  meet_leq_left := partition_meet_like_leq_left _ AbstractDomain.meet_leq_left
  meet_leq_right := partition_meet_leq_right
  meet_greatest := fun x y z hx hy => partition_meet_greatest x y z hx hy
  narrow_leq_left := partition_meet_like_leq_left _ AbstractDomain.narrow_leq_left
  difference_leq := partition_difference_leq
  difference_self := partition_difference_self
  leq_top := partition_leq_top

end PatriciaTreeMapAbstractPartition

end MarianaTrench

/-! ## Lemmas on `CalleeFrames::propagate` -/

namespace MarianaTrench

namespace CallPositionFrames

theorem mem_join_frames (x y : CallPositionFrames) (g : Frame) :
    g ∈ (x.join y).frames ↔ g ∈ x.frames ∨ g ∈ y.frames := by
  simp only [join, List.mem_append, List.mem_filter, decide_eq_true_eq]
  constructor
  · rintro (h | h)
    · exact Or.inl h
    · exact Or.inr h.1
  · rintro (h | h)
    · exact Or.inl h
    · by_cases hx : g ∈ x.frames
      · exact Or.inl hx
      · exact Or.inr ⟨h, hx⟩

theorem mem_propagate_frames (x : CallPositionFrames) (callee : Option Method)
    (callee_port : AccessPath) (call_position : Option Position)
    (maximum_source_sink_distance : Int) (inferred : Frame → List Feature) (g : Frame) :
    g ∈ (x.propagate callee callee_port call_position maximum_source_sink_distance
        inferred).frames ↔
      ∃ f ∈ x.frames, f.distance < maximum_source_sink_distance ∧
        g = f.propagate callee callee_port call_position inferred := by
  simp only [propagate, List.mem_filter, List.mem_map, decide_eq_true_eq]
  constructor
  · rintro ⟨⟨f, hf, rfl⟩, hd⟩
    refine ⟨f, hf, ?_, rfl⟩
    have : f.distance + 1 ≤ maximum_source_sink_distance := hd
    omega
  · rintro ⟨f, hf, hd, rfl⟩
    refine ⟨⟨f, hf, rfl⟩, ?_⟩
    show f.distance + 1 ≤ maximum_source_sink_distance
    omega

theorem is_bottom_iff_frames (x : CallPositionFrames) :
    x.is_bottom = true ↔ x.frames = [] := by
  simp [is_bottom]

theorem position_of_forall (x : CallPositionFrames) (call_position : Option Position)
    (hne : x.is_bottom = false) (h : ∀ g ∈ x.frames, g.call_position = call_position) :
    x.position = call_position := by
  cases x with
  | mk l =>
    cases l with
    | nil => simp [is_bottom] at hne
    | cons g rest => exact h g (List.mem_cons_self _ _)

end CallPositionFrames

namespace CalleeFrames

theorem mem_propagate_loop_aux (bindings : List (Option Position × CallPositionFrames))
    (callee : Option Method) (callee_port : AccessPath) (call_position : Option Position)
    (maximum_source_sink_distance : Int) (inferred : Frame → List Feature)
    (start : CallPositionFrames) (g : Frame) :
    g ∈ (bindings.foldl
        (fun result b =>
          result.join
            (b.2.propagate callee callee_port call_position maximum_source_sink_distance
              inferred))
        start).frames ↔
      g ∈ start.frames ∨ ∃ b ∈ bindings,
        g ∈ (b.2.propagate callee callee_port call_position maximum_source_sink_distance
          inferred).frames := by
  induction bindings generalizing start with
  | nil => simp
  | cons b rest ih =>
    rw [List.foldl_cons, ih, CallPositionFrames.mem_join_frames]
    constructor
    · rintro ((h | h) | ⟨b2, hb2, h⟩)
      · exact Or.inl h
      · exact Or.inr ⟨b, List.mem_cons_self _ _, h⟩
      · exact Or.inr ⟨b2, List.mem_cons_of_mem _ hb2, h⟩
    · rintro (h | ⟨b2, hb2, h⟩)
      · exact Or.inl (Or.inl h)
      · rcases List.mem_cons.1 hb2 with rfl | hmem
        · exact Or.inl (Or.inr h)
        · exact Or.inr ⟨b2, hmem, h⟩

theorem mem_propagate_loop (bindings : List (Option Position × CallPositionFrames))
    (callee : Option Method) (callee_port : AccessPath) (call_position : Option Position)
    (maximum_source_sink_distance : Int) (inferred : Frame → List Feature) (g : Frame) :
    g ∈ (propagate_loop bindings callee callee_port call_position
        maximum_source_sink_distance inferred).frames ↔
      ∃ b ∈ bindings, ∃ f ∈ b.2.frames, f.distance < maximum_source_sink_distance ∧
        g = f.propagate callee callee_port call_position inferred := by
  unfold propagate_loop
  rw [mem_propagate_loop_aux]
  simp only [CallPositionFrames.bottom, List.not_mem_nil, false_or,
    CallPositionFrames.mem_propagate_frames]

theorem mem_foldr_frames (entries : List (Option Position × CallPositionFrames)) (f : Frame) :
    f ∈ entries.foldr (fun e acc => e.2.frames ++ acc) [] ↔
      ∃ e ∈ entries, f ∈ e.2.frames := by
  induction entries with
  | nil => simp
  | cons e rest ih =>
    rw [List.foldr_cons, List.mem_append, ih]
    constructor
    · rintro (h | ⟨e2, he2, h⟩)
      · exact ⟨e, List.mem_cons_self _ _, h⟩
      · exact ⟨e2, List.mem_cons_of_mem _ he2, h⟩
    · rintro ⟨e2, he2, h⟩
      rcases List.mem_cons.1 he2 with rfl | hmem
      · exact Or.inl h
      · exact Or.inr ⟨e2, hmem, h⟩

theorem mem_facts_iff (self : CalleeFrames CallPositionFrames) (f : Frame) :
    f ∈ self.facts ↔
      ∃ m, self.frames = .value m ∧ ∃ e ∈ m.entries, f ∈ e.2.frames := by
  unfold facts
  cases h : self.frames with
  | top => simp
  | value m =>
    simp only [mem_foldr_frames]
    constructor
    · intro hf
      exact ⟨m, rfl, hf⟩
    · rintro ⟨m2, hm2, hf⟩
      cases hm2
      exact hf

theorem singleton_eq (label : Option Position) (v : CallPositionFrames)
    (hv : v.is_bottom = false) :
    ∃ m, (PatriciaTreeMapAbstractPartition.singleton label v :
        FramesByCallPosition CallPositionFrames) = .value m ∧ m.entries = [(label, v)] := by
  refine ⟨_, rfl, ?_⟩
  have hv2 : AbstractDomain.is_bottom v = false := hv
  have hins : insert label ([] : List (Option Position)) = [label] := rfl
  simp [PatriciaTreeMap.insert_or_assign, PatriciaTreeMap.build, PatriciaTreeMap.keys,
    PatriciaTreeMap.empty, hins, hv2]

theorem propagate_loop_position (bindings : List (Option Position × CallPositionFrames))
    (callee : Option Method) (callee_port : AccessPath) (call_position : Option Position)
    (maximum_source_sink_distance : Int) (inferred : Frame → List Feature)
    (hne : (propagate_loop bindings callee callee_port call_position
      maximum_source_sink_distance inferred).is_bottom = false) :
    (propagate_loop bindings callee callee_port call_position
      maximum_source_sink_distance inferred).position = call_position := by
  apply CallPositionFrames.position_of_forall _ _ hne
  intro g hg
  rw [mem_propagate_loop] at hg
  rcases hg with ⟨b, _, f, _, _, rfl⟩
  rfl

theorem propagate_eq_of_value (callee_ : Option Method)
    (m : PatriciaTreeMap (Option Position) CallPositionFrames)
    (callee : Option Method) (callee_port : AccessPath) (call_position : Option Position)
    (maximum_source_sink_distance : Int) (inferred : Frame → List Feature) :
    propagate ⟨callee_, .value m⟩ callee callee_port call_position
        maximum_source_sink_distance inferred =
      .ok (if m.is_empty = true ∨ (propagate_loop m.entries callee callee_port call_position
            maximum_source_sink_distance inferred).is_bottom = true
        then bottom
        else ⟨callee, PatriciaTreeMapAbstractPartition.singleton call_position
          (propagate_loop m.entries callee callee_port call_position
            maximum_source_sink_distance inferred)⟩) := by
  unfold propagate
  simp only [is_bottom, PatriciaTreeMapAbstractPartition.is_bottom,
    PatriciaTreeMapAbstractPartition.bindings]
  cases hm : m.is_empty
  · cases hr : (propagate_loop m.entries callee callee_port call_position
        maximum_source_sink_distance inferred).is_bottom
    · have hp := propagate_loop_position m.entries callee callee_port call_position
        maximum_source_sink_distance inferred hr
      simp [hr, hp]
    · simp [hr]
  · simp

end CalleeFrames

end MarianaTrench

namespace MarianaTrench

namespace CalleeFrames

theorem facts_of_singleton (callee : Option Method) (label : Option Position)
    (v : CallPositionFrames) (hv : v.is_bottom = false) (g : Frame) :
    g ∈ facts ⟨callee, PatriciaTreeMapAbstractPartition.singleton label v⟩ ↔
      g ∈ v.frames := by
  rcases singleton_eq label v hv with ⟨m, hm, hentries⟩
  rw [mem_facts_iff]
  constructor
  · rintro ⟨m2, hm2, e, he, hg⟩
    have : m2 = m := by
      have h := hm2.symm.trans hm
      cases h
      rfl
    subst this
    rw [hentries, List.mem_singleton] at he
    subst he
    exact hg
  · intro hg
    exact ⟨m, hm, (label, v), by simp [hentries], hg⟩

theorem facts_bottom (g : Frame) : g ∉ (bottom : CalleeFrames CallPositionFrames).facts := by
  simp [facts, bottom, PatriciaTreeMapAbstractPartition.bottom, PatriciaTreeMap.empty]

/-- C2: on a `CalleeFrames` that is not top, `propagate` returns a value in
which every fact is the propagation of a fact of the receiver whose distance
is below `maximum_source_sink_distance`, so a fact at a distance of at least
`maximum_source_sink_distance` contributes nothing; no fact of the result has
a distance above `maximum_source_sink_distance`; and if every fact of the
receiver is at such a distance the result is bottom. -/
theorem propagate_cuts_off_at_maximum_distance (self : CalleeFrames CallPositionFrames)
    (callee : Option Method) (callee_port : AccessPath) (call_position : Option Position)
    (maximum_source_sink_distance : Int) (inferred : Frame → List Feature)
    (hnt : self.is_top = false) :
    ∃ r, self.propagate callee callee_port call_position maximum_source_sink_distance
        inferred = .ok r ∧
      (∀ g ∈ r.facts, g.distance ≤ maximum_source_sink_distance ∧
        ∃ f ∈ self.facts, f.distance < maximum_source_sink_distance ∧
          g = f.propagate callee callee_port call_position inferred) ∧
      ((∀ f ∈ self.facts, maximum_source_sink_distance ≤ f.distance) → r = bottom) := by
  cases self with
  | mk c fr =>
    cases fr with
    | top => simp [is_top, PatriciaTreeMapAbstractPartition.is_top] at hnt
    | value m =>
      rw [propagate_eq_of_value]
      refine ⟨_, rfl, ?_, ?_⟩
      · intro g hg
        split at hg
        · exact absurd hg (facts_bottom g)
        · rename_i hcond
          have hne : (propagate_loop m.entries callee callee_port call_position
              maximum_source_sink_distance inferred).is_bottom = false := by
            cases hb : (propagate_loop m.entries callee callee_port call_position
              maximum_source_sink_distance inferred).is_bottom
            · rfl
            · exact absurd (Or.inr hb) hcond
          rw [facts_of_singleton _ _ _ hne, mem_propagate_loop] at hg
          rcases hg with ⟨b, hb, f, hfb, hd, rfl⟩
          refine ⟨?_, f, (mem_facts_iff _ f).2 ⟨m, rfl, b, hb, hfb⟩, hd, rfl⟩
          show f.distance + 1 ≤ maximum_source_sink_distance
          omega
      · intro hall
        have hb : (propagate_loop m.entries callee callee_port call_position
            maximum_source_sink_distance inferred).is_bottom = true := by
          rw [CallPositionFrames.is_bottom_iff_frames]
          apply List.eq_nil_iff_forall_not_mem.2
          intro g hg
          rw [mem_propagate_loop] at hg
          rcases hg with ⟨b, hb, f, hfb, hd, _⟩
          have := hall f ((mem_facts_iff _ f).2 ⟨m, rfl, b, hb, hfb⟩)
          omega
        simp [hb]

end CalleeFrames

/-- C10: every `CallEffect` survives the JSON round trip. `to_json` is the
JSON string of the access path `CallEffect.<to_string>`, and `from_json` of it
returns the effect, with no validation error. -/
theorem call_effect_json_round_trip (effect : CallEffect) :
    effect.to_json = .string ("CallEffect." ++ effect.to_string) ∧
      CallEffect.from_json effect.to_json = .ok effect := by
  cases effect with
  | mk kind =>
    cases kind
    exact ⟨rfl, rfl⟩

end MarianaTrench

/-! ## `CallEffect::from_json` -/

namespace MarianaTrench

theorem split_chars_of_segment (separator : Char) (current segment : List Char)
    (h : separator ∉ current) :
    split_chars separator current segment =
      if (current.reverse ++ segment).isEmpty then []
      else [(current.reverse ++ segment).reverse] := by
  induction current generalizing segment with
  | nil => simp [split_chars]
  | cons c rest ih =>
    have hc : ¬ c = separator := fun hc => h (by simp [hc])
    have hrest : separator ∉ rest := fun hr => h (List.mem_cons_of_mem _ hr)
    rw [split_chars, if_neg hc, ih (c :: segment) hrest]
    simp

theorem split_path_of_segment (t : String) (hne : t.data ≠ []) (hdot : '.' ∉ t.data) :
    AccessPath.split_path (.string t) = .ok [t] := by
  simp only [AccessPath.split_path, JsonValidation.string]
  rw [split_chars_of_segment '.' t.data [] hdot]
  simp [hne]

theorem split_path_of_call_effect_segment (t : String) (hne : t.data ≠ [])
    (hdot : '.' ∉ t.data) :
    AccessPath.split_path (.string ("CallEffect." ++ t)) = .ok ["CallEffect", t] := by
  have hdata : ("CallEffect." ++ t).data =
      'C' :: 'a' :: 'l' :: 'l' :: 'E' :: 'f' :: 'f' :: 'e' :: 'c' :: 't' :: '.' :: t.data := by
    rw [String.data_append]
    rfl
  simp only [AccessPath.split_path, JsonValidation.string, hdata]
  have hsplit : split_chars '.'
      ('C' :: 'a' :: 'l' :: 'l' :: 'E' :: 'f' :: 'f' :: 'e' :: 'c' :: 't' :: '.' :: t.data) [] =
      ['C', 'a', 'l', 'l', 'E', 'f', 'f', 'e', 'c', 't'] :: split_chars '.' t.data [] := by
    simp [split_chars]
  rw [hsplit, split_chars_of_segment '.' t.data [] hdot]
  simp [hne]

/-- C11: whenever the path splits into zero segments or into more than two
segments, `CallEffect::from_json` raises the validation error that expects the
form `CallEffect.<type>` or `<type>`, on the offending value and with no field,
whatever the segments are: the root and the type are not looked at. -/
theorem from_json_rejects_segment_count (value : JsonValue) (elements : List String)
    (hsplit : AccessPath.split_path value = .ok elements)
    (hcount : elements.length = 0 ∨ 2 < elements.length) :
    CallEffect.from_json value =
      .error ⟨value, none,
        "call effect to be specified as: `CallEffect.<type>` or `<type>`"⟩ := by
  unfold CallEffect.from_json
  rw [hsplit]
  have hcond : (elements.isEmpty || decide (elements.length > 2)) = true := by
    rcases hcount with h | h
    · have : elements = [] := List.length_eq_zero.1 h
      simp [this]
    · simp [h]
  simp only [hcond, if_true]

/-- C12: for every effect type `t` other than `call-chain`, where `t` is one
path segment (not empty and without a dot), `CallEffect::from_json` of the path
`CallEffect.<t>` and of the bare path `<t>` raises the validation error that
names `call-chain` as the only accepted type; no `CallEffect` is returned. -/
theorem from_json_rejects_unknown_type (t : String) (ht : t ≠ "call-chain")
    (hne : t.data ≠ []) (hdot : '.' ∉ t.data) :
    CallEffect.from_json (.string ("CallEffect." ++ t)) =
      .error ⟨.string ("CallEffect." ++ t), none,
        "one of existing call effect types: `call-chain`"⟩ ∧
    CallEffect.from_json (.string t) =
      .error ⟨.string t, none, "one of existing call effect types: `call-chain`"⟩ := by
  have hkind : CallEffect.string_to_call_effect_kind t = none := by
    simp [CallEffect.string_to_call_effect_kind, ht]
  have hroot : Root.from_json "CallEffect" = .ok Root.CallEffect := rfl
  constructor
  · unfold CallEffect.from_json
    rw [split_path_of_call_effect_segment t hne hdot]
    simp [hroot, Root.is_call_effect, hkind]
  · unfold CallEffect.from_json
    rw [split_path_of_segment t hne hdot]
    simp [hroot, Root.is_call_effect, hkind]

/-- C13, amended: for every path of exactly two segments whose root segment
`Root::from_json` reads as a root other than `CallEffect`, such as
`Return.call-chain`, `CallEffect::from_json` raises the validation error that
requires the root to be `CallEffect`, whatever the second segment is. -/
theorem from_json_rejects_other_root (value : JsonValue) (root_string type_string : String)
    (root : Root) (hsplit : AccessPath.split_path value = .ok [root_string, type_string])
    (hroot : Root.from_json root_string = .ok root) (hother : root.is_call_effect = false) :
    CallEffect.from_json value =
      .error ⟨value, none, "call effect root to be: `CallEffect`"⟩ := by
  unfold CallEffect.from_json
  rw [hsplit]
  simp [hroot, hother]

/-- C13, as stated, fails on the input of the spec: the path `Root.x.y` has
three segments, so `CallEffect::from_json` raises the validation error on the
number of segments and never looks at the root. -/
theorem from_json_root_x_y_is_segment_count_error :
    AccessPath.split_path (.string "Root.x.y") = .ok ["Root", "x", "y"] ∧
    CallEffect.from_json (.string "Root.x.y") =
      .error ⟨.string "Root.x.y", none,
        "call effect to be specified as: `CallEffect.<type>` or `<type>`"⟩ ∧
    CallEffect.from_json (.string "Root.x.y") ≠
      .error ⟨.string "Root.x.y", none, "call effect root to be: `CallEffect`"⟩ := by
  refine ⟨rfl, rfl, ?_⟩
  intro h
  have h2 : CallEffect.from_json (.string "Root.x.y") =
      .error ⟨.string "Root.x.y", none,
        "call effect to be specified as: `CallEffect.<type>` or `<type>`"⟩ := rfl
  rw [h2] at h
  injection h with h3
  injection h3 with _ _ h4
  exact absurd h4 (by decide)

/-- C14: `CallEffect::from_json` accepts both encodings of the known effect:
the bare path `call-chain` and the path `CallEffect.call-chain` both decode to
`CALL_CHAIN`. In general a one-segment path decodes to the same effect as the
path with the segments `CallEffect` and that segment, and fails with the same
expectation message when it fails. -/
theorem from_json_accepts_both_encodings (value rooted : JsonValue) (t : String) :
    CallEffect.from_json (.string "call-chain") = .ok ⟨CallEffect.Kind.CALL_CHAIN⟩ ∧
    CallEffect.from_json (.string "CallEffect.call-chain") =
      .ok ⟨CallEffect.Kind.CALL_CHAIN⟩ ∧
    (AccessPath.split_path value = .ok [t] →
      AccessPath.split_path rooted = .ok ["CallEffect", t] →
      (∀ effect, CallEffect.from_json value = .ok effect ↔
        CallEffect.from_json rooted = .ok effect) ∧
      (∀ e, CallEffect.from_json value = .error e →
        ∃ e2, CallEffect.from_json rooted = .error e2 ∧ e2.expected = e.expected)) := by
  refine ⟨rfl, rfl, ?_⟩
  intro h1 h2
  have hroot : Root.from_json "CallEffect" = .ok Root.CallEffect := rfl
  unfold CallEffect.from_json
  rw [h1, h2]
  cases hk : CallEffect.string_to_call_effect_kind t with
  | none =>
    simp [hroot, Root.is_call_effect, hk]
  | some kind =>
    simp [hroot, Root.is_call_effect, hk]

end MarianaTrench
/-! ## `CallEffectsAbstractDomain::write` and `read` -/

namespace MarianaTrench

namespace PatriciaTreeMap

variable {K D : Type} [DecidableEq K] [AbstractDomain D]

theorem get_update_of_ne (m : PatriciaTreeMap K D) (operation : D → D) (k x : K)
    (hx : x ≠ k) : (m.update operation k).get x = m.get x := by
  unfold update
  rw [get_build]
  simp only [hx, if_false]
  split
  · rfl
  · rename_i hn
    symm
    apply get_of_not_mem
    intro hmem
    apply hn
    refine ⟨List.mem_insert_iff.2 (Or.inr hmem), ?_⟩
    cases hb : AbstractDomain.is_bottom (m.get x)
    · rfl
    · exact absurd hmem ((is_bottom_get_iff m x).1 hb)

theorem get_update_leq (m : PatriciaTreeMap K D) (operation : D → D) (k : K) :
    AbstractDomain.leq ((m.update operation k).get k) (operation (m.get k)) = true := by
  unfold update
  have h := get_build_leq (insert k m.keys) (m.nodup_keys.insert)
    (fun x => if x = k then operation (m.get k) else m.get x) k
  simpa using h

theorem leq_get_update (m : PatriciaTreeMap K D) (operation : D → D) (k : K) :
    AbstractDomain.leq (operation (m.get k)) ((m.update operation k).get k) = true := by
  unfold update
  have h := leq_get_build (insert k m.keys) (m.nodup_keys.insert)
    (fun x => if x = k then operation (m.get k) else m.get x) k
    (fun hk => absurd (List.mem_insert_self k m.keys) hk)
  simpa using h

end PatriciaTreeMap

theorem equals_of_leq_leq {T : Type} [AbstractDomain T] (x y : T)
    (h1 : AbstractDomain.leq x y = true) (h2 : AbstractDomain.leq y x = true) :
    AbstractDomain.equals x y = true :=
  (AbstractDomain.equals_iff x y).2 ⟨h1, h2⟩

namespace CallEffectsAbstractDomain

variable {T : Type} [AbstractDomainWithTop T]

theorem read_write_leq (d : CallEffectsAbstractDomain T) (e : CallEffect) (v : T) :
    AbstractDomain.leq ((d.write e v).read e) (AbstractDomain.join (d.read e) v) = true ∧
    AbstractDomain.leq (AbstractDomain.join (d.read e) v) ((d.write e v).read e) = true := by
  cases d with
  | mk p =>
    cases p with
    | top => exact ⟨AbstractDomain.leq_join_left _ _, AbstractDomainWithTop.leq_top _⟩
    | value m =>
      exact ⟨PatriciaTreeMap.get_update_leq m (fun taint => AbstractDomain.join taint v) e.encode,
        PatriciaTreeMap.leq_get_update m (fun taint => AbstractDomain.join taint v) e.encode⟩

theorem leq_write (d : CallEffectsAbstractDomain T) (e : CallEffect) (v : T) :
    d.leq (d.write e v) = true := by
  cases d with
  | mk p =>
    cases p with
    | top => rfl
    | value m =>
      show PatriciaTreeMap.leq m (m.update _ e.encode) = true
      rw [PatriciaTreeMap.map_leq_iff]
      intro k
      by_cases hk : k = e.encode
      · subst hk
        exact AbstractDomain.leq_trans _ _ _ (AbstractDomain.leq_join_left _ v)
          (PatriciaTreeMap.leq_get_update m (fun taint => AbstractDomain.join taint v) e.encode)
      · rw [PatriciaTreeMap.get_update_of_ne m _ _ k hk]
        exact AbstractDomain.leq_refl _

theorem write_write_leq (d : CallEffectsAbstractDomain T) (e : CallEffect) (v : T) :
    ((d.write e v).write e v).leq (d.write e v) = true := by
  cases d with
  | mk p =>
    cases p with
    | top => rfl
    | value m =>
      show PatriciaTreeMap.leq ((m.update _ e.encode).update _ e.encode)
        (m.update _ e.encode) = true
      rw [PatriciaTreeMap.map_leq_iff]
      intro k
      by_cases hk : k = e.encode
      · subst hk
        refine AbstractDomain.leq_trans _ _ _ (PatriciaTreeMap.get_update_leq _ _ _) ?_
        apply AbstractDomain.join_least
        · exact AbstractDomain.leq_refl _
        · exact AbstractDomain.leq_trans _ _ _ (AbstractDomain.leq_join_right (m.get e.encode) v)
            (PatriciaTreeMap.leq_get_update m (fun taint => AbstractDomain.join taint v) e.encode)
      · rw [PatriciaTreeMap.get_update_of_ne _ _ _ k hk]
        exact AbstractDomain.leq_refl _

/-- C15: `write` joins and never overwrites. After `d.write(e, v)` the value
`d.read(e)` equals `d_before.read(e).join(v)`; `d_before.leq(d)` holds; writing
the same value twice equals writing it once; and when `e` is not bound in
`d_before`, `read(e)` is bottom before the write and equals `v` after it. -/
theorem write_joins_and_never_overwrites (d : CallEffectsAbstractDomain T) (e : CallEffect)
    (v : T) :
    AbstractDomain.equals ((d.write e v).read e) (AbstractDomain.join (d.read e) v) = true ∧
    d.leq (d.write e v) = true ∧
    ((d.write e v).write e v).equals (d.write e v) = true ∧
    (∀ m, d.map_ = .value m → e.encode ∉ m.keys →
      d.read e = AbstractDomain.bottom ∧
      AbstractDomain.equals ((d.write e v).read e) v = true) := by
  have hrw := read_write_leq d e v
  refine ⟨equals_of_leq_leq _ _ hrw.1 hrw.2, leq_write d e v, ?_, ?_⟩
  · show PatriciaTreeMapAbstractPartition.equals _ _ = true
    rw [PatriciaTreeMapAbstractPartition.partition_equals_eq, Bool.and_eq_true]
    exact ⟨write_write_leq d e v, leq_write (d.write e v) e v⟩
  · intro m hm hk
    have hread : d.read e = AbstractDomain.bottom := by
      unfold read
      rw [hm]
      exact PatriciaTreeMap.get_of_not_mem m _ hk
    refine ⟨hread, ?_⟩
    rw [hread] at hrw
    apply equals_of_leq_leq
    · refine AbstractDomain.leq_trans _ _ _ hrw.1 ?_
      exact AbstractDomain.join_least _ _ _
        (AbstractDomain.bottom_leq _ _ AbstractDomain.is_bottom_bottom)
        (AbstractDomain.leq_refl _)
    · exact AbstractDomain.leq_trans _ _ _ (AbstractDomain.leq_join_right _ _) hrw.2

end CallEffectsAbstractDomain

end MarianaTrench


/-! ## `FieldModel::to_json` -/

namespace MarianaTrench

namespace FieldModel

theorem frames_to_json_ok (json : JsonFunctions) (frames : List Frame)
    (h : ∀ frame ∈ frames, frame.is_bottom = false) :
    frames_to_json json frames = .ok (frames.map json.frame_to_json) := by
  induction frames with
  | nil => rfl
  | cons frame rest ih =>
    have hrest : ∀ g ∈ rest, g.is_bottom = false := fun g hg => h g (List.mem_cons_of_mem _ hg)
    simp [frames_to_json, h frame (List.mem_cons_self _ _), ih hrest]

theorem taint_frames_of_is_bottom (taint : Taint) (h : taint.is_bottom = true) :
    taint.frames = [] := by
  cases taint with
  | mk frames nodup =>
    cases frames with
    | nil => rfl
    | cons a t => simp [Taint.is_bottom] at h

/-- C18: `from_json` raises a validation error, and returns no model, for every
value that is not a JSON object; for a JSON object in which `sources` and
`sinks` are each absent or null it returns the model of the field without
sources and sinks, which is `empty()`, and logs nothing. -/
theorem from_json_requires_object (json : JsonFunctions) (field : Option Field)
    (value : JsonValue) :
    (value.is_object = false →
      ∃ error, from_json json field value = .error (.validation error) ∧
        error.value = value) ∧
    (value.is_object = true →
      (value.is_member "sources" = false ∨ value.get "sources" = .null) →
      (value.is_member "sinks" = false ∨ value.get "sinks" = .null) →
      ∃ model, from_json json field value = .ok (model, []) ∧ model.field_ = field ∧
        model.empty = true ∧ model = for_field field) := by
  have hget : ∀ key, (value.is_member key = false ∨ value.get key = .null) →
      value.get key = .null := by
    intro key h
    rcases h with h | h
    · have hnone : lookup value.members key = none := by
        rw [lookup_eq_none_iff]
        simpa [JsonValue.is_member, JsonValue.member_names] using h
      simp [JsonValue.get, hnone]
    · exact h
  constructor
  · intro h
    exact ⟨⟨value, none, "non-null object"⟩,
      by simp [from_json, JsonValidation.validate_object, h], rfl⟩
  · intro h hsources hsinks
    refine ⟨for_field field, ?_, rfl, rfl, rfl⟩
    simp [from_json, JsonValidation.validate_object, h, JsonValidation.null_or_array,
      hget _ hsources, hget _ hsinks, add_values]

end FieldModel

end MarianaTrench

/-! ## `FieldModel::add_source` and `add_sink` -/

namespace MarianaTrench

namespace Taint

theorem taint_mem_join_with (a b : Taint) (f : Frame) :
    f ∈ (a.join_with b).frames ↔ f ∈ a.frames ∨ f ∈ b.frames := by
  simp only [join_with, List.mem_append, List.mem_filter, decide_eq_true_eq]
  constructor
  · rintro (h | h)
    · exact Or.inl h
    · exact Or.inr h.1
  · rintro (h | h)
    · exact Or.inl h
    · by_cases hf : f ∈ a.frames
      · exact Or.inl hf
      · exact Or.inr ⟨h, hf⟩

theorem taint_leq_iff (a b : Taint) : a.leq b = true ↔ ∀ f ∈ a.frames, f ∈ b.frames := by
  simp [leq, List.all_eq_true]

theorem taint_equals_iff (a b : Taint) :
    a.equals b = true ↔ ∀ f, f ∈ a.frames ↔ f ∈ b.frames := by
  simp only [equals, Bool.and_eq_true, taint_leq_iff]
  constructor
  · rintro ⟨h1, h2⟩ f
    exact ⟨h1 f, h2 f⟩
  · intro h
    exact ⟨fun f hf => (h f).1 hf, fun f hf => (h f).2 hf⟩

theorem taint_leq_join_with_left (a b : Taint) : a.leq (a.join_with b) = true := by
  rw [taint_leq_iff]
  intro f hf
  exact (taint_mem_join_with a b f).2 (Or.inl hf)

theorem taint_leq_join_with_right (a b : Taint) : b.leq (a.join_with b) = true := by
  rw [taint_leq_iff]
  intro f hf
  exact (taint_mem_join_with a b f).2 (Or.inr hf)

theorem frames_of_config_with_field (config : TaintConfig) (field : Field) :
    ((of_config config).set_field_origins_if_empty_with_field_callee field).frames =
      [config.to_frame.set_field_origins_if_empty_with_field_callee field] := by
  simp [of_config, set_field_origins_if_empty_with_field_callee]

end Taint

namespace FieldModel

theorem with_field_origins_congr (a b : FieldModel) (h : a.field_ = b.field_) (taint : Taint) :
    a.with_field_origins taint = b.with_field_origins taint := by
  simp [with_field_origins, h]

theorem check_taint_consistency_of_config (m : FieldModel) (config : TaintConfig)
    (kind : String) :
    m.check_taint_consistency (m.with_field_origins (Taint.of_config config)) kind = [] := by
  rcases hf : m.field_ with _ | field
  · simp [check_taint_consistency, hf]
  · simp only [check_taint_consistency, with_field_origins, hf, Taint.frames_iterator,
      Taint.frames_of_config_with_field]
    by_cases he : config.to_frame.field_origins.isEmpty = true
    · simp [Frame.set_field_origins_if_empty_with_field_callee, he]
    · have hne : config.to_frame.field_origins ≠ [] := by
        intro h
        exact he (by simp [h])
      simp [Frame.set_field_origins_if_empty_with_field_callee, he, hne]

theorem add_source_of_leaf (m : FieldModel) (config : TaintConfig)
    (hleaf : config.is_leaf = true) :
    m.add_source config =
      .ok ({ m with
          sources_ := m.sources_.join_with (m.with_field_origins (Taint.of_config config)) },
        m.check_taint_config_consistency config "source") := by
  simp [add_source, add_source_taint, hleaf, check_taint_consistency_of_config]

theorem add_sink_of_leaf (m : FieldModel) (config : TaintConfig)
    (hleaf : config.is_leaf = true) :
    m.add_sink config =
      .ok ({ m with
          sinks_ := m.sinks_.join_with (m.with_field_origins (Taint.of_config config)) },
        m.check_taint_config_consistency config "sink") := by
  simp [add_sink, add_sink_taint, hleaf, check_taint_consistency_of_config]

theorem root_is_leaf_eq_false_iff (root : Root) : root.is_leaf = false ↔ root ≠ Root.Leaf := by
  cases root <;> simp [Root.is_leaf]

theorem check_taint_config_consistency_ne_nil_iff (m : FieldModel) (config : TaintConfig)
    (kind : String) :
    m.check_taint_config_consistency config kind ≠ [] ↔
      config.violates_leaf_fact_invariant := by
  have hcondition : (!config.callee_port.root.is_leaf || config.call_position != none ||
      config.distance != 0 || !config.origins.isEmpty ||
      config.via_type_of_ports.length != 0 || config.canonical_names.length != 0) = true ↔
      (config.callee_port.root ≠ Root.Leaf ∨ config.call_position ≠ none ∨
        config.distance ≠ 0 ∨ config.origins ≠ [] ∨ config.via_type_of_ports ≠ [] ∨
        config.canonical_names ≠ []) := by
    simp only [Bool.or_eq_true, Bool.not_eq_true', root_is_leaf_eq_false_iff, bne_iff_ne, ne_eq,
      List.isEmpty_eq_false, List.length_eq_zero, or_assoc]
  unfold TaintConfig.violates_leaf_fact_invariant
  rw [← hcondition]
  simp only [check_taint_config_consistency, FieldModelConsistencyError.raise,
    TaintConfig.is_artificial_source]
  by_cases hkind : config.kind = none <;>
  by_cases hartificial : config.kind = some Kinds.artificial_source <;>
  by_cases hvalue : (!config.callee_port.root.is_leaf || config.call_position != none ||
      config.distance != 0 || !config.origins.isEmpty ||
      config.via_type_of_ports.length != 0 || config.canonical_names.length != 0) = true <;>
  simp [hkind, hartificial, hvalue]

theorem check_taint_config_consistency_names (m : FieldModel) (config : TaintConfig)
    (kind : String) :
    ∀ event ∈ m.check_taint_config_consistency config kind,
      event.name = "field_model_consistency_error" := by
  intro event hevent
  simp only [check_taint_config_consistency, FieldModelConsistencyError.raise,
    List.mem_append] at hevent
  rcases hevent with (h | h) | h <;> split at h <;> simp at h <;> simp [h]

/-- C20: `add_source` and `add_sink` enforce the leaf-fact invariant exactly. For
every leaf config, on a model with any field, null or not, the call returns and
logs an event if and only if the config has a null kind, is an artificial
source, or has a callee port whose root is not leaf, a call position, a distance
other than zero, origins, via-type-of ports or canonical names; the check of the
field origins never logs, since the taint of the config has received its field
origins before. The config of `make_leaf_taint_config` for a kind that is not
null and not the artificial source, with any features and no origins, logs no
event. -/
theorem add_source_logs_iff_invariant_violated (m : FieldModel) (config : TaintConfig)
    (hleaf : config.is_leaf = true) :
    (∃ model events, m.add_source config = .ok (model, events) ∧
      (events ≠ [] ↔ config.violates_leaf_fact_invariant)) ∧
    (∃ model events, m.add_sink config = .ok (model, events) ∧
      (events ≠ [] ↔ config.violates_leaf_fact_invariant)) ∧
    m.check_taint_consistency (m.with_field_origins (Taint.of_config config)) "source" = [] ∧
    (∀ (kind : Kind) (inferred locally_inferred user : List Feature),
      kind ≠ Kinds.artificial_source →
      (∃ model,
        m.add_source (make_leaf_taint_config_with (some kind) inferred locally_inferred user []) =
          .ok (model, [])) ∧
      (∃ model, m.add_source (make_leaf_taint_config (some kind)) = .ok (model, [])) ∧
      (∃ model, m.add_sink (make_leaf_taint_config (some kind)) = .ok (model, []))) := by
  refine ⟨⟨_, _, add_source_of_leaf m config hleaf,
      check_taint_config_consistency_ne_nil_iff m config "source"⟩,
    ⟨_, _, add_sink_of_leaf m config hleaf,
      check_taint_config_consistency_ne_nil_iff m config "sink"⟩,
    check_taint_consistency_of_config m config "source", ?_⟩
  intro kind inferred locally_inferred user hkind
  have hnone : ∀ (i l u : List Feature) (word : String),
      m.check_taint_config_consistency (make_leaf_taint_config_with (some kind) i l u []) word =
        [] := by
    intro i l u word
    have h := (check_taint_config_consistency_ne_nil_iff m
      (make_leaf_taint_config_with (some kind) i l u []) word).not
    rw [not_not] at h
    apply h.2
    simp [TaintConfig.violates_leaf_fact_invariant, make_leaf_taint_config_with, hkind]
  have hleaf_with : ∀ (i l u : List Feature),
      (make_leaf_taint_config_with (some kind) i l u []).is_leaf = true := fun _ _ _ => rfl
  refine ⟨?_, ?_, ?_⟩
  · rw [add_source_of_leaf m _ (hleaf_with _ _ _), hnone]
    exact ⟨_, rfl⟩
  · rw [make_leaf_taint_config, add_source_of_leaf m _ (hleaf_with _ _ _), hnone]
    exact ⟨_, rfl⟩
  · rw [make_leaf_taint_config, add_sink_of_leaf m _ (hleaf_with _ _ _), hnone]
    exact ⟨_, rfl⟩

end FieldModel

end MarianaTrench

/-! ## The JSON round trip of `FieldModel` -/

namespace MarianaTrench

namespace FieldModel

theorem to_json_arrays (json : JsonFunctions) (m : FieldModel)
    (hframes : ∀ frame ∈ m.sources_.frames ++ m.sinks_.frames, frame.is_bottom = false) :
    ∃ value with_position, m.to_json json = .ok value ∧
      m.to_json_with_context json = .ok with_position ∧
      value.is_object = true ∧ with_position.is_object = true ∧
      JsonValidation.null_or_array value "sources" =
        .ok (m.sources_.frames.map json.frame_to_json) ∧
      JsonValidation.null_or_array value "sinks" =
        .ok (m.sinks_.frames.map json.frame_to_json) ∧
      JsonValidation.null_or_array with_position "sources" =
        .ok (m.sources_.frames.map json.frame_to_json) ∧
      JsonValidation.null_or_array with_position "sinks" =
        .ok (m.sinks_.frames.map json.frame_to_json) := by
  have hsources := frames_to_json_ok json m.sources_.frames
    (fun g hg => hframes g (List.mem_append_left _ hg))
  have hsinks := frames_to_json_ok json m.sinks_.frames
    (fun g hg => hframes g (List.mem_append_right _ hg))
  have hsf := taint_frames_of_is_bottom m.sources_
  have hkf := taint_frames_of_is_bottom m.sinks_
  have h1 : ¬ ("sources".data < "field".data) := by decide
  have h2 : ¬ ("sinks".data < "field".data) := by decide
  have h3 : "sinks".data < "sources".data := by decide
  have h4 : ¬ ("position".data < "field".data) := by decide
  have h5 : "position".data < "sinks".data := by decide
  have h6 : "position".data < "sources".data := by decide
  rcases hf : m.field_ with _ | field <;>
  rcases Bool.eq_false_or_eq_true m.sources_.is_bottom with hs | hs <;>
  rcases Bool.eq_false_or_eq_true m.sinks_.is_bottom with hk | hk <;>
  simp [to_json, to_json_with_context, hf, hs, hk, hsources, hsinks, Taint.frames_iterator,
    JsonValue.set, JsonValue.get, JsonValue.members, JsonValue.insert_member,
    JsonValue.is_object, lookup, h1, h2, h3, h4, h5, h6, JsonValidation.null_or_array,
    hsf, hkf]

theorem add_values_of_frames (json : JsonFunctions) (m : FieldModel) (frames : List Frame)
    (hcodec : ∀ frame ∈ frames,
      ∃ config, json.taint_config_from_json (json.frame_to_json frame) = .ok config ∧
        config.is_leaf = true ∧
        (m.with_field_origins (Taint.of_config config)).frames = [frame]) :
    ∀ (model : FieldModel) (events : List Event), model.field_ = m.field_ →
      (∃ next logged,
        add_values json add_source model events (frames.map json.frame_to_json) =
          .ok (next, logged) ∧
        next.field_ = m.field_ ∧ next.sinks_ = model.sinks_ ∧
        ∀ g, g ∈ next.sources_.frames ↔ g ∈ model.sources_.frames ∨ g ∈ frames) ∧
      (∃ next logged,
        add_values json add_sink model events (frames.map json.frame_to_json) =
          .ok (next, logged) ∧
        next.field_ = m.field_ ∧ next.sources_ = model.sources_ ∧
        ∀ g, g ∈ next.sinks_.frames ↔ g ∈ model.sinks_.frames ∨ g ∈ frames) := by
  induction frames with
  | nil =>
    intro model events hfield
    exact ⟨⟨model, events, rfl, hfield, rfl, by simp⟩,
      ⟨model, events, rfl, hfield, rfl, by simp⟩⟩
  | cons frame rest ih =>
    intro model events hfield
    obtain ⟨config, hdecode, hleaf, hframe⟩ := hcodec frame (List.mem_cons_self _ _)
    have hrest := ih (fun g hg => hcodec g (List.mem_cons_of_mem _ hg))
    have hframe2 : (model.with_field_origins (Taint.of_config config)).frames = [frame] := by
      rw [with_field_origins_congr model m hfield]
      exact hframe
    constructor
    · obtain ⟨next, logged, hnext, hf, hk, hmem⟩ :=
        (hrest { model with
            sources_ := model.sources_.join_with
              (model.with_field_origins (Taint.of_config config)) }
          (events ++ model.check_taint_config_consistency config "source") hfield).1
      refine ⟨next, logged, ?_, hf, hk, ?_⟩
      · simp only [List.map_cons, add_values, hdecode, add_source_of_leaf model config hleaf]
        exact hnext
      · intro g
        rw [hmem g, Taint.taint_mem_join_with, hframe2]
        simp [or_assoc]
    · obtain ⟨next, logged, hnext, hf, hk, hmem⟩ :=
        (hrest { model with
            sinks_ := model.sinks_.join_with
              (model.with_field_origins (Taint.of_config config)) }
          (events ++ model.check_taint_config_consistency config "sink") hfield).2
      refine ⟨next, logged, ?_, hf, hk, ?_⟩
      · simp only [List.map_cons, add_values, hdecode, add_sink_of_leaf model config hleaf]
        exact hnext
      · intro g
        rw [hmem g, Taint.taint_mem_join_with, hframe2]
        simp [or_assoc]

theorem from_json_of_arrays (json : JsonFunctions) (m : FieldModel) (value : JsonValue)
    (hobject : value.is_object = true)
    (hsources : JsonValidation.null_or_array value "sources" =
      .ok (m.sources_.frames.map json.frame_to_json))
    (hsinks : JsonValidation.null_or_array value "sinks" =
      .ok (m.sinks_.frames.map json.frame_to_json))
    (hcodec : ∀ frame ∈ m.sources_.frames ++ m.sinks_.frames,
      ∃ config, json.taint_config_from_json (json.frame_to_json frame) = .ok config ∧
        config.is_leaf = true ∧
        (m.with_field_origins (Taint.of_config config)).frames = [frame]) :
    ∃ model events, from_json json m.field_ value = .ok (model, events) ∧
      model.equals m = true ∧ m.equals model = true ∧ model.field_ = m.field_ := by
  obtain ⟨first, logged, hfirst, hfield, hfirst_sinks, hfirst_mem⟩ :=
    (add_values_of_frames json m m.sources_.frames
      (fun g hg => hcodec g (List.mem_append_left _ hg)) (for_field m.field_) [] rfl).1
  obtain ⟨second, logged2, hsecond, hfield2, hsecond_sources, hsecond_mem⟩ :=
    (add_values_of_frames json m m.sinks_.frames
      (fun g hg => hcodec g (List.mem_append_right _ hg)) first logged hfield).2
  have hsrc : ∀ g, g ∈ second.sources_.frames ↔ g ∈ m.sources_.frames := by
    intro g
    rw [hsecond_sources, hfirst_mem]
    simp [for_field, Taint.bottom]
  have hsnk : ∀ g, g ∈ second.sinks_.frames ↔ g ∈ m.sinks_.frames := by
    intro g
    rw [hsecond_mem, hfirst_sinks]
    simp [for_field, Taint.bottom]
  refine ⟨second, logged2, ?_, ?_, ?_, hfield2⟩
  · simp only [from_json, JsonValidation.validate_object, hobject, if_true, hsources, hfirst,
      hsinks]
    exact hsecond
  · simp only [equals, Bool.and_eq_true, Taint.taint_equals_iff]
    exact ⟨hsrc, hsnk⟩
  · simp only [equals, Bool.and_eq_true, Taint.taint_equals_iff]
    exact ⟨fun g => (hsrc g).symm, fun g => (hsnk g).symm⟩

end FieldModel

end MarianaTrench

/-! ## `FieldModel`: equality, join, instantiation and the invariant on field origins -/

namespace MarianaTrench

namespace Taint

theorem taint_equals_refl (a : Taint) : a.equals a = true := by
  rw [taint_equals_iff]
  intro f
  exact Iff.rfl

theorem taint_join_with_comm (a b : Taint) : (a.join_with b).equals (b.join_with a) = true := by
  rw [taint_equals_iff]
  intro f
  rw [taint_mem_join_with, taint_mem_join_with]
  exact Or.comm

theorem taint_join_with_idem (a : Taint) : (a.join_with a).equals a = true := by
  rw [taint_equals_iff]
  intro f
  rw [taint_mem_join_with]
  exact or_self_iff

theorem taint_is_bottom_iff (a : Taint) : a.is_bottom = true ↔ ∀ f, f ∉ a.frames := by
  cases a with
  | mk frames nodup =>
    cases frames with
    | nil => simp [is_bottom]
    | cons x t =>
      simp only [is_bottom, List.isEmpty_cons, Bool.false_eq_true, false_iff, not_forall,
        not_not]
      exact ⟨x, List.mem_cons_self _ _⟩

theorem taint_mem_bottom_join_with (a : Taint) (f : Frame) :
    f ∈ (bottom.join_with a).frames ↔ f ∈ a.frames := by
  rw [taint_mem_join_with]
  simp [bottom]

theorem taint_mem_set_field_origins (a : Taint) (field : Field) (f : Frame) :
    f ∈ (a.set_field_origins_if_empty_with_field_callee field).frames ↔
      ∃ g ∈ a.frames, f = g.set_field_origins_if_empty_with_field_callee field := by
  simp only [set_field_origins_if_empty_with_field_callee, List.mem_dedup, List.mem_map]
  constructor
  · rintro ⟨g, hg, rfl⟩
    exact ⟨g, hg, rfl⟩
  · rintro ⟨g, hg, rfl⟩
    exact ⟨g, hg, rfl⟩

end Taint

theorem frame_field_origins_after_set (frame : Frame) (field : Field) :
    (frame.set_field_origins_if_empty_with_field_callee field).field_origins ≠ [] := by
  by_cases h : frame.field_origins.isEmpty = true
  · simp [Frame.set_field_origins_if_empty_with_field_callee, h]
  · have hne : frame.field_origins ≠ [] := fun hnil => h (by simp [hnil])
    simp [Frame.set_field_origins_if_empty_with_field_callee, h, hne]

theorem frame_set_field_origins_idem (frame : Frame) (field : Field) :
    (frame.set_field_origins_if_empty_with_field_callee
        field).set_field_origins_if_empty_with_field_callee field =
      frame.set_field_origins_if_empty_with_field_callee field := by
  by_cases h : frame.field_origins.isEmpty = true
  · simp [Frame.set_field_origins_if_empty_with_field_callee, h]
  · simp [Frame.set_field_origins_if_empty_with_field_callee, h]

namespace FieldModel

/-- C26: equality of field models is decided by the taint alone. `a == b` holds
if and only if the sources are `==` and the sinks are `==`, which is when both
sides hold the same source frames and the same sink frames; the fields play no
part, so the answer is the same whatever the two fields are; and `a != b` is
the negation of `a == b`. -/
theorem equals_is_decided_by_taint (a b : FieldModel) :
    (a.equals b = true ↔
      a.sources_.equals b.sources_ = true ∧ a.sinks_.equals b.sinks_ = true) ∧
    (a.equals b = true ↔
      (∀ frame, frame ∈ a.sources_.frames ↔ frame ∈ b.sources_.frames) ∧
      (∀ frame, frame ∈ a.sinks_.frames ↔ frame ∈ b.sinks_.frames)) ∧
    (∀ field other_field : Option Field,
      (FieldModel.mk field a.sources_ a.sinks_).equals
        (FieldModel.mk other_field b.sources_ b.sinks_) = a.equals b) ∧
    a.not_equals b = !a.equals b ∧
    (a.not_equals b = true ↔ ¬ a.equals b = true) := by
  refine ⟨?_, ?_, ?_, rfl, ?_⟩
  · simp [equals]
  · simp [equals, Taint.taint_equals_iff]
  · intro field other_field
    rfl
  · simp [not_equals]

theorem field_model_leq_iff (a b : FieldModel) :
    a.leq b = true ↔ a.sources_.leq b.sources_ = true ∧ a.sinks_.leq b.sinks_ = true := by
  simp [leq]

theorem leq_join_with_left (a b : FieldModel) : a.leq (a.join_with b false) = true := by
  rw [field_model_leq_iff]
  exact ⟨Taint.taint_leq_join_with_left _ _, Taint.taint_leq_join_with_left _ _⟩

theorem leq_join_with_right (a b : FieldModel) : b.leq (a.join_with b false) = true := by
  rw [field_model_leq_iff]
  exact ⟨Taint.taint_leq_join_with_right _ _, Taint.taint_leq_join_with_right _ _⟩

/-- C22: `join_with` joins each side on its own, is idempotent and commutative,
and gives an upper bound. After `a.join_with(b)` the sources are the join of
the sources, the sinks are the join of the sinks and the field is the field of
`a`; `a.join_with(a)` leaves a model `==` to `a`, whether or not the test on
the addresses returns early; `a.join_with(b) == b.join_with(a)`; both operands
are `leq` the result, so the expensive assertion passes. -/
theorem join_with_is_idempotent_and_commutative (a b : FieldModel) :
    (a.join_with b false).sources_ = a.sources_.join_with b.sources_ ∧
    (a.join_with b false).sinks_ = a.sinks_.join_with b.sinks_ ∧
    (a.join_with b false).field_ = a.field_ ∧
    (∀ frame, frame ∈ (a.join_with b false).sources_.frames ↔
      frame ∈ a.sources_.frames ∨ frame ∈ b.sources_.frames) ∧
    (∀ frame, frame ∈ (a.join_with b false).sinks_.frames ↔
      frame ∈ a.sinks_.frames ∨ frame ∈ b.sinks_.frames) ∧
    (∀ same_object, (a.join_with a same_object).equals a = true) ∧
    (a.join_with b false).equals (b.join_with a false) = true ∧
    a.leq (a.join_with b false) = true ∧ b.leq (a.join_with b false) = true ∧
    a.join_with_expensive b false = .ok (a.join_with b false) ∧
    (∀ same_object,
      ∃ r, a.join_with_expensive a same_object = .ok r ∧ r.equals a = true) := by
  have hidem : ∀ same_object, (a.join_with a same_object).equals a = true := by
    intro same_object
    cases same_object
    · simp only [equals, join_with, Bool.false_eq_true, if_false, Bool.and_eq_true]
      exact ⟨Taint.taint_join_with_idem _, Taint.taint_join_with_idem _⟩
    · simp only [equals, join_with, if_true, Bool.and_eq_true]
      exact ⟨Taint.taint_equals_refl _, Taint.taint_equals_refl _⟩
  have hexpensive : ∀ c : FieldModel,
      a.join_with_expensive c false = .ok (a.join_with c false) := by
    intro c
    simp [join_with_expensive, leq_join_with_left, leq_join_with_right]
  refine ⟨rfl, rfl, rfl, ?_, ?_, hidem, ?_, leq_join_with_left a b, leq_join_with_right a b,
    hexpensive b, ?_⟩
  · intro frame
    exact Taint.taint_mem_join_with _ _ _
  · intro frame
    exact Taint.taint_mem_join_with _ _ _
  · simp only [equals, join_with, Bool.false_eq_true, if_false, Bool.and_eq_true]
    exact ⟨Taint.taint_join_with_comm _ _, Taint.taint_join_with_comm _ _⟩
  · intro same_object
    cases same_object
    · exact ⟨_, hexpensive a, hidem false⟩
    · exact ⟨a, rfl, hidem true⟩

theorem instantiate_eq (m : FieldModel) (field : Option Field) :
    (m.instantiate field).1 =
      ⟨field, Taint.bottom.join_with ((for_field field).with_field_origins m.sources_),
        Taint.bottom.join_with ((for_field field).with_field_origins m.sinks_)⟩ := by
  rfl

theorem mem_instantiate_sources (m : FieldModel) (f : Field) (frame : Frame) :
    frame ∈ (m.instantiate (some f)).1.sources_.frames ↔
      ∃ g ∈ m.sources_.frames, frame = g.set_field_origins_if_empty_with_field_callee f := by
  rw [instantiate_eq, Taint.taint_mem_bottom_join_with]
  exact Taint.taint_mem_set_field_origins _ _ _

theorem mem_instantiate_sinks (m : FieldModel) (f : Field) (frame : Frame) :
    frame ∈ (m.instantiate (some f)).1.sinks_.frames ↔
      ∃ g ∈ m.sinks_.frames, frame = g.set_field_origins_if_empty_with_field_callee f := by
  rw [instantiate_eq, Taint.taint_mem_bottom_join_with]
  exact Taint.taint_mem_set_field_origins _ _ _

theorem check_taint_consistency_of_field_origins (m : FieldModel) (taint : Taint)
    (kind : String) (h : ∀ frame ∈ taint.frames, frame.field_origins ≠ []) :
    m.check_taint_consistency taint kind = [] := by
  simp only [check_taint_consistency, Taint.frames_iterator, List.flatMap_eq_nil_iff]
  intro frame hframe
  have hne := h frame hframe
  have hempty : frame.field_origins.isEmpty = false := by
    cases hfo : frame.field_origins with
    | nil => exact absurd hfo hne
    | cons x t => rfl
  simp [hempty]

/-- C25: `instantiate` for a field that is not null gives a model for that
field which holds, for every frame of the receiver, that frame with the field
as its field callee and with field origins, and nothing else; so it is empty
if and only if the receiver is empty. Instantiating the result again for the
same field gives a model `==` to it, and no event is logged. The receiver is a
constant argument and is not changed. -/
theorem instantiate_is_idempotent_and_keeps_facts (m : FieldModel) (f : Field) :
    (m.instantiate (some f)).1.field_ = some f ∧
    (m.instantiate (some f)).1.empty = m.empty ∧
    (∀ frame, frame ∈ (m.instantiate (some f)).1.sources_.frames ↔
      ∃ g ∈ m.sources_.frames, frame = g.set_field_origins_if_empty_with_field_callee f) ∧
    (∀ frame, frame ∈ (m.instantiate (some f)).1.sinks_.frames ↔
      ∃ g ∈ m.sinks_.frames, frame = g.set_field_origins_if_empty_with_field_callee f) ∧
    ((m.instantiate (some f)).1.instantiate (some f)).1.equals (m.instantiate (some f)).1 =
      true ∧
    (m.instantiate (some f)).2 = [] ∧
    ((m.instantiate (some f)).1.instantiate (some f)).2 = [] := by
  have hbottom : ∀ a b : Taint,
      (∀ frame, frame ∈ a.frames ↔
        ∃ g ∈ b.frames, frame = g.set_field_origins_if_empty_with_field_callee f) →
      a.is_bottom = b.is_bottom := by
    intro a b h
    rw [Bool.eq_iff_iff, Taint.taint_is_bottom_iff, Taint.taint_is_bottom_iff]
    constructor
    · intro ha g hg
      exact ha _ ((h _).2 ⟨g, hg, rfl⟩)
    · intro hb frame hframe
      obtain ⟨g, hg, _⟩ := (h frame).1 hframe
      exact hb g hg
  have hagain : ∀ a b : Taint,
      (∀ frame, frame ∈ a.frames ↔
        ∃ g ∈ b.frames, frame = g.set_field_origins_if_empty_with_field_callee f) →
      ∀ c : Taint, (∀ frame, frame ∈ c.frames ↔
        ∃ g ∈ a.frames, frame = g.set_field_origins_if_empty_with_field_callee f) →
      c.equals a = true := by
    intro a b hab c hca
    rw [Taint.taint_equals_iff]
    intro frame
    rw [hca frame]
    constructor
    · rintro ⟨g, hg, rfl⟩
      obtain ⟨x, hx, rfl⟩ := (hab g).1 hg
      rw [frame_set_field_origins_idem]
      exact (hab _).2 ⟨x, hx, rfl⟩
    · intro hframe
      obtain ⟨x, hx, rfl⟩ := (hab frame).1 hframe
      exact ⟨_, hframe, (frame_set_field_origins_idem x f).symm⟩
  have hevents : ∀ model : FieldModel, (model.instantiate (some f)).2 = [] := by
    intro model
    have hset : ∀ taint : Taint,
        ∀ frame ∈ ((for_field (some f)).with_field_origins taint).frames,
          frame.field_origins ≠ [] := by
      intro taint frame hframe
      obtain ⟨g, _, rfl⟩ := (Taint.taint_mem_set_field_origins taint f frame).1 hframe
      exact frame_field_origins_after_set g f
    simp only [instantiate, add_source_taint, add_sink_taint, List.append_eq_nil]
    exact ⟨check_taint_consistency_of_field_origins _ _ _ (hset _),
      check_taint_consistency_of_field_origins _ _ _ (hset _)⟩
  refine ⟨rfl, ?_, mem_instantiate_sources m f, mem_instantiate_sinks m f, ?_, hevents m,
    hevents _⟩
  · simp only [empty]
    rw [hbottom _ _ (mem_instantiate_sources m f), hbottom _ _ (mem_instantiate_sinks m f)]
  · simp only [equals, Bool.and_eq_true]
    exact ⟨hagain _ _ (mem_instantiate_sources m f) _ (mem_instantiate_sources _ f),
      hagain _ _ (mem_instantiate_sinks m f) _ (mem_instantiate_sinks _ f)⟩

theorem field_origins_invariant_iff (m : FieldModel) :
    m.field_origins_invariant = true ↔
      (m.field_ ≠ none →
        ∀ frame, frame ∈ m.sources_.frames ∨ frame ∈ m.sinks_.frames →
          frame.field_origins ≠ []) := by
  cases hf : m.field_ with
  | none => simp [field_origins_invariant, hf]
  | some field =>
    simp only [field_origins_invariant, hf, Option.isNone_some, Bool.false_or, List.all_eq_true,
      List.mem_append, Bool.not_eq_true', ne_eq, not_false_eq_true, true_implies, reduceCtorEq]
    constructor
    · intro h frame hframe hnil
      have := h frame hframe
      simp [hnil] at this
    · intro h frame hframe
      have := h frame hframe
      cases hfo : frame.field_origins with
      | nil => exact absurd hfo this
      | cons x t => rfl

theorem field_origins_of_with_field_origins (m : FieldModel) (taint : Taint)
    (hfield : m.field_ ≠ none) :
    ∀ frame ∈ (m.with_field_origins taint).frames, frame.field_origins ≠ [] := by
  intro frame hframe
  cases hf : m.field_ with
  | none => exact absurd hf hfield
  | some field =>
    simp only [with_field_origins, hf] at hframe
    obtain ⟨g, _, rfl⟩ := (Taint.taint_mem_set_field_origins taint field frame).1 hframe
    exact frame_field_origins_after_set g field

theorem add_source_taint_invariant (m : FieldModel) (taint : Taint)
    (hm : m.field_origins_invariant = true) :
    (m.add_source_taint taint).1.field_origins_invariant = true := by
  rw [field_origins_invariant_iff] at hm ⊢
  intro hfield frame hframe
  have hfield2 : m.field_ ≠ none := hfield
  rcases hframe with h | h
  · rcases (Taint.taint_mem_join_with _ _ _).1 h with h1 | h1
    · exact hm hfield2 frame (Or.inl h1)
    · exact field_origins_of_with_field_origins m taint hfield2 frame h1
  · exact hm hfield2 frame (Or.inr h)

theorem add_sink_taint_invariant (m : FieldModel) (taint : Taint)
    (hm : m.field_origins_invariant = true) :
    (m.add_sink_taint taint).1.field_origins_invariant = true := by
  rw [field_origins_invariant_iff] at hm ⊢
  intro hfield frame hframe
  have hfield2 : m.field_ ≠ none := hfield
  rcases hframe with h | h
  · exact hm hfield2 frame (Or.inl h)
  · rcases (Taint.taint_mem_join_with _ _ _).1 h with h1 | h1
    · exact hm hfield2 frame (Or.inr h1)
    · exact field_origins_of_with_field_origins m taint hfield2 frame h1

theorem add_source_invariant (m : FieldModel) (config : TaintConfig)
    (result : FieldModel × List Event) (h : m.add_source config = .ok result)
    (hm : m.field_origins_invariant = true) : result.1.field_origins_invariant = true := by
  unfold add_source at h
  split at h
  · cases h
  · cases h
    exact add_source_taint_invariant m _ hm

theorem add_sink_invariant (m : FieldModel) (config : TaintConfig)
    (result : FieldModel × List Event) (h : m.add_sink config = .ok result)
    (hm : m.field_origins_invariant = true) : result.1.field_origins_invariant = true := by
  unfold add_sink at h
  split at h
  · cases h
  · cases h
    exact add_sink_taint_invariant m _ hm

theorem add_configs_invariant
    (add : FieldModel → TaintConfig → Except Failure (FieldModel × List Event))
    (hadd : ∀ m config result, add m config = .ok result →
      m.field_origins_invariant = true → result.1.field_origins_invariant = true)
    (configs : List TaintConfig) :
    ∀ (model : FieldModel) (events : List Event) (result : FieldModel × List Event),
      add_configs add model events configs = .ok result →
      model.field_origins_invariant = true → result.1.field_origins_invariant = true := by
  induction configs with
  | nil =>
    intro model events result h hm
    simp only [add_configs] at h
    cases h
    exact hm
  | cons config rest ih =>
    intro model events result h hm
    simp only [add_configs] at h
    cases hstep : add model config with
    | error e => simp [hstep] at h
    | ok next =>
      simp only [hstep] at h
      exact ih next.1 _ result h (hadd model config next hstep hm)

theorem add_values_invariant (json : JsonFunctions)
    (add : FieldModel → TaintConfig → Except Failure (FieldModel × List Event))
    (hadd : ∀ m config result, add m config = .ok result →
      m.field_origins_invariant = true → result.1.field_origins_invariant = true)
    (values : List JsonValue) :
    ∀ (model : FieldModel) (events : List Event) (result : FieldModel × List Event),
      add_values json add model events values = .ok result →
      model.field_origins_invariant = true → result.1.field_origins_invariant = true := by
  induction values with
  | nil =>
    intro model events result h hm
    simp only [add_values] at h
    cases h
    exact hm
  | cons value rest ih =>
    intro model events result h hm
    simp only [add_values] at h
    cases hdecode : json.taint_config_from_json value with
    | error e => simp [hdecode] at h
    | ok config =>
      simp only [hdecode] at h
      cases hstep : add model config with
      | error e => simp [hstep] at h
      | ok next =>
        simp only [hstep] at h
        exact ih next.1 _ result h (hadd model config next hstep hm)

theorem for_field_invariant (field : Option Field) :
    (for_field field).field_origins_invariant = true := by
  cases field <;> rfl

theorem construct_invariant (field : Option Field) (sources sinks : List TaintConfig)
    (result : FieldModel × List Event) (h : construct field sources sinks = .ok result) :
    result.1.field_origins_invariant = true := by
  unfold construct at h
  cases hfirst : add_configs add_source (for_field field) [] sources with
  | error e => simp [hfirst] at h
  | ok first =>
    simp only [hfirst] at h
    exact add_configs_invariant add_sink add_sink_invariant sinks first.1 first.2 result h
      (add_configs_invariant add_source add_source_invariant sources _ _ first hfirst
        (for_field_invariant field))

theorem from_json_invariant (json : JsonFunctions) (field : Option Field) (value : JsonValue)
    (result : FieldModel × List Event) (h : from_json json field value = .ok result) :
    result.1.field_origins_invariant = true := by
  unfold from_json at h
  cases hobject : JsonValidation.validate_object value with
  | error e => simp [hobject] at h
  | ok u =>
    simp only [hobject] at h
    cases hsources : JsonValidation.null_or_array value "sources" with
    | error e => simp [hsources] at h
    | ok source_values =>
      simp only [hsources] at h
      cases hfirst : add_values json add_source (for_field field) [] source_values with
      | error e => simp [hfirst] at h
      | ok first =>
        simp only [hfirst] at h
        cases hsinks : JsonValidation.null_or_array value "sinks" with
        | error e => simp [hsinks] at h
        | ok sink_values =>
          simp only [hsinks] at h
          exact add_values_invariant json add_sink add_sink_invariant sink_values first.1
            first.2 result h
            (add_values_invariant json add_source add_source_invariant source_values _ _ first
              hfirst (for_field_invariant field))

theorem instantiate_invariant (m : FieldModel) (field : Option Field) :
    (m.instantiate field).1.field_origins_invariant = true := by
  have h := add_sink_taint_invariant ((for_field field).add_source_taint m.sources_).1 m.sinks_
    (add_source_taint_invariant (for_field field) m.sources_ (for_field_invariant field))
  exact h

/-- C21, amended: the invariant on field origins (once the field is known,
every frame of the sources and sinks has field origins) holds for the model
without facts, after the constructor and after `from_json`, and is preserved by
`add_source` and `add_sink`, on a config and on a taint, whenever they return;
`instantiate` gives a model that satisfies it; and `join_with` preserves it
when the other model has a known field and satisfies the invariant too. -/
theorem field_origins_invariant_is_preserved (m other : FieldModel)
    (hm : m.field_origins_invariant = true) (hfield : other.field_ ≠ none)
    (hother : other.field_origins_invariant = true) :
    (∀ field, (for_field field).field_origins_invariant = true) ∧
    (∀ field sources sinks result, construct field sources sinks = .ok result →
      result.1.field_origins_invariant = true) ∧
    (∀ json field value result, from_json json field value = .ok result →
      result.1.field_origins_invariant = true) ∧
    (∀ config result, m.add_source config = .ok result →
      result.1.field_origins_invariant = true) ∧
    (∀ config result, m.add_sink config = .ok result →
      result.1.field_origins_invariant = true) ∧
    (∀ taint, (m.add_source_taint taint).1.field_origins_invariant = true) ∧
    (∀ taint, (m.add_sink_taint taint).1.field_origins_invariant = true) ∧
    (∀ field, (m.instantiate field).1.field_origins_invariant = true) ∧
    (∀ same_object, (m.join_with other same_object).field_origins_invariant = true) := by
  refine ⟨for_field_invariant, construct_invariant, from_json_invariant,
    fun config result h => add_source_invariant m config result h hm,
    fun config result h => add_sink_invariant m config result h hm,
    fun taint => add_source_taint_invariant m taint hm,
    fun taint => add_sink_taint_invariant m taint hm,
    instantiate_invariant m, ?_⟩
  intro same_object
  cases same_object
  · have hm2 := (field_origins_invariant_iff m).1 hm
    have hother2 := (field_origins_invariant_iff other).1 hother hfield
    rw [field_origins_invariant_iff]
    intro hf frame hframe
    have hf2 : m.field_ ≠ none := hf
    rcases hframe with h | h
    · rcases (Taint.taint_mem_join_with _ _ _).1 h with h1 | h1
      · exact hm2 hf2 frame (Or.inl h1)
      · exact hother2 frame (Or.inl h1)
    · rcases (Taint.taint_mem_join_with _ _ _).1 h with h1 | h1
      · exact hm2 hf2 frame (Or.inr h1)
      · exact hother2 frame (Or.inr h1)
  · exact hm

end FieldModel

end MarianaTrench

/-! ## `CalleeFrames::update_non_leaf_positions` and the callee of a bottom value -/

namespace MarianaTrench

namespace CalleeFrames

variable {D : Type} [AbstractDomain D]

/-- C23: `update_non_leaf_positions` does nothing on a leaf group. For every
`CalleeFrames` whose callee is null the call returns the receiver itself, with
its callee and its whole position partition, for all functions
`new_call_position` and `new_local_positions`, also for functions that never
return: neither of them is called. -/
theorem update_non_leaf_positions_is_no_op_on_leaf (self : CalleeFrames D)
    (hleaf : self.callee = none)
    (map_positions : D → (AccessPath → Option Position → Except Failure (Option Position)) →
      (List Position → Except Failure (List Position)) →
      Except Failure (List (Option Position × D)))
    (new_call_position :
      Method → AccessPath → Option Position → Except Failure (Option Position))
    (new_local_positions : List Position → Except Failure (List Position)) :
    self.update_non_leaf_positions map_positions new_call_position new_local_positions =
      .ok self := by
  unfold update_non_leaf_positions
  rw [hleaf]

end CalleeFrames

/-- C24 fails on the code: the `CalleeFrames` that `add` builds from bottom for
callee 1 satisfies the invariant, and `difference_with` itself, whose operands
share the callee, returns a value whose partition is bottom while its callee is
still callee 1. On that value as the receiver, `join_with`, `widen_with`,
`meet_with`, `narrow_with` and `difference_with` all stop at
`mt_assert(callee_ == nullptr)`, even with the bottom argument. -/
theorem difference_with_keeps_callee_of_bottom_result :
    ∃ a r : CalleeFrames CallPositionFrames,
      CalleeFrames.bottom.add sample_callee_config = .ok a ∧
      a.callee = some 1 ∧ a.is_bottom = false ∧ a.callee_invariant = true ∧
      a.difference_with a = .ok r ∧
      r.is_bottom = true ∧ r.callee = some 1 ∧ r.callee_invariant = false ∧
      r.join_with a = .error .assertion ∧
      r.widen_with a = .error .assertion ∧
      r.meet_with a = .error .assertion ∧
      r.narrow_with a = .error .assertion ∧
      r.difference_with a = .error .assertion ∧
      r.join_with CalleeFrames.bottom = .error .assertion :=
  ⟨_, _, rfl, rfl, rfl, rfl, rfl, rfl, rfl, rfl, rfl, rfl, rfl, rfl, rfl, rfl⟩

end MarianaTrench

/-! ## The order of JSON values is a strict total order -/

namespace MarianaTrench

namespace JsonValue

mutual
theorem json_induction (P : JsonValue → Prop) (hnull : P .null) (hbool : ∀ b, P (.bool b))
    (hint : ∀ n, P (.int n)) (hstring : ∀ s, P (.string s))
    (harray : ∀ elements, (∀ e ∈ elements, P e) → P (.array elements))
    (hobject : ∀ members, (∀ m ∈ members, P m.2) → P (.object members)) :
    ∀ value, P value
  | .null => hnull
  | .bool b => hbool b
  | .int n => hint n
  | .string s => hstring s
  | .array elements =>
    harray elements
      (json_induction_elements P hnull hbool hint hstring harray hobject elements)
  | .object members =>
    hobject members
      (json_induction_members P hnull hbool hint hstring harray hobject members)
theorem json_induction_elements (P : JsonValue → Prop) (hnull : P .null)
    (hbool : ∀ b, P (.bool b)) (hint : ∀ n, P (.int n)) (hstring : ∀ s, P (.string s))
    (harray : ∀ elements, (∀ e ∈ elements, P e) → P (.array elements))
    (hobject : ∀ members, (∀ m ∈ members, P m.2) → P (.object members)) :
    ∀ elements : List JsonValue, ∀ e ∈ elements, P e
  | [] => fun e he => absurd he (List.not_mem_nil e)
  | x :: xs => fun e he =>
    (List.mem_cons.1 he).elim
      (fun h => h ▸ json_induction P hnull hbool hint hstring harray hobject x)
      (fun h => json_induction_elements P hnull hbool hint hstring harray hobject xs e h)
theorem json_induction_members (P : JsonValue → Prop) (hnull : P .null)
    (hbool : ∀ b, P (.bool b)) (hint : ∀ n, P (.int n)) (hstring : ∀ s, P (.string s))
    (harray : ∀ elements, (∀ e ∈ elements, P e) → P (.array elements))
    (hobject : ∀ members, (∀ m ∈ members, P m.2) → P (.object members)) :
    ∀ members : List (String × JsonValue), ∀ m ∈ members, P m.2
  | [] => fun m hm => absurd hm (List.not_mem_nil m)
  | (_, x) :: xs => fun m hm =>
    (List.mem_cons.1 hm).elim
      (fun h => h ▸ json_induction P hnull hbool hint hstring harray hobject x)
      (fun h => json_induction_members P hnull hbool hint hstring harray hobject xs m h)
end

theorem linear_compare_swap {α : Type} [LinearOrder α] (a b : α) :
    Ord.compare b a = (Ord.compare a b).swap := by
  rw [← cmp_eq_compare, ← cmp_eq_compare, cmp_swap]

theorem linear_compare_trans {α : Type} [LinearOrder α] (a b c : α)
    (h1 : Ord.compare a b = .lt) (h2 : Ord.compare b c = .lt) : Ord.compare a c = .lt := by
  rw [compare_lt_iff_lt] at *
  exact lt_trans h1 h2

mutual
theorem json_compare_eq : ∀ (a b : JsonValue), compare a b = .eq → a = b
  | .null, b => by cases b <;> simp [compare, rank, compare_eq_iff_eq]
  | .int x, b => by cases b <;> simp [compare, rank, compare_eq_iff_eq]
  | .string s, b => by
    cases b <;> simp [compare, rank, compare_eq_iff_eq]
    exact String.ext
  | .bool x, b => by cases b <;> simp [compare, rank, compare_eq_iff_eq]
  | .array xs, b => by
    cases b <;> simp [compare, rank, Ordering.then_eq_eq, compare_eq_iff_eq]
    intro _ h
    exact json_compare_elements_eq xs _ h
  | .object ms, b => by
    cases b <;> simp [compare, rank, Ordering.then_eq_eq, compare_eq_iff_eq]
    intro _ h
    exact json_compare_members_eq ms _ h
theorem json_compare_elements_eq :
    ∀ (xs ys : List JsonValue), compare_elements xs ys = .eq → xs = ys
  | [], [] => by simp
  | [], _ :: _ => by simp [compare_elements]
  | _ :: _, [] => by simp [compare_elements]
  | x :: xs, y :: ys => by
    simp only [compare_elements, Ordering.then_eq_eq, List.cons.injEq]
    intro h
    exact ⟨json_compare_eq x y h.1, json_compare_elements_eq xs ys h.2⟩
theorem json_compare_members_eq : ∀ (xs ys : List (String × JsonValue)),
    compare_members xs ys = .eq → xs = ys
  | [], [] => by simp
  | [], _ :: _ => by simp [compare_members]
  | _ :: _, [] => by simp [compare_members]
  | (k, x) :: xs, (l, y) :: ys => by
    simp only [compare_members, Ordering.then_eq_eq, List.cons.injEq, Prod.mk.injEq,
      compare_eq_iff_eq]
    intro h
    exact ⟨⟨String.ext h.1, json_compare_eq x y h.2.1⟩, json_compare_members_eq xs ys h.2.2⟩
end

mutual
theorem json_compare_swap : ∀ (a b : JsonValue), compare b a = (compare a b).swap
  | .null, b => by cases b <;> rfl
  | .int x, b => by
    cases b <;> first | rfl | exact linear_compare_swap _ _
  | .string s, b => by
    cases b <;> first | rfl | exact linear_compare_swap _ _
  | .bool x, b => by
    cases b <;> first | rfl | exact linear_compare_swap _ _
  | .array xs, b => by
    cases b with
    | array ys =>
      simp only [compare]
      rw [linear_compare_swap xs.length, json_compare_elements_swap xs, Ordering.swap_then]
    | _ => rfl
  | .object ms, b => by
    cases b with
    | object ns =>
      simp only [compare]
      rw [linear_compare_swap ms.length, json_compare_members_swap ms, Ordering.swap_then]
    | _ => rfl
theorem json_compare_elements_swap : ∀ (xs ys : List JsonValue),
    compare_elements ys xs = (compare_elements xs ys).swap
  | [], [] => rfl
  | [], _ :: _ => rfl
  | _ :: _, [] => rfl
  | x :: xs, y :: ys => by
    simp only [compare_elements]
    rw [json_compare_swap x y, json_compare_elements_swap xs ys, Ordering.swap_then]
theorem json_compare_members_swap : ∀ (xs ys : List (String × JsonValue)),
    compare_members ys xs = (compare_members xs ys).swap
  | [], [] => rfl
  | [], _ :: _ => rfl
  | _ :: _, [] => rfl
  | (k, x) :: xs, (l, y) :: ys => by
    simp only [compare_members]
    rw [json_compare_swap x y, json_compare_members_swap xs ys, linear_compare_swap k.data,
      Ordering.swap_then, Ordering.swap_then]
end

theorem then_trans (o1 o2 p1 p2 q1 : Ordering) (q2 : Ordering)
    (h1 : o1.then o2 = .lt) (h2 : p1.then p2 = .lt)
    (hlt : o1 = .lt → p1 = .lt → q1 = .lt)
    (hle : o1 = .lt → p1 = .eq → q1 = .lt)
    (hel : o1 = .eq → p1 = .lt → q1 = .lt)
    (hee : o1 = .eq → p1 = .eq → q1 = .eq)
    (hrest : o2 = .lt → p2 = .lt → q2 = .lt) : q1.then q2 = .lt := by
  rw [Ordering.then_eq_lt] at *
  rcases h1 with h1 | ⟨h1, h1r⟩ <;> rcases h2 with h2 | ⟨h2, h2r⟩
  · exact Or.inl (hlt h1 h2)
  · exact Or.inl (hle h1 h2)
  · exact Or.inl (hel h1 h2)
  · exact Or.inr ⟨hee h1 h2, hrest h1r h2r⟩

theorem linear_then_trans {α : Type} [LinearOrder α] (a b c : α) (o2 p2 q2 : Ordering)
    (h1 : (Ord.compare a b).then o2 = .lt) (h2 : (Ord.compare b c).then p2 = .lt)
    (hrest : o2 = .lt → p2 = .lt → q2 = .lt) : (Ord.compare a c).then q2 = .lt := by
  apply then_trans _ _ _ _ _ _ h1 h2 _ _ _ _ hrest
  · intro h h'
    exact linear_compare_trans a b c h h'
  · intro h h'
    rw [compare_eq_iff_eq] at h'
    rw [← h']
    exact h
  · intro h h'
    rw [compare_eq_iff_eq] at h
    rw [h]
    exact h'
  · intro h h'
    rw [compare_eq_iff_eq] at *
    rw [h, h']

theorem json_compare_self (a : JsonValue) : compare a a = .eq := by
  have h := json_compare_swap a a
  cases hc : compare a a with
  | eq => rfl
  | lt => rw [hc] at h; cases h
  | gt => rw [hc] at h; cases h

mutual
theorem json_compare_trans : ∀ (a b c : JsonValue), compare a b = .lt → compare b c = .lt →
    compare a c = .lt
  | .null, b, c => by
    cases b <;> cases c <;> simp [compare, rank, compare_lt_iff_lt]
  | .int x, b, c => by
    cases b <;> cases c <;> simp [compare, rank, compare_lt_iff_lt]
    exact fun h1 h2 => lt_trans h1 h2
  | .string s, b, c => by
    cases b <;> cases c <;> simp [compare, rank, compare_lt_iff_lt]
    exact fun h1 h2 => lt_trans h1 h2
  | .bool x, b, c => by
    cases b <;> cases c <;> simp [compare, rank, compare_lt_iff_lt]
    exact fun h1 h2 => lt_trans h1 h2
  | .array xs, b, c => by
    cases b <;> cases c <;> simp [compare, rank, compare_lt_iff_lt]
    rename_i ys zs
    intro h1 h2
    exact linear_then_trans xs.length ys.length zs.length _ _ _ h1 h2
      (json_compare_elements_trans xs ys zs)
  | .object ms, b, c => by
    cases b <;> cases c <;> simp [compare, rank, compare_lt_iff_lt]
    rename_i ys zs
    intro h1 h2
    exact linear_then_trans ms.length ys.length zs.length _ _ _ h1 h2
      (json_compare_members_trans ms ys zs)
theorem json_compare_elements_trans : ∀ (xs ys zs : List JsonValue),
    compare_elements xs ys = .lt → compare_elements ys zs = .lt → compare_elements xs zs = .lt
  | [], ys, zs => by
    cases ys <;> cases zs <;> simp [compare_elements]
  | x :: xs, ys, zs => by
    cases ys with
    | nil => simp [compare_elements]
    | cons y ys =>
      cases zs with
      | nil => simp [compare_elements]
      | cons z zs =>
        simp only [compare_elements]
        intro h1 h2
        apply then_trans _ _ _ _ _ _ h1 h2 (json_compare_trans x y z) _ _ _
          (json_compare_elements_trans xs ys zs)
        · intro h h'
          rw [← json_compare_eq y z h']
          exact h
        · intro h h'
          rw [json_compare_eq x y h]
          exact h'
        · intro h h'
          rw [json_compare_eq x y h, json_compare_eq y z h']
          exact json_compare_self z
theorem json_compare_members_trans : ∀ (xs ys zs : List (String × JsonValue)),
    compare_members xs ys = .lt → compare_members ys zs = .lt → compare_members xs zs = .lt
  | [], ys, zs => by
    cases ys <;> cases zs <;> simp [compare_members]
  | (k, x) :: xs, ys, zs => by
    cases ys with
    | nil => simp [compare_members]
    | cons y ys =>
      cases zs with
      | nil => simp [compare_members]
      | cons z zs =>
        obtain ⟨l, y⟩ := y
        obtain ⟨m, z⟩ := z
        simp only [compare_members]
        intro h1 h2
        apply linear_then_trans k.data l.data m.data _ _ _ h1 h2
        intro h1 h2
        apply then_trans _ _ _ _ _ _ h1 h2 (json_compare_trans x y z) _ _ _
          (json_compare_members_trans xs ys zs)
        · intro h h'
          rw [← json_compare_eq y z h']
          exact h
        · intro h h'
          rw [json_compare_eq x y h]
          exact h'
        · intro h h'
          rw [json_compare_eq x y h, json_compare_eq y z h']
          exact json_compare_self z
end

theorem not_after_iff (a b : JsonValue) : not_after a b ↔ compare a b ≠ .gt := by
  unfold not_after lt
  rw [json_compare_swap a b]
  cases compare a b <;> decide

theorem not_after_total (a b : JsonValue) : not_after a b ∨ not_after b a := by
  rw [not_after_iff, not_after_iff, json_compare_swap a b]
  cases compare a b <;> decide

theorem not_after_antisymm (a b : JsonValue) (h1 : not_after a b) (h2 : not_after b a) :
    a = b := by
  rw [not_after_iff] at h1 h2
  rw [json_compare_swap a b] at h2
  apply json_compare_eq
  cases hc : compare a b with
  | eq => rfl
  | lt => rw [hc] at h2; exact absurd rfl h2
  | gt => exact absurd hc h1

theorem not_after_trans (a b c : JsonValue) (h1 : not_after a b) (h2 : not_after b c) :
    not_after a c := by
  rw [not_after_iff] at *
  cases hab : compare a b with
  | gt => exact absurd hab h1
  | eq =>
    rw [json_compare_eq a b hab]
    exact h2
  | lt =>
    cases hbc : compare b c with
    | gt => exact absurd hbc h2
    | eq =>
      rw [← json_compare_eq b c hbc, hab]
      simp
    | lt =>
      rw [json_compare_trans a b c hab hbc]
      simp

instance : IsTotal JsonValue not_after := ⟨not_after_total⟩

instance : IsTrans JsonValue not_after := ⟨not_after_trans⟩

instance : IsAntisymm JsonValue not_after := ⟨not_after_antisymm⟩

theorem sort_sorted (elements : List JsonValue) : List.Sorted not_after (sort elements) :=
  List.sorted_insertionSort not_after elements

theorem sort_perm (elements : List JsonValue) : (sort elements).Perm elements :=
  List.perm_insertionSort not_after elements

theorem sort_eq_of_perm (left right : List JsonValue) (h : left.Perm right) :
    sort left = sort right :=
  List.eq_of_perm_of_sorted ((sort_perm left).trans (h.trans (sort_perm right).symm))
    (sort_sorted left) (sort_sorted right)

theorem sort_eq_self (elements : List JsonValue) (h : List.Sorted not_after elements) :
    sort elements = elements :=
  List.eq_of_perm_of_sorted (sort_perm elements) (sort_sorted elements) h

end JsonValue

end MarianaTrench

/-! ## `sorted_json` is a canonical form -/

namespace MarianaTrench

namespace JsonValue

theorem mem_insert_member (members : List (String × JsonValue)) (key : String)
    (member : JsonValue) (e : String × JsonValue) (h : e ∈ insert_member members key member) :
    e = (key, member) ∨ e ∈ members := by
  induction members with
  | nil =>
    simp only [insert_member, List.mem_singleton] at h
    exact Or.inl h
  | cons head rest ih =>
    obtain ⟨k, v⟩ := head
    simp only [insert_member] at h
    split at h
    · rcases List.mem_cons.1 h with h | h
      · exact Or.inl h
      · exact Or.inr (List.mem_cons_of_mem _ h)
    · split at h
      · rcases List.mem_cons.1 h with h | h
        · exact Or.inl h
        · exact Or.inr h
      · rcases List.mem_cons.1 h with h | h
        · exact Or.inr (h ▸ List.mem_cons_self _ _)
        · rcases ih h with h | h
          · exact Or.inl h
          · exact Or.inr (List.mem_cons_of_mem _ h)

theorem keys_insert_member (members : List (String × JsonValue)) (key : String)
    (member : JsonValue) (k : String) :
    k ∈ (insert_member members key member).map Prod.fst ↔
      k = key ∨ k ∈ members.map Prod.fst := by
  induction members with
  | nil => simp [insert_member]
  | cons head rest ih =>
    obtain ⟨k0, v0⟩ := head
    simp only [insert_member]
    split
    · rename_i heq
      simp only [List.map_cons, List.mem_cons, heq]
      tauto
    · split
      · simp only [List.map_cons, List.mem_cons]
      · simp only [List.map_cons, List.mem_cons, ih]
        tauto

theorem insert_member_ordered (members : List (String × JsonValue)) (key : String)
    (member : JsonValue)
    (h : List.Sorted (fun left right => left.1.data < right.1.data) members) :
    List.Sorted (fun left right : String × JsonValue => left.1.data < right.1.data)
      (insert_member members key member) := by
  induction members with
  | nil => simp [insert_member]
  | cons head rest ih =>
    obtain ⟨k0, v0⟩ := head
    have hhead := (List.sorted_cons.1 h).1
    have hrest := (List.sorted_cons.1 h).2
    simp only [insert_member]
    split
    · rename_i heq
      refine List.sorted_cons.2 ⟨?_, hrest⟩
      intro e he
      rw [heq]
      exact hhead e he
    · split
      · rename_i hne hlt
        refine List.sorted_cons.2 ⟨?_, h⟩
        intro e he
        rcases List.mem_cons.1 he with rfl | he
        · exact hlt
        · exact lt_trans hlt (hhead e he)
      · rename_i hne hnlt
        have hdata : key.data ≠ k0.data := fun hd => hne (String.ext hd)
        have hgt : k0.data < key.data := by
          rcases lt_trichotomy key.data k0.data with h1 | h1 | h1
          · exact absurd h1 hnlt
          · exact absurd h1 hdata
          · exact h1
        refine List.sorted_cons.2 ⟨?_, ih hrest⟩
        intro e he
        rcases mem_insert_member rest key member e he with rfl | he
        · exact hgt
        · exact hhead e he

theorem insert_member_append (members : List (String × JsonValue)) (key : String)
    (member : JsonValue) (h : ∀ e ∈ members, e.1.data < key.data) :
    insert_member members key member = members ++ [(key, member)] := by
  induction members with
  | nil => rfl
  | cons head rest ih =>
    obtain ⟨k0, v0⟩ := head
    have hlt : k0.data < key.data := h (k0, v0) (List.mem_cons_self _ _)
    have hne : ¬ key = k0 := fun heq => lt_irrefl k0.data (heq ▸ hlt)
    have hnlt : ¬ key.data < k0.data := lt_asymm hlt
    simp only [insert_member, hne, hnlt, if_false, List.cons_append]
    rw [ih (fun e he => h e (List.mem_cons_of_mem _ he))]

end JsonValue

theorem sorted_json_elements_eq_map (elements : List JsonValue) :
    sorted_json_elements elements = elements.map sorted_json := by
  induction elements with
  | nil => rfl
  | cons x xs ih => simp [sorted_json_elements, ih]

theorem sorted_json_members_object (members : List (String × JsonValue)) :
    ∀ sorted : List (String × JsonValue),
      ∃ result, sorted_json_members members (.object sorted) = .object result ∧
        (∀ e ∈ result, e ∈ sorted ∨ ∃ m ∈ members, e = (m.1, sorted_json m.2)) ∧
        (List.Sorted (fun left right => left.1.data < right.1.data) sorted →
          List.Sorted (fun left right : String × JsonValue => left.1.data < right.1.data)
            result) ∧
        (∀ key, key ∈ result.map Prod.fst ↔
          key ∈ sorted.map Prod.fst ∨ key ∈ members.map Prod.fst) := by
  induction members with
  | nil =>
    intro sorted
    exact ⟨sorted, rfl, fun e he => Or.inl he, fun h => h, by simp⟩
  | cons head rest ih =>
    intro sorted
    obtain ⟨k, v⟩ := head
    obtain ⟨result, hresult, hmem, hordered, hkeys⟩ :=
      ih (JsonValue.insert_member sorted k (sorted_json v))
    refine ⟨result, ?_, ?_, ?_, ?_⟩
    · simp only [sorted_json_members, JsonValue.set, JsonValue.members]
      exact hresult
    · intro e he
      rcases hmem e he with h | ⟨m, hm, h⟩
      · rcases JsonValue.mem_insert_member sorted k _ e h with h | h
        · exact Or.inr ⟨(k, v), List.mem_cons_self _ _, h⟩
        · exact Or.inl h
      · exact Or.inr ⟨m, List.mem_cons_of_mem _ hm, h⟩
    · intro h
      exact hordered (JsonValue.insert_member_ordered sorted k _ h)
    · intro key
      rw [hkeys key, JsonValue.keys_insert_member]
      simp only [List.map_cons, List.mem_cons]
      tauto

theorem sorted_json_members_of_ordered (members : List (String × JsonValue)) :
    ∀ sorted : List (String × JsonValue),
      List.Sorted (fun left right => left.1.data < right.1.data) (sorted ++ members) →
      sorted_json_members members (.object sorted) =
        .object (sorted ++ members.map (fun m => (m.1, sorted_json m.2))) := by
  induction members with
  | nil =>
    intro sorted _
    simp [sorted_json_members]
  | cons head rest ih =>
    intro sorted h
    obtain ⟨k, v⟩ := head
    have hpair := List.pairwise_append.1 h
    have hbefore : ∀ e ∈ sorted, e.1.data < k.data :=
      fun e he => hpair.2.2 e he (k, v) (List.mem_cons_self _ _)
    simp only [sorted_json_members, JsonValue.set, JsonValue.members]
    rw [JsonValue.insert_member_append sorted k _ hbefore, ih]
    · simp
    · have hkeys : List.Sorted (fun left right : List Char => left < right)
          ((sorted ++ (k, v) :: rest).map (fun e => e.1.data)) :=
        List.pairwise_map.2 h
      have hsame : (sorted ++ [(k, sorted_json v)] ++ rest).map (fun e => e.1.data) =
          (sorted ++ (k, v) :: rest).map (fun e => e.1.data) := by
        simp
      exact List.pairwise_map.1 (hsame ▸ hkeys)

theorem arrays_sorted_elements_iff (elements : List JsonValue) :
    arrays_sorted_elements elements ↔ ∀ e ∈ elements, arrays_sorted e := by
  induction elements with
  | nil => simp [arrays_sorted_elements]
  | cons x xs ih => simp [arrays_sorted_elements, ih]

theorem arrays_sorted_members_iff (members : List (String × JsonValue)) :
    arrays_sorted_members members ↔ ∀ m ∈ members, arrays_sorted m.2 := by
  induction members with
  | nil => simp [arrays_sorted_members]
  | cons x xs ih =>
    obtain ⟨k, v⟩ := x
    simp [arrays_sorted_members, ih]

theorem keys_ordered_elements_iff (elements : List JsonValue) :
    keys_ordered_elements elements ↔ ∀ e ∈ elements, keys_ordered e := by
  induction elements with
  | nil => simp [keys_ordered_elements]
  | cons x xs ih => simp [keys_ordered_elements, ih]

theorem keys_ordered_members_iff (members : List (String × JsonValue)) :
    keys_ordered_members members ↔ ∀ m ∈ members, keys_ordered m.2 := by
  induction members with
  | nil => simp [keys_ordered_members]
  | cons x xs ih =>
    obtain ⟨k, v⟩ := x
    simp [keys_ordered_members, ih]

theorem same_elements_length (elements : List JsonValue) :
    ∀ others, same_elements elements others → elements.length = others.length := by
  induction elements with
  | nil =>
    intro others h
    cases others with
    | nil => rfl
    | cons o os => simp [same_elements] at h
  | cons x xs ih =>
    intro others h
    cases others with
    | nil => simp [same_elements] at h
    | cons o os =>
      simp only [same_elements] at h
      simp [ih os h.2]

theorem same_elements_map_eq (elements : List JsonValue)
    (hsame : ∀ e ∈ elements, ∀ w,
      same_up_to_array_order e w → sorted_json e = sorted_json w) :
    ∀ others, same_elements elements others →
      elements.map sorted_json = others.map sorted_json := by
  induction elements with
  | nil =>
    intro others h
    cases others with
    | nil => rfl
    | cons o os => simp [same_elements] at h
  | cons x xs ih =>
    intro others h
    cases others with
    | nil => simp [same_elements] at h
    | cons o os =>
      simp only [same_elements] at h
      simp only [List.map_cons]
      rw [hsame x (List.mem_cons_self _ _) o h.1,
        ih (fun e he => hsame e (List.mem_cons_of_mem _ he)) os h.2]

theorem same_members_loop_eq (members : List (String × JsonValue))
    (hsame : ∀ m ∈ members, ∀ w, same_up_to_array_order m.2 w →
      sorted_json m.2 = sorted_json w) :
    ∀ others, same_members members others →
      ∀ sorted, sorted_json_members members sorted = sorted_json_members others sorted := by
  induction members with
  | nil =>
    intro others h sorted
    cases others with
    | nil => rfl
    | cons o os => simp [same_members] at h
  | cons x xs ih =>
    intro others h sorted
    obtain ⟨k, v⟩ := x
    cases others with
    | nil => simp [same_members] at h
    | cons o os =>
      obtain ⟨l, w⟩ := o
      simp only [same_members] at h
      simp only [sorted_json_members]
      rw [hsame (k, v) (List.mem_cons_self _ _) w h.2.1, h.1]
      exact ih (fun e he => hsame e (List.mem_cons_of_mem _ he)) os h.2.2 _

theorem same_elements_map (elements : List JsonValue) (f : JsonValue → JsonValue)
    (h : ∀ e ∈ elements, same_up_to_array_order e (f e)) :
    same_elements elements (elements.map f) := by
  induction elements with
  | nil => simp [same_elements]
  | cons x xs ih =>
    simp only [List.map_cons, same_elements]
    exact ⟨h x (List.mem_cons_self _ _), ih (fun e he => h e (List.mem_cons_of_mem _ he))⟩

theorem same_members_map (members : List (String × JsonValue)) (f : JsonValue → JsonValue)
    (h : ∀ m ∈ members, same_up_to_array_order m.2 (f m.2)) :
    same_members members (members.map (fun m => (m.1, f m.2))) := by
  induction members with
  | nil => simp [same_members]
  | cons x xs ih =>
    obtain ⟨k, v⟩ := x
    simp only [List.map_cons, same_members, true_and]
    exact ⟨h (k, v) (List.mem_cons_self _ _),
      ih (fun e he => h e (List.mem_cons_of_mem _ he))⟩

theorem sorted_json_array (elements : List JsonValue) :
    sorted_json (.array elements) = .array (JsonValue.sort (elements.map sorted_json)) := by
  cases elements with
  | nil => rfl
  | cons x xs =>
    simp only [sorted_json, List.isEmpty_cons, Bool.false_eq_true, if_false,
      sorted_json_elements_eq_map]

theorem sorted_json_same (value : JsonValue) :
    ∀ other, same_up_to_array_order value other → sorted_json value = sorted_json other := by
  refine JsonValue.json_induction
    (fun value => ∀ other, same_up_to_array_order value other →
      sorted_json value = sorted_json other) ?_ ?_ ?_ ?_ ?_ ?_ value
  · intro other h
    cases other <;> simp [same_up_to_array_order] at h ⊢
  · intro b other h
    cases other <;> simp [same_up_to_array_order] at h ⊢
    rw [h]
  · intro n other h
    cases other <;> simp [same_up_to_array_order] at h ⊢
    rw [h]
  · intro s other h
    cases other <;> simp [same_up_to_array_order] at h ⊢
    rw [h]
  · intro elements ih other h
    cases other with
    | array others =>
      simp only [same_up_to_array_order] at h
      obtain ⟨permuted, hperm, hsame⟩ := h
      rw [sorted_json_array, sorted_json_array, same_elements_map_eq elements ih permuted hsame]
      exact congrArg JsonValue.array (JsonValue.sort_eq_of_perm _ _ (hperm.map sorted_json))
    | _ => simp [same_up_to_array_order] at h
  · intro members ih other h
    cases other with
    | object others =>
      simp only [same_up_to_array_order] at h
      simp only [sorted_json]
      exact same_members_loop_eq members ih others h _
    | _ => simp [same_up_to_array_order] at h

theorem same_up_to_array_order_refl (value : JsonValue) :
    same_up_to_array_order value value := by
  refine JsonValue.json_induction (fun value => same_up_to_array_order value value)
    ?_ ?_ ?_ ?_ ?_ ?_ value
  · simp [same_up_to_array_order]
  · intro b
    simp [same_up_to_array_order]
  · intro n
    simp [same_up_to_array_order]
  · intro s
    simp [same_up_to_array_order]
  · intro elements ih
    simp only [same_up_to_array_order]
    refine ⟨elements, List.Perm.refl _, ?_⟩
    have h := same_elements_map elements id ih
    rwa [List.map_id] at h
  · intro members ih
    simp only [same_up_to_array_order]
    have h := same_members_map members id ih
    simpa using h

theorem same_of_perm (elements permuted : List JsonValue) (h : elements.Perm permuted) :
    same_up_to_array_order (.array elements) (.array permuted) := by
  simp only [same_up_to_array_order]
  refine ⟨elements, h, ?_⟩
  have hsame := same_elements_map elements id (fun e _ => same_up_to_array_order_refl e)
  rwa [List.map_id] at hsame

theorem sorted_json_arrays_sorted (value : JsonValue) : arrays_sorted (sorted_json value) := by
  refine JsonValue.json_induction (fun value => arrays_sorted (sorted_json value))
    ?_ ?_ ?_ ?_ ?_ ?_ value
  · simp [sorted_json, arrays_sorted]
  · intro b
    simp [sorted_json, arrays_sorted]
  · intro n
    simp [sorted_json, arrays_sorted]
  · intro s
    simp [sorted_json, arrays_sorted]
  · intro elements ih
    rw [sorted_json_array]
    simp only [arrays_sorted, arrays_sorted_elements_iff]
    refine ⟨JsonValue.sort_sorted _, ?_⟩
    intro e he
    have he2 := (JsonValue.sort_perm _).mem_iff.1 he
    obtain ⟨x, hx, rfl⟩ := List.mem_map.1 he2
    exact ih x hx
  · intro members ih
    obtain ⟨result, hresult, hmem, _, _⟩ := sorted_json_members_object members []
    simp only [sorted_json]
    rw [hresult]
    simp only [arrays_sorted, arrays_sorted_members_iff]
    intro m hm
    rcases hmem m hm with h | ⟨x, hx, rfl⟩
    · simp at h
    · exact ih x hx

theorem sorted_json_member_names (value : JsonValue) (key : String) :
    key ∈ (sorted_json value).member_names ↔ key ∈ value.member_names := by
  cases value with
  | object members =>
    obtain ⟨result, hresult, _, _, hkeys⟩ := sorted_json_members_object members []
    simp only [sorted_json]
    rw [hresult]
    simp only [JsonValue.member_names, JsonValue.members]
    rw [hkeys key]
    simp
  | array elements =>
    rw [sorted_json_array]
    simp [JsonValue.member_names, JsonValue.members]
  | _ => simp [sorted_json]

theorem sorted_json_is_object (value : JsonValue) :
    (sorted_json value).is_object = value.is_object := by
  cases value with
  | object members =>
    obtain ⟨result, hresult, _, _, _⟩ := sorted_json_members_object members []
    simp only [sorted_json]
    rw [hresult]
    rfl
  | array elements =>
    rw [sorted_json_array]
    rfl
  | _ => simp [sorted_json]

theorem sorted_json_keeps_shape (value : JsonValue) :
    keys_ordered value → same_up_to_array_order value (sorted_json value) := by
  refine JsonValue.json_induction
    (fun value => keys_ordered value → same_up_to_array_order value (sorted_json value))
    ?_ ?_ ?_ ?_ ?_ ?_ value
  · intro _
    simp [sorted_json, same_up_to_array_order]
  · intro b _
    simp [sorted_json, same_up_to_array_order]
  · intro n _
    simp [sorted_json, same_up_to_array_order]
  · intro s _
    simp [sorted_json, same_up_to_array_order]
  · intro elements ih h
    simp only [keys_ordered, keys_ordered_elements_iff] at h
    rw [sorted_json_array]
    simp only [same_up_to_array_order]
    exact ⟨elements.map sorted_json, (JsonValue.sort_perm _).symm,
      same_elements_map elements sorted_json (fun e he => ih e he (h e he))⟩
  · intro members ih h
    simp only [keys_ordered, keys_ordered_members_iff] at h
    simp only [sorted_json]
    rw [sorted_json_members_of_ordered members [] (by simpa using h.1)]
    simp only [List.nil_append, same_up_to_array_order]
    exact same_members_map members sorted_json (fun m hm => ih m hm (h.2 m hm))

theorem sorted_json_idempotent (value : JsonValue) :
    sorted_json (sorted_json value) = sorted_json value := by
  refine JsonValue.json_induction
    (fun value => sorted_json (sorted_json value) = sorted_json value) ?_ ?_ ?_ ?_ ?_ ?_ value
  · simp [sorted_json]
  · intro b
    simp [sorted_json]
  · intro n
    simp [sorted_json]
  · intro s
    simp [sorted_json]
  · intro elements ih
    rw [sorted_json_array, sorted_json_array]
    have hfixed : (JsonValue.sort (elements.map sorted_json)).map sorted_json =
        JsonValue.sort (elements.map sorted_json) := by
      conv_rhs => rw [← List.map_id (JsonValue.sort (elements.map sorted_json))]
      apply List.map_congr_left
      intro e he
      have he2 := (JsonValue.sort_perm _).mem_iff.1 he
      obtain ⟨x, hx, rfl⟩ := List.mem_map.1 he2
      exact ih x hx
    rw [hfixed, JsonValue.sort_eq_self _ (JsonValue.sort_sorted _)]
  · intro members ih
    obtain ⟨result, hresult, hmem, hordered, _⟩ := sorted_json_members_object members []
    simp only [sorted_json]
    rw [hresult]
    simp only [sorted_json]
    rw [sorted_json_members_of_ordered result []
      (by simpa using hordered (List.sorted_nil))]
    simp only [List.nil_append]
    congr 1
    conv_rhs => rw [← List.map_id result]
    apply List.map_congr_left
    intro m hm
    rcases hmem m hm with h | ⟨x, hx, rfl⟩
    · simp at h
    · simp only [id]
      rw [ih x hx]

/-- C27: `sorted_json` is a canonical form that ignores the order of arrays.
Two values that differ only by the order of the elements of arrays, at any
depth, have the same `sorted_json`, so two arrays with the same elements in
another order do; every array of the result, at any depth, is in non-decreasing
order of `Json::Value::operator<`; the result of an array is an array of the
same length, which holds the results of the elements; the result has the keys
of the value and is an object exactly when the value is one; a value whose
objects keep their keys in order differs from its result only by the order of
arrays, which gives the lengths and the keys at every depth; and `sorted_json`
of the result is the result. -/
theorem sorted_json_is_canonical_form (value other : JsonValue) :
    (same_up_to_array_order value other → sorted_json value = sorted_json other) ∧
    (∀ elements permuted : List JsonValue, elements.Perm permuted →
      sorted_json (.array elements) = sorted_json (.array permuted)) ∧
    arrays_sorted (sorted_json value) ∧
    (∀ elements, value = .array elements →
      ∃ sorted, sorted_json value = .array sorted ∧ sorted.length = elements.length ∧
        List.Sorted JsonValue.not_after sorted ∧ sorted.Perm (elements.map sorted_json)) ∧
    (∀ key, key ∈ (sorted_json value).member_names ↔ key ∈ value.member_names) ∧
    (sorted_json value).is_object = value.is_object ∧
    (keys_ordered value → same_up_to_array_order value (sorted_json value)) ∧
    sorted_json (sorted_json value) = sorted_json value := by
  refine ⟨sorted_json_same value other, ?_, sorted_json_arrays_sorted value, ?_,
    sorted_json_member_names value, sorted_json_is_object value, sorted_json_keeps_shape value,
    sorted_json_idempotent value⟩
  · intro elements permuted h
    exact sorted_json_same _ _ (same_of_perm elements permuted h)
  · intro elements h
    rw [h, sorted_json_array]
    refine ⟨_, rfl, ?_, JsonValue.sort_sorted _, JsonValue.sort_perm _⟩
    rw [(JsonValue.sort_perm _).length_eq, List.length_map]

end MarianaTrench
/-! ## The theorems at sample values -/

namespace MarianaTrench

/-- C2 at a sample value: the only frame is at distance 5, the maximum distance. -/
theorem propagate_cuts_off_at_maximum_distance_witness :
    ∃ r, (sample_callee_frames (some 1) (some 7) 5).propagate (some 2) ⟨Root.Argument 0, []⟩
        (some 9) 5 (fun _ => []) = .ok r ∧
      (∀ g ∈ r.facts, g.distance ≤ 5 ∧
        ∃ f ∈ (sample_callee_frames (some 1) (some 7) 5).facts, f.distance < 5 ∧
          g = f.propagate (some 2) ⟨Root.Argument 0, []⟩ (some 9) (fun _ => [])) ∧
      ((∀ f ∈ (sample_callee_frames (some 1) (some 7) 5).facts, 5 ≤ f.distance) →
        r = CalleeFrames.bottom) :=
  CalleeFrames.propagate_cuts_off_at_maximum_distance
    (sample_callee_frames (some 1) (some 7) 5) (some 2) ⟨Root.Argument 0, []⟩ (some 9) 5
    (fun _ => []) rfl

/-- C4 at a sample value: two groups of callee 1 under different positions. -/
theorem join_with_widen_with_upper_bound_witness :
    (∃ r, (sample_callee_frames (some 1) (some 7) 0).join_with
        (sample_callee_frames (some 1) (some 8) 2) = .ok r) ∧
      (∃ r, (sample_callee_frames (some 1) (some 7) 0).widen_with
        (sample_callee_frames (some 1) (some 8) 2) = .ok r) :=
  (CalleeFrames.join_with_widen_with_upper_bound (sample_callee_frames (some 1) (some 7) 0)
    (sample_callee_frames (some 1) (some 8) 2)).2.2.2.2 rfl rfl

/-- C8, as stated, fails: the `CalleeFrames` for callee 1 that holds one frame
is not bottom and its callee is not the null callee of top, so `leq(top)` and
`meet_with(top)` both stop at the callee assertion. Whatever callee a top value
records, some non-bottom `CalleeFrames` has another one, so no top value is
above every `CalleeFrames` without an assertion failing. -/
theorem top_fails_callee_assertion :
    ((sample_callee_frames (some 1) (some 7) 0).callee_invariant = true ∧
      (sample_callee_frames (some 1) (some 7) 0).leq CalleeFrames.top = .error .assertion ∧
      (sample_callee_frames (some 1) (some 7) 0).meet_with CalleeFrames.top =
        .error .assertion) ∧
    ¬ ∃ top_callee : Option Method, ∀ a : CalleeFrames CallPositionFrames,
      a.callee_invariant = true →
        a.leq ⟨top_callee, PatriciaTreeMapAbstractPartition.top⟩ = .ok true := by
  refine ⟨⟨rfl, rfl, rfl⟩, ?_⟩
  rintro ⟨top_callee, h⟩
  cases top_callee with
  | none =>
    have h1 := h (sample_callee_frames (some 1) (some 7) 0) rfl
    have h2 : (sample_callee_frames (some 1) (some 7) 0).leq
        ⟨none, PatriciaTreeMapAbstractPartition.top⟩ = .error .assertion := rfl
    rw [h2] at h1
    cases h1
  | some m =>
    have h1 := h (sample_callee_frames none none 0) rfl
    have h2 : (sample_callee_frames none none 0).leq
        ⟨some m, PatriciaTreeMapAbstractPartition.top⟩ = .error .assertion := rfl
    rw [h2] at h1
    cases h1

/-- C8, amended, at a sample value: a leaf group, whose callee is null. -/
theorem top_is_greatest_and_meet_identity_witness :
    (sample_callee_frames none none 0).leq CalleeFrames.top = .ok true ∧
    (sample_callee_frames none none 0).meet_with CalleeFrames.top =
      .ok (sample_callee_frames none none 0) ∧
    (sample_callee_frames none none 0).equals (sample_callee_frames none none 0) = .ok true ∧
    sample_call_effects.leq CallEffectsAbstractDomain.top = true ∧
    sample_call_effects.meet_with CallEffectsAbstractDomain.top =
      sample_call_effects ∧
    sample_call_effects.equals
      sample_call_effects = true :=
  CalleeFrames.top_is_greatest_and_meet_identity (sample_callee_frames none none 0)
    sample_call_effects rfl

/-- C11 at a sample value: a path of three segments that starts with the
accepted root and type. -/
theorem from_json_rejects_segment_count_witness :
    CallEffect.from_json (.string "CallEffect.call-chain.more") =
      .error ⟨.string "CallEffect.call-chain.more", none,
        "call effect to be specified as: `CallEffect.<type>` or `<type>`"⟩ :=
  from_json_rejects_segment_count (.string "CallEffect.call-chain.more")
    ["CallEffect", "call-chain", "more"] rfl (Or.inr (by decide))

/-- C12 at a sample value: the type `unknown-type` of the spec. -/
theorem from_json_rejects_unknown_type_witness :
    CallEffect.from_json (.string ("CallEffect." ++ "unknown-type")) =
      .error ⟨.string ("CallEffect." ++ "unknown-type"), none,
        "one of existing call effect types: `call-chain`"⟩ ∧
    CallEffect.from_json (.string "unknown-type") =
      .error ⟨.string "unknown-type", none,
        "one of existing call effect types: `call-chain`"⟩ :=
  from_json_rejects_unknown_type "unknown-type" (by decide) (by decide) (by decide)

/-- C13, amended, at a sample value: the root `Return` before the accepted type. -/
theorem from_json_rejects_other_root_witness :
    CallEffect.from_json (.string "Return.call-chain") =
      .error ⟨.string "Return.call-chain", none, "call effect root to be: `CallEffect`"⟩ :=
  from_json_rejects_other_root (.string "Return.call-chain") "Return" "call-chain" Root.Return
    rfl rfl rfl

/-- C15 at a sample value: the nested domain is the partition of frame groups
by call position, the domain is bottom, and the value written holds one frame. -/
theorem write_joins_and_never_overwrites_witness :
    AbstractDomain.equals
      (((CallEffectsAbstractDomain.bottom :
          CallEffectsAbstractDomain (FramesByCallPosition CallPositionFrames)).write
        ⟨CallEffect.Kind.CALL_CHAIN⟩
        (PatriciaTreeMapAbstractPartition.singleton (some 7)
          ⟨[sample_frame none (some 7) 0]⟩)).read ⟨CallEffect.Kind.CALL_CHAIN⟩)
      (PatriciaTreeMapAbstractPartition.singleton (some 7)
        ⟨[sample_frame none (some 7) 0]⟩) = true :=
  ((CallEffectsAbstractDomain.write_joins_and_never_overwrites
    (CallEffectsAbstractDomain.bottom :
      CallEffectsAbstractDomain (FramesByCallPosition CallPositionFrames))
    ⟨CallEffect.Kind.CALL_CHAIN⟩
    (PatriciaTreeMapAbstractPartition.singleton (some 7)
      ⟨[sample_frame none (some 7) 0]⟩)).2.2.2 PatriciaTreeMap.empty rfl
      (by simp [PatriciaTreeMap.keys, PatriciaTreeMap.empty])).2

/-- C20 at a sample value: the leaf config of `make_leaf_taint_config` for kind 1
is added to the empty model for field 7 and logs nothing, and the same config
on the port `Return` logs an event. -/
theorem add_source_logs_iff_invariant_violated_witness :
    (∃ model, (FieldModel.for_field (some 7)).add_source (make_leaf_taint_config (some 1)) =
      .ok (model, [])) ∧
    (∃ model events,
      (FieldModel.for_field (some 7)).add_source sample_non_leaf_port_config =
        .ok (model, events) ∧
      (events ≠ [] ↔ sample_non_leaf_port_config.violates_leaf_fact_invariant)) :=
  ⟨((FieldModel.add_source_logs_iff_invariant_violated (FieldModel.for_field (some 7))
      sample_non_leaf_port_config rfl).2.2.2 1 [] [] [] (by decide)).2.1,
    (FieldModel.add_source_logs_iff_invariant_violated (FieldModel.for_field (some 7))
      sample_non_leaf_port_config rfl).1⟩

/-- C21, as stated, fails for `join_with` with any other model: the model for
field 7, whose one source is of kind 1, satisfies the invariant, and so does
the model for the null field that `add_source` builds from one leaf config of
kind 2, whose source has no field origins. After the join the model for field
7 holds, next to its source of kind 1, the source of kind 2, the only fact of
its kind and so alone in its bucket; it has no field origins, and the
invariant is broken. -/
theorem join_with_null_field_model_breaks_field_origins_invariant :
    sample_field_model.field_ = some 7 ∧
    sample_field_model.field_origins_invariant = true ∧
    (∀ frame ∈ sample_field_model.sources_.frames, frame.kind = some 1) ∧
    (FieldModel.for_field none).add_source (make_leaf_taint_config (some 2)) =
      .ok (sample_null_field_model, []) ∧
    sample_null_field_model.field_origins_invariant = true ∧
    (sample_field_model.join_with sample_null_field_model false).field_ = some 7 ∧
    (sample_field_model.join_with sample_null_field_model false).field_origins_invariant =
      false ∧
    (make_leaf_taint_config (some 2)).to_frame ∈
      (sample_field_model.join_with sample_null_field_model false).sources_.frames ∧
    (make_leaf_taint_config (some 2)).to_frame.field_origins = [] ∧
    (∀ frame ∈ (sample_field_model.join_with sample_null_field_model false).sources_.frames,
      frame.kind = some 2 → frame = (make_leaf_taint_config (some 2)).to_frame) := by
  refine ⟨rfl, by decide, by decide, rfl, by decide, rfl, by decide, by decide, rfl,
    by decide⟩

/-- C21, amended, at a sample value: the model for field 7 with one source,
joined with itself. -/
theorem field_origins_invariant_is_preserved_witness :
    (∀ taint, (sample_field_model.add_source_taint taint).1.field_origins_invariant = true) ∧
    (∀ field, (sample_field_model.instantiate field).1.field_origins_invariant = true) ∧
    (∀ same_object,
      (sample_field_model.join_with sample_field_model same_object).field_origins_invariant =
        true) :=
  ⟨(FieldModel.field_origins_invariant_is_preserved sample_field_model sample_field_model
      (by decide) (by decide) (by decide)).2.2.2.2.2.1,
    (FieldModel.field_origins_invariant_is_preserved sample_field_model sample_field_model
      (by decide) (by decide) (by decide)).2.2.2.2.2.2.2.1,
    (FieldModel.field_origins_invariant_is_preserved sample_field_model sample_field_model
      (by decide) (by decide) (by decide)).2.2.2.2.2.2.2.2⟩

/-- C23 at a sample value: on the leaf group the call returns the group although
both functions never return, and on the group of callee 1 the same call does
not return. -/
theorem update_non_leaf_positions_is_no_op_on_leaf_witness :
    (sample_callee_frames none none 0).update_non_leaf_positions sample_map_positions
        (fun _ _ _ => .error .undefined_operation) (fun _ => .error .undefined_operation) =
      .ok (sample_callee_frames none none 0) ∧
    (sample_callee_frames (some 1) (some 7) 0).update_non_leaf_positions sample_map_positions
        (fun _ _ _ => .error .undefined_operation) (fun _ => .error .undefined_operation) =
      .error .undefined_operation :=
  ⟨CalleeFrames.update_non_leaf_positions_is_no_op_on_leaf (sample_callee_frames none none 0)
      rfl sample_map_positions (fun _ _ _ => .error .undefined_operation)
      (fun _ => .error .undefined_operation), rfl⟩

/-- C27 at a sample value: two arrays with the same elements in another order,
one of which is an array whose elements are in another order too, have the
same `sorted_json`, which is in order at both depths. -/
theorem sorted_json_is_canonical_form_witness :
    sorted_json (.array [.int 3, .array [.string "b", .string "a"]]) =
      sorted_json (.array [.array [.string "a", .string "b"], .int 3]) ∧
    sorted_json (.array [.int 3, .array [.string "b", .string "a"]]) =
      .array [.int 3, .array [.string "a", .string "b"]] := by
  have hsame : same_up_to_array_order
      (.array [.int 3, .array [.string "b", .string "a"]])
      (.array [.array [.string "a", .string "b"], .int 3]) := by
    simp only [same_up_to_array_order]
    refine ⟨[.int 3, .array [.string "a", .string "b"]], List.Perm.swap _ _ _, ?_⟩
    simp only [same_elements, same_up_to_array_order, and_true, true_and]
    refine ⟨[.string "b", .string "a"], List.Perm.swap _ _ _, ?_⟩
    simp [same_elements, same_up_to_array_order]
  exact ⟨(sorted_json_is_canonical_form _ _).1 hsame, rfl⟩

end MarianaTrench
